import Mathlib

/-!
A shallow embedding of the protarrow codec (protarrow/proto_to_arrow.py and
protarrow/arrow_to_proto.py) together with proofs about the claims of its
specification.

Modelling conventions:
* Protobuf messages are modelled as trees of `Value`s; a message is `Value.msgV`
  holding one `FieldVal` per descriptor field, positionally aligned with the
  descriptor's field list.
* PyArrow arrays are modelled as `AArray` trees.  Primitive arrays store their
  logical elements directly (`Option Scalar`, `none` being a null slot); the
  days-since-epoch representation of `date32` and the dictionary encoding of
  enum columns are bijective storage details of the arrow kernel (an external
  collaborator of the library), so the model stores the logical values.
* Machine integers are modelled as `Int`; the source never wraps (overflow in
  `pa.array` would raise, a path no claim exercises).
* Fallible paths (Python exceptions) are modelled with `Except String`.
* `ProtarrowConfig` lives in `protarrow/common.py`, which is not part of the
  sources; it is modelled from the spec (see `ProtarrowConfig` below).
-/

namespace Protarrow

/-- Protobuf primitive field kinds (the keys of
`_PROTO_PRIMITIVE_TYPE_TO_PYARROW` in proto_to_arrow.py). -/
inductive PrimKind
  | doubleP | floatP | int64P | uint64P | int32P | fixed64P | fixed32P | boolP
  | stringP | bytesP | uint32P | sfixed32P | sfixed64P | sint32P | sint64P
  deriving DecidableEq, Repr

/-- Timestamp/time units (the keys of `_TIMESTAMP_CONVERTER` in
arrow_to_proto.py). -/
inductive TsUnit
  | s | ms | us | ns
  deriving DecidableEq, Repr

/-- A Python-level scalar value as stored in / read back from an arrow array.
Float payloads are opaque to the codec (it only passes them through), so they
are modelled as opaque integer tokens.  `date` models the `datetime.date`
objects that a `date32` array stores and returns from `as_py`. -/
inductive Scalar
  | i (n : Int)
  | f (bits : Int)
  | b (v : Bool)
  | s (v : String)
  | bin (v : String)
  | date (y m d : Int)
  deriving DecidableEq, Repr

/-- PyArrow data types, as far as the codec distinguishes them. -/
inductive AType
  | int32T | int64T | uint32T | uint64T | float32T | float64T | boolT
  | stringT | binaryT | date32T
  | timestampT (u : TsUnit) (tz : String)
  | time64T (u : TsUnit)
  | dict32T (v : AType)
  | listT (itemNullable : Bool) (item : AType)
  | mapT (keyT : AType) (itemT : AType)
  | structT (fields : List (String × Bool × AType))
  deriving Repr

/-- PyArrow arrays, as far as the codec observes them: primitive arrays are a
data type plus logical elements with validity; list/map arrays carry offsets;
struct arrays carry named children and an optional validity mask
(`none` = no nulls). -/
inductive AArray
  | flat (t : AType) (vals : List (Option Scalar))
  | listA (itemNullable : Bool) (offsets : List (Option Int)) (child : AArray)
  | mapA (offsets : List (Option Int)) (keys : AArray) (items : AArray)
  | structA (fields : List (String × Bool × AType)) (children : List AArray)
      (validity : Option (List Bool))
  deriving Repr

/-- Field cardinality.  A protobuf map field is a repeated `map_entry`
sub-message; `mapC` records the primitive kind of its `key` field, the value
field's type being carried by the `FieldType` of the field. -/
inductive Card
  | singular
  | repeatedC
  | mapC (key : PrimKind)
  deriving DecidableEq, Repr

mutual
/-- The resolved kind of a protobuf field: primitive, enum (with its
`values_by_number` table), one of the three temporal well-known types, a
wrapper-of-scalar well-known type, or a plain sub-message with its own field
list. -/
inductive FieldType
  | prim (p : PrimKind)
  | enumT (vals : List (Int × String))
  | tsT
  | dateT
  | todT
  | wrapT (p : PrimKind)
  | msgT (fields : FieldList)
  deriving Repr

/-- A message descriptor's field list: name, cardinality and type per field. -/
inductive FieldList
  | nil
  | cons (name : String) (card : Card) (t : FieldType) (rest : FieldList)
  deriving Repr
end

mutual
/-- The value of a field at a singular occurrence. -/
inductive Value
  | primV (s : Scalar)
  | enumV (n : Int)
  | tsV (sec nanos : Int)
  | dateV (y m d : Int)
  | todV (h mi sec nanos : Int)
  | wrapV (s : Scalar)
  | msgV (fields : List FieldVal)
  deriving Repr

/-- The stored state of one field of a message: a singular value with its
presence bit (`HasField`; meaningful for message-typed fields), a repeated
list, or a map as an insertion-ordered association list. -/
inductive FieldVal
  | single (present : Bool) (v : Value)
  | rep (vs : List Value)
  | mapF (entries : List (Scalar × Value))
  deriving Repr
end

/-- Modelled from the spec: `ProtarrowConfig` (protarrow/common.py, absent from
the sources).  Options per spec section 6: `timestamp_unit`, `timestamp_tz`,
`time_unit` and the enum representation (default `binary`).  The source encoder
consults only `enum_type` (proto_to_arrow.py line 203); the timestamp and time
column types are module constants there. -/
structure ProtarrowConfig where
  enumType : AType := .binaryT
  timestampUnit : TsUnit := .ns
  timestampTz : String := "UTC"
  timeUnit : TsUnit := .ns

/-! ## Helpers for accessing modelled messages (the protobuf runtime's
`getattr`/`HasField` surface) -/

/-- The field slots of a message value (empty for non-messages). -/
def Value.fieldsOf : Value → List FieldVal
  | .msgV fs => fs
  | _ => []

/-- Junk field value used for out-of-range access (unreachable on conforming
data). -/
def junkField : FieldVal := .single false (.msgV [])

/-- `getattr`-by-position on a message value. -/
def getFieldVal (v : Value) (i : Nat) : FieldVal :=
  v.fieldsOf.getD i junkField

/-- The presence bit of a singular field slot (`HasField`). -/
def FieldVal.presentOf : FieldVal → Bool
  | .single p _ => p
  | _ => false

/-- The value of a singular field slot (what `getattr` returns; for an unset
message field this is the default instance, which conforming data stores). -/
def FieldVal.valueOf : FieldVal → Value
  | .single _ v => v
  | _ => .msgV []

/-- The list of a repeated field slot. -/
def FieldVal.listOf : FieldVal → List Value
  | .rep vs => vs
  | _ => []

/-- The entries of a map field slot, in insertion order. -/
def FieldVal.entriesOf : FieldVal → List (Scalar × Value)
  | .mapF es => es
  | _ => []

/-- Write a field slot of a message value by position. -/
def setFieldVal (v : Value) (i : Nat) (fv : FieldVal) : Value :=
  match v with
  | .msgV fs => .msgV (fs.set i fv)
  | x => x

/-! ## Encoding (proto_to_arrow.py) -/

/-- `_PROTO_PRIMITIVE_TYPE_TO_PYARROW`. -/
def primPa : PrimKind → AType
  | .doubleP => .float64T
  | .floatP => .float32T
  | .int64P => .int64T
  | .uint64P => .uint64T
  | .int32P => .int32T
  | .fixed64P => .uint64T
  | .fixed32P => .uint32T
  | .boolP => .boolT
  | .stringP => .stringT
  | .bytesP => .binaryT
  | .uint32P => .uint32T
  | .sfixed32P => .int32T
  | .sfixed64P => .int64T
  | .sint32P => .int32T
  | .sint64P => .int64T

/-- The proto default value of a primitive kind. -/
def primDefault : PrimKind → Scalar
  | .doubleP | .floatP => .f 0
  | .boolP => .b false
  | .stringP => .s ""
  | .bytesP => .bin ""
  | _ => .i 0

/-- `_PA_TIMESTAMP_TYPE = pa.timestamp("ns", "UTC")`. -/
def paTimestampType : AType := .timestampT .ns "UTC"

/-- `_PA_TIME_TYPE = pa.time64("ns")`. -/
def paTimeType : AType := .time64T .ns

/-- `_PROTO_DESCRIPTOR_TO_PYARROW`: the arrow type of the special (temporal and
wrapper) message descriptors. -/
def protoDescriptorToPyarrow : FieldType → Option AType
  | .dateT => some .date32T
  | .tsT => some paTimestampType
  | .todT => some paTimeType
  | .wrapT p => some (primPa p)
  | _ => none

/-- `_time_of_day_to_nanos`. -/
def timeOfDayToNanos (hours minutes seconds nanos : Int) : Int :=
  ((hours * 60 + minutes) * 60 + seconds) * 1000000000 + nanos

/-- `_PROTO_DESCRIPTOR_TO_ARROW_CONVERTER`: per-special-descriptor conversion
to the arrow element.  The `Date` converter maps year zero to `None`
(a null slot); `Timestamp.ToNanoseconds` is `seconds * 1e9 + nanos`.
The catch-all `none` results for mismatched value shapes are unreachable on
conforming data (the Python lambdas would fail there). -/
def specialConverter : FieldType → Option (Value → Option Scalar)
  | .dateT => some fun v =>
      match v with
      | .dateV y m d => if y = 0 then none else some (.date y m d)
      | _ => none
  | .tsT => some fun v =>
      match v with
      | .tsV sec nanos => some (.i (sec * 1000000000 + nanos))
      | _ => none
  | .todT => some fun v =>
      match v with
      | .todV h mi s n => some (.i (timeOfDayToNanos h mi s n))
      | _ => none
  | .wrapT _ => some fun v =>
      match v with
      | .wrapV s => some s
      | _ => none
  | _ => none

/-- Lookup in `values_by_number` (first match; protobuf guarantees uniqueness,
recorded in the schema well-formedness predicate). -/
def lookupNumber (vals : List (Int × String)) (n : Int) : Option String :=
  (vals.find? fun e => e.1 = n).map (·.2)

/-- Lookup in `values_by_name`. -/
def lookupName (vals : List (Int × String)) (nm : String) : Option Int :=
  (vals.find? fun e => e.2 = nm).map (·.1)

/-- `get_enum_converter`: per-representation conversion of an enum number to
the arrow element.  An unknown number raises `KeyError` in the binary/string
representations; an unsupported representation raises `TypeError`. -/
def getEnumConverter (dataType : AType) (vals : List (Int × String)) :
    Except String (Int → Except String Scalar) :=
  match dataType with
  | .int32T => .ok fun x => .ok (.i x)
  | .binaryT => .ok fun x =>
      match lookupNumber vals x with
      | some nm => .ok (.bin nm)
      | none => .error "KeyError"
  | .dict32T .binaryT => .ok fun x =>
      match lookupNumber vals x with
      | some nm => .ok (.bin nm)
      | none => .error "KeyError"
  | .stringT => .ok fun x =>
      match lookupNumber vals x with
      | some nm => .ok (.s nm)
      | none => .error "KeyError"
  | .dict32T .stringT => .ok fun x =>
      match lookupNumber vals x with
      | some nm => .ok (.s nm)
      | none => .error "KeyError"
  | _ => .error "TypeError"

/-- The identity converter of the primitive branch of `_proto_field_to_array`
(reads the raw python value off the record). -/
def primPayload : Value → Option Scalar
  | .primV s => some s
  | _ => none

/-- `field.default_value` for the null path of `_proto_field_to_array` (only
consulted for non-message fields; unreachable in the pipeline because the
validity mask is only built for message-typed fields). -/
def enumFieldDefault (vals : List (Int × String)) : Scalar :=
  .i ((vals.headD (0, "")).1)

/-- The element loop of `_proto_field_to_array`: for each record, if the
validity mask (when given) clears the slot the null value is emitted, else the
converted record.  The `record is None` test of the source is unreachable here
because message accessors never return `None`; the source indexes
`validity_mask[i]`, which requires the mask to cover the records, so a short
mask is an `IndexError`. -/
def maskedElems (conv : Value → Except String (Option Scalar))
    (nullValue : Option Scalar) :
    List Value → Option (List Bool) → Except String (List (Option Scalar))
  | [], _ => .ok []
  | r :: rs, none => do
      let v ← conv r
      let tl ← maskedElems conv nullValue rs none
      .ok (v :: tl)
  | _ :: _, some [] => .error "IndexError"
  | r :: rs, some (bit :: bs) => do
      let v ← if bit then conv r else .ok nullValue
      let tl ← maskedElems conv nullValue rs (some bs)
      .ok (v :: tl)

/-- `_get_offsets`: scan the per-record container sizes into arrow offsets;
a `None` record contributes a `None` offset slot. -/
def getOffsetsAux {α : Type} : List (Option (List α)) → Int → List (Option Int)
  | [], last => [some last]
  | none :: rest, last => none :: getOffsetsAux rest last
  | some r :: rest, last => some last :: getOffsetsAux rest (last + r.length)

/-- `_get_offsets` with the initial running offset 0. -/
def getOffsets {α : Type} (records : List (Option (List α))) : List (Option Int) :=
  getOffsetsAux records 0

/-- `field.type == FieldDescriptor.TYPE_MESSAGE` for our resolved kinds. -/
def isMessageKind : FieldType → Bool
  | .tsT | .dateT | .todT | .wrapT _ | .msgT _ => true
  | _ => false

/-- `_proto_field_nullable(field, is_struct)`. -/
def protoFieldNullable (t : FieldType) (card : Card) (isStruct : Bool) : Bool :=
  isMessageKind t || (isStruct && (card != .singular))

/-- The arrow type of a modelled array. -/
def atypeOf : AArray → AType
  | .flat t _ => t
  | .listA nb _ child => .listT nb (atypeOf child)
  | .mapA _ keys items => .mapT (atypeOf keys) (atypeOf items)
  | .structA fields _ _ => .structT fields

/-- `_proto_field_validity_mask`: only singular message-typed fields get a
mask; the bit is `record.HasField(field_name)` (records are never `None` in the
pipeline). -/
def protoFieldValidityMask (parents : List Value) (idx : Nat) (t : FieldType)
    (card : Card) : Option (List Bool) :=
  if !isMessageKind t || card != Card.singular then none
  else some (parents.map fun p => (getFieldVal p idx).presentOf)

mutual
/-- `_proto_field_to_array`. -/
def protoFieldToArray (records : List Value) (t : FieldType)
    (validityMask : Option (List Bool)) (config : ProtarrowConfig) :
    Except String AArray :=
  match t with
  | .msgT fields => messageToArray records fields validityMask config
  | .enumT vals => do
      let ec ← getEnumConverter config.enumType vals
      let elems ← maskedElems
        (fun v =>
          match v with
          | .enumV n => (ec n).map some
          | _ => .ok none)
        (some (enumFieldDefault vals)) records validityMask
      .ok (.flat config.enumType elems)
  | .prim p => do
      let elems ← maskedElems (fun v => .ok (primPayload v))
        (some (primDefault p)) records validityMask
      .ok (.flat (primPa p) elems)
  | t => do
      -- temporal specials and wrappers: message-typed with a registered
      -- converter, null value `None`
      let conv := (specialConverter t).getD (fun _ => none)
      let paType := (protoDescriptorToPyarrow t).getD .int32T
      let elems ← maskedElems (fun v => .ok (conv v)) none records validityMask
      .ok (.flat paType elems)
termination_by 8 * sizeOf t
decreasing_by all_goals (simp_wf; try omega)

/-- `_repeated_proto_to_array`. -/
def repeatedProtoToArray (records : List (List Value)) (t : FieldType)
    (config : ProtarrowConfig) : Except String AArray := do
  let offsets := getOffsets (records.map some)
  let array ← protoFieldToArray records.flatten t none config
  .ok (.listA (isMessageKind t) offsets array)
termination_by 8 * sizeOf t + 2
decreasing_by all_goals (simp_wf; try omega)

/-- `_proto_map_to_array`. -/
def protoMapToArray (records : List (List (Scalar × Value))) (k : PrimKind)
    (vt : FieldType) (config : ProtarrowConfig) : Except String AArray := do
  let offsets := getOffsets (records.map some)
  let keys ← protoFieldToArray
    ((records.map fun es => es.map fun e => Value.primV e.1).flatten)
    (.prim k) none config
  let values ← protoFieldToArray
    ((records.map fun es => es.map fun e => e.2).flatten) vt none config
  .ok (.mapA offsets keys values)
termination_by 8 * sizeOf vt + 8 * sizeOf k + 12
decreasing_by all_goals (simp_wf; try omega)

/-- The field loop of `_message_to_array`: emits the schema fields and the
child arrays, positionally; `idx` is the position of the head of `fs` in the
whole descriptor. -/
def messageFieldsToArrays (fs : FieldList) (records : List Value)
    (config : ProtarrowConfig) (idx : Nat) :
    Except String (List (String × Bool × AType) × List AArray) :=
  match fs with
  | .nil => .ok ([], [])
  | .cons name card t rest => do
      let array ←
        match card with
        | .mapC k =>
            protoMapToArray (records.map fun r => (getFieldVal r idx).entriesOf)
              k t config
        | .repeatedC =>
            repeatedProtoToArray (records.map fun r => (getFieldVal r idx).listOf)
              t config
        | .singular =>
            let mask := protoFieldValidityMask records idx t card
            protoFieldToArray (records.map fun r => (getFieldVal r idx).valueOf)
              t mask config
      let (fields, arrays) ← messageFieldsToArrays rest records config (idx + 1)
      .ok ((name, protoFieldNullable t card true, atypeOf array) :: fields,
        array :: arrays)
termination_by 8 * sizeOf fs + 6
decreasing_by all_goals (simp_wf; try omega)

/-- `_message_to_array`. -/
def messageToArray (records : List Value) (fs : FieldList)
    (validityMask : Option (List Bool)) (config : ProtarrowConfig) :
    Except String AArray := do
  let (fields, arrays) ← messageFieldsToArrays fs records config 0
  .ok (.structA fields arrays validityMask)
termination_by 8 * sizeOf fs + 7
decreasing_by all_goals (simp_wf; try omega)
end

/-- The logical length of a modelled array (what `len()` reports): primitive
arrays count elements, list/map arrays count slots, struct arrays take the
first child's length (PyArrow infers struct length from the children). -/
def alen : AArray → Nat
  | .flat _ vals => vals.length
  | .listA _ offsets _ => offsets.length - 1
  | .mapA offsets _ _ => offsets.length - 1
  | .structA _ children _ =>
      match children with
      | [] => 0
      | c :: _ => alen c

/-- A record batch: named, typed top-level columns and a row count
(`pa.RecordBatch.from_struct_array`). -/
structure RecordBatch where
  fields : List (String × Bool × AType)
  columns : List AArray
  nrows : Nat
  deriving Repr

/-- `pa.RecordBatch.from_struct_array`. -/
def recordBatchFromStructArray (a : AArray) : RecordBatch :=
  match a with
  | .structA fields children _ => ⟨fields, children, alen a⟩
  | _ => ⟨[], [], 0⟩

/-- `messages_to_record_batch`. -/
def messagesToRecordBatch (records : List Value) (fs : FieldList)
    (config : ProtarrowConfig) : Except String RecordBatch := do
  let a ← messageToArray records fs none config
  .ok (recordBatchFromStructArray a)

/-! ## Default instances (the protobuf runtime's `message_type()` /
`_concrete_class()`) -/

/-- Whether a singular field slot of a fresh message carries a meaningful
presence bit: message-typed fields start unset; plain scalars and enums have
no presence in proto3 and are canonically stored with the bit set. -/
def defaultPresent : FieldType → Bool
  | .prim _ | .enumT _ => true
  | _ => false

mutual
/-- The default (unset) value of a field type. -/
def defaultValueOf : FieldType → Value
  | .prim p => .primV (primDefault p)
  | .enumT _ => .enumV 0
  | .tsT => .tsV 0 0
  | .dateT => .dateV 0 0 0
  | .todT => .todV 0 0 0 0
  | .wrapT p => .wrapV (primDefault p)
  | .msgT fs => .msgV (defaultFields fs)

/-- The field slots of a default message instance. -/
def defaultFields : FieldList → List FieldVal
  | .nil => []
  | .cons _ card t rest =>
      (match card with
       | .singular => FieldVal.single (defaultPresent t) (defaultValueOf t)
       | .repeatedC => .rep []
       | .mapC _ => .mapF []) :: defaultFields rest
end

/-! ## Decoding (arrow_to_proto.py)

The Python extractor mutates a list of pre-allocated messages through small
assigner iterators; the model passes the message list through each function
explicitly.  Alongside the updated messages, each extraction returns one
boolean per parent telling whether any mutating protobuf call reached that
parent: the C++ protobuf backend (`google.protobuf.pyext._message`, the one the
source imports) marks a lazily-created sub-message present in its parent on any
mutating access, so these bits drive the presence of sub-message fields during
write-back. -/

/-- `_TIMESTAMP_CONVERTER`. -/
def timestampConverter : TsUnit → Int
  | .ns => 1
  | .us => 1000
  | .ms => 1000000
  | .s => 1000000000

/-- `_timestamp_scalar_to_proto`: `scalar.value * _TIMESTAMP_CONVERTER[unit]`
then `Timestamp.FromNanoseconds` (floor-divide into seconds and nanos; Python
`//` and `%` with a positive divisor are `Int.ediv`/`Int.emod`).  A null scalar
has `value` `None` (`TypeError` on multiply); a non-timestamp scalar has no
`type.unit`. -/
def timestampScalarToProto (ty : AType) (sv : Option Scalar) :
    Except String Value :=
  match ty with
  | .timestampT u _ =>
      match sv with
      | some (.i v) =>
          let ns := v * timestampConverter u
          .ok (.tsV (ns / 1000000000) (ns % 1000000000))
      | _ => .error "TypeError"
  | _ => .error "AttributeError"

/-- `_date_scalar_to_proto` (`as_py` of a null slot is `None`, whose `.year`
raises). -/
def dateScalarToProto (sv : Option Scalar) : Except String Value :=
  match sv with
  | some (.date y m d) => .ok (.dateV y m d)
  | _ => .error "AttributeError"

/-- `_time_of_day_scalar_to_proto`. -/
def timeOfDayScalarToProto (sv : Option Scalar) : Except String Value :=
  match sv with
  | some (.i tn) =>
      .ok (.todV (tn / 3600000000000) ((tn / 60000000000) % 60)
        ((tn / 1000000000) % 60) (tn % 1000000000))
  | _ => .error "TypeError"

/-- `_prepare_array`: a `time64` array is cast to int64 and multiplied by the
`_TIME_CONVERTER` ratio of its unit (1 for ns, 1000 for us; other units do not
occur for `pa.time64`). -/
def prepareArray (a : AArray) : Except String AArray :=
  match a with
  | .flat (.time64T u) vals => do
      let r ← match u with
        | .ns => .ok (1 : Int)
        | .us => .ok (1000 : Int)
        | _ => .error "KeyError"
      .ok (.flat .int64T (vals.map fun sv => sv.map fun s =>
        match s with
        | .i n => .i (n * r)
        | x => x))
  | a => .ok a

/-- `is_custom_field`: message-typed, not a special, not a wrapper. -/
def isCustomField : FieldType → Bool
  | .msgT _ => true
  | _ => false

/-- The result of a decode-side converter: a python scalar (`as_py`) or a
freshly built proto message (the special-type extractors). -/
inductive PyVal
  | scalar (s : Scalar)
  | msgVal (v : Value)
  deriving Repr

/-- `convert_scalar` (`scalar.as_py()`, `None` for a null slot). -/
def convertScalar (e : AType × Option Scalar) : Except String (Option PyVal) :=
  .ok (e.2.map .scalar)

/-- `get_converter`.  `convert_enum` looks the element up in `values_by_name`,
a `str`-keyed dict: a bytes element (binary representation), an int element
(int32 representation) or `None` never match, yielding `None`. -/
def getConverter (t : FieldType) :
    Except String ((AType × Option Scalar) → Except String (Option PyVal)) :=
  match t with
  | .enumT vals => .ok fun e =>
      .ok (match e.2 with
        | some (.s nm) => (lookupName vals nm).map fun n => .scalar (.i n)
        | _ => none)
  | .wrapT _ => .ok convertScalar
  | .tsT => .ok fun e =>
      (timestampScalarToProto e.1 e.2).map fun v => some (.msgVal v)
  | .dateT => .ok fun e =>
      (dateScalarToProto e.2).map fun v => some (.msgVal v)
  | .todT => .ok fun e =>
      (timeOfDayScalarToProto e.2).map fun v => some (.msgVal v)
  | .msgT _ => .error "KeyError"
  | .prim _ => .ok convertScalar

/-- `OffsetToSize`: successive differences of the offsets; `as_py` of a null
offset is `None`, and the subtraction raises.  An empty offsets array raises
`IndexError` on `array[0]`. -/
def offsetDiffs (current : Int) : List (Option Int) → Except String (List Int)
  | [] => .ok []
  | none :: _ => .error "TypeError"
  | some o :: rest => do
      let tl ← offsetDiffs o rest
      .ok ((o - current) :: tl)

/-- `OffsetToSize` from the first offset. -/
def offsetToSize : List (Option Int) → Except String (List Int)
  | [] => .error "IndexError"
  | none :: rest =>
      -- current offset `None`: fine while the tail is empty, `TypeError` on
      -- the first subtraction otherwise
      match rest with
      | [] => .ok []
      | _ => .error "TypeError"
  | some c :: rest => offsetDiffs c rest

/-- Iterating an array yields its scalars (value plus array type).  Only flat
arrays are iterated element-wise by the extractor on the paths the descriptor
dispatch reaches; other shapes yield nothing here. -/
def elements : AArray → List (AType × Option Scalar)
  | .flat t vs => vs.map fun sv => (t, sv)
  | _ => []

/-- `array.is_valid()`. -/
def arrayIsValid (a : AArray) : List Bool :=
  match a with
  | .flat _ vs => vs.map (·.isSome)
  | .listA _ offs _ => offs.dropLast.map (·.isSome)
  | .mapA offs _ _ => offs.dropLast.map (·.isSome)
  | .structA _ _ v => v.getD (List.replicate (alen a) true)

/-- proto3 `MergeFrom` between two temporal special messages: singular scalar
fields are copied when set (non-zero) in the source. -/
def mergeInt (o n : Int) : Int := if n = 0 then o else n

/-- `MergeFrom` of the freshly extracted special message into the current
field value. -/
def mergeSpecial (old new : Value) : Value :=
  match old, new with
  | .tsV a b, .tsV a' b' => .tsV (mergeInt a a') (mergeInt b b')
  | .dateV y m d, .dateV y' m' d' => .dateV (mergeInt y y') (mergeInt m m') (mergeInt d d')
  | .todV h mi s n, .todV h' mi' s' n' =>
      .todV (mergeInt h h') (mergeInt mi mi') (mergeInt s s') (mergeInt n n')
  | o, _ => o

/-- `setattr(message, field_name, value)` for the plain (non-wrapper) branch
of `PlainAssigner.__call__`: the runtime type-checks the assigned value. -/
def assignScalar (t : FieldType) (s : Scalar) : Except String Value :=
  match t with
  | .prim _ => .ok (.primV s)
  | .enumT _ =>
      match s with
      | .i n => .ok (.enumV n)
      | _ => .error "TypeError"
  | _ => .error "TypeError"

/-- `PlainAssigner.__call__` on one row: skip invalid scalars and `None`
conversions; wrapper fields receive the value through `.value` (which marks
them present), other fields through `setattr`.  Returns the updated parent and
whether a write happened. -/
def plainWrite (t : FieldType)
    (conv : (AType × Option Scalar) → Except String (Option PyVal)) (idx : Nat)
    (parent : Value) (e : AType × Option Scalar) :
    Except String (Value × Bool) :=
  if e.2.isSome then do
    let x ← conv e
    match x with
    | none => .ok (parent, false)
    | some (.scalar s) =>
        if isMessageKind t then
          -- nullable wrapper: `getattr(message, name).value = value`
          .ok (setFieldVal parent idx (.single true (.wrapV s)), true)
        else do
          let v ← assignScalar t s
          .ok (setFieldVal parent idx (.single true v), true)
    | some (.msgVal _) => .error "TypeError"
  else .ok (parent, false)

/-- The `zip(plain_assigner, array)` loop of `_extract_field`'s final branch
(one slot per parent; `zip` stops at the shorter side). -/
def plainLoop (t : FieldType)
    (conv : (AType × Option Scalar) → Except String (Option PyVal)) (idx : Nat) :
    List Value → List (AType × Option Scalar) →
    Except String (List Value × List Bool)
  | [], _ => .ok ([], [])
  | ps, [] => .ok (ps, List.replicate ps.length false)
  | p :: ps, e :: es => do
      let (p', tch) ← plainWrite t conv idx p e
      let (ps', tchs) ← plainLoop t conv idx ps es
      .ok (p' :: ps', tch :: tchs)

/-- The special-type extractor registry `SPECIAL_TYPES` applied to one scalar. -/
def specialToProto (t : FieldType) (e : AType × Option Scalar) :
    Except String Value :=
  match t with
  | .tsT => timestampScalarToProto e.1 e.2
  | .dateT => dateScalarToProto e.2
  | .todT => timeOfDayScalarToProto e.2
  | _ => .error "KeyError"

/-- The `zip(messages, array)` loop of `_extract_field`'s special branch:
valid rows are merged into the field (marking it present), invalid rows are
skipped. -/
def specialLoop (t : FieldType) (idx : Nat) :
    List Value → List (AType × Option Scalar) →
    Except String (List Value × List Bool)
  | [], _ => .ok ([], [])
  | ps, [] => .ok (ps, List.replicate ps.length false)
  | p :: ps, e :: es =>
      if e.2.isSome then do
        let m ← specialToProto t e
        let fv := getFieldVal p idx
        let (ps', tchs) ← specialLoop t idx ps es
        .ok (setFieldVal p idx (.single true (mergeSpecial fv.valueOf m)) :: ps',
          true :: tchs)
      else do
        let (ps', tchs) ← specialLoop t idx ps es
        .ok (p :: ps', false :: tchs)

/-- `AppendAssigner.__call__` via the repeated-field container: appending
`None` or a value of the wrong shape raises; composite containers copy the
appended message. -/
def appendPrimOne (t : FieldType) (cur : List Value) (x : Option PyVal) :
    Except String (List Value) :=
  match x with
  | none => .error "TypeError"
  | some (.scalar s) =>
      match t with
      | .prim _ => .ok (cur ++ [.primV s])
      | .enumT _ =>
          match s with
          | .i n => .ok (cur ++ [.enumV n])
          | _ => .error "TypeError"
      | _ => .error "TypeError"
  | some (.msgVal v) =>
      match t with
      | .tsT | .dateT | .todT => .ok (cur ++ [v])
      | _ => .error "TypeError"

/-- The per-parent slice of the `zip(assigner, values)` loop: append up to `n`
converted elements (stopping early if the value column runs out, as `zip`
does). -/
def appendMany (t : FieldType)
    (conv : (AType × Option Scalar) → Except String (Option PyVal)) :
    List Value → Nat → List (AType × Option Scalar) →
    Except String (List Value × List (AType × Option Scalar))
  | cur, 0, vals => .ok (cur, vals)
  | cur, _ + 1, [] => .ok (cur, [])
  | cur, n + 1, e :: es => do
      let x ← conv e
      let cur' ← appendPrimOne t cur x
      appendMany t conv cur' n es

/-- `_extract_repeated_primitive_assigner`'s main loop over parents and sizes. -/
def appendLoop (t : FieldType)
    (conv : (AType × Option Scalar) → Except String (Option PyVal)) (idx : Nat) :
    List Value → List Int → List (AType × Option Scalar) →
    Except String (List Value × List Bool)
  | [], _, _ => .ok ([], [])
  | ps, [], _ => .ok (ps, List.replicate ps.length false)
  | p :: ps, size :: szs, vals => do
      let cur := (getFieldVal p idx).listOf
      let (cur', rest) ← appendMany t conv cur size.toNat vals
      let (ps', tchs) ← appendLoop t conv idx ps szs rest
      .ok (setFieldVal p idx (.rep cur') :: ps',
        decide (cur.length < cur'.length) :: tchs)

/-- `_extract_repeated_primitive_assigner`. -/
def extractRepeatedPrimitive (arr : AArray) (t : FieldType) (idx : Nat)
    (parents : List Value) : Except String (List Value × List Bool) :=
  match arr with
  | .listA _ offs child => do
      let conv ← getConverter t
      let sizes ← offsetToSize offs
      let vals ← prepareArray child
      appendLoop t conv idx parents sizes (elements vals)
  | _ => .error "AttributeError"

/-- Append `k = min(size, budget)` copies of the default instance to each
parent's repeated field (the first loop of `_extract_repeated_message`, whose
`zip` with `array.values` bounds the total number of appends by the child
array's length).  Returns the per-parent appended counts. -/
def extendDefaults (d : Value) (idx : Nat) :
    List Value → List Int → Nat → List Value × List Nat
  | [], _, _ => ([], [])
  | ps, [], _ => (ps, List.replicate ps.length 0)
  | p :: ps, size :: szs, budget =>
      let k := min size.toNat budget
      let cur := (getFieldVal p idx).listOf
      let (ps', ks) := extendDefaults d idx ps szs (budget - k)
      (setFieldVal p idx (.rep (cur ++ List.replicate k d)) :: ps', k :: ks)

/-- Split a flat list back into per-parent pieces of the given lengths. -/
def redistribute : List Nat → List Value → List (List Value)
  | [], _ => []
  | n :: ns, xs => xs.take n :: redistribute ns (xs.drop n)

/-- Store the redistributed, extracted elements back into each parent's
repeated field. -/
def writeBackLists (idx : Nat) : List Value → List (List Value) → List Value
  | p :: ps, piece :: rest => setFieldVal p idx (.rep piece) :: writeBackLists idx ps rest
  | ps, _ => ps

/-- First-occurrence association update (`dict.__setitem__` keeps the original
position of an existing key). -/
def assocSet (es : List (Scalar × Value)) (k : Scalar) (v : Value) :
    List (Scalar × Value) :=
  match es with
  | [] => [(k, v)]
  | (k', v') :: rest =>
      if k' = k then (k, v) :: rest else (k', v') :: assocSet rest k v

/-- Lazily-creating map access (`MessageMap.__getitem__`): returns the updated
entries and the entry's current value. -/
def assocReserve (es : List (Scalar × Value)) (k : Scalar) (d : Value) :
    List (Scalar × Value) × Value :=
  match es with
  | [] => ([(k, d)], d)
  | (k', v') :: rest =>
      if k' = k then ((k', v') :: rest, v')
      else
        let (r, v) := assocReserve rest k d
        ((k', v') :: r, v)

/-- Find the current value stored under a key. -/
def assocFind (es : List (Scalar × Value)) (k : Scalar) : Option Value :=
  (es.find? fun e => e.1 = k).map (·.2)

/-- `_merge_assign`: a `None` value lazily creates the entry; a message value
is merged into the (created) entry; anything else is a runtime `TypeError`
(e.g. a wrapper-typed map value arrives as a python scalar). -/
def mergeAssign (vt : FieldType) (es : List (Scalar × Value)) (k : Scalar)
    (value : Option PyVal) : Except String (List (Scalar × Value)) :=
  match value with
  | none => .ok (assocReserve es k (defaultValueOf vt)).1
  | some (.msgVal m) =>
      let (es', old) := assocReserve es k (defaultValueOf vt)
      .ok (assocSet es' k (mergeSpecial old m))
  | some (.scalar _) => .error "TypeError"

/-- `_direct_assign` (`attribute[key] = value`): `None` and messages are
rejected by the scalar map container. -/
def directAssign (vt : FieldType) (es : List (Scalar × Value)) (k : Scalar)
    (value : Option PyVal) : Except String (List (Scalar × Value)) :=
  match value with
  | some (.scalar s) => do
      let v ← assignScalar vt s
      .ok (assocSet es k v)
  | _ => .error "TypeError"

/-- The per-parent slice of the `MapKeyAssigner` reservation pass of
`_extract_map_field`: reserve up to `n` map slots by key (a null key raises on
`attribute[None]`), collecting one `(parent position, key)` handle per entry. -/
def reserveMany (vt : FieldType) (idx : Nat) (pos : Nat) :
    Value → Nat → List (AType × Option Scalar) →
    Except String (Value × List (Nat × Scalar) × List (AType × Option Scalar))
  | p, 0, kes => .ok (p, [], kes)
  | p, _ + 1, [] => .ok (p, [], [])
  | p, n + 1, e :: es =>
      match e.2 with
      | none => .error "TypeError"
      | some s => do
          let entries' :=
            (assocReserve (getFieldVal p idx).entriesOf s (defaultValueOf vt)).1
          let (p', hs, rest) ←
            reserveMany vt idx pos (setFieldVal p idx (.mapF entries')) n es
          .ok (p', (pos, s) :: hs, rest)

/-- The `MapKeyAssigner` reservation loop over all parents: yields the updated
parents and the handles, grouped per parent. -/
def reserveLoop (vt : FieldType) (idx : Nat) :
    List Value → List Int → List (AType × Option Scalar) → Nat →
    Except String (List Value × List (List (Nat × Scalar)))
  | [], _, _, _ => .ok ([], [])
  | ps, [], _, _ => .ok (ps, List.replicate ps.length [])
  | p :: ps, size :: szs, kes, pos => do
      let (p', hs, rest) ← reserveMany vt idx pos p size.toNat kes
      let (ps', hss) ← reserveLoop vt idx ps szs rest (pos + 1)
      .ok (p' :: ps', hs :: hss)

/-- Store the extracted map values back through their handles.  The Python
code writes through the live handles while extracting each value field; for
distinct keys the handles are disjoint slots, so writing the completed values
back afterwards, in entry order, is observationally the same. -/
def writeBackMap (idx : Nat) :
    List Value → List (Nat × Scalar) → List Value → List Value
  | parents, [], _ => parents
  | parents, _, [] => parents
  | parents, h :: hs, v :: vs =>
      let p := parents.getD h.1 (.msgV [])
      let p' := setFieldVal p idx
        (.mapF (assocSet (getFieldVal p idx).entriesOf h.2 v))
      writeBackMap idx (parents.set h.1 p') hs vs

/-- The per-parent slice of the `MapItemAssigner` loop (primitive, wrapper or
special map values). -/
def mapItemMany (vt : FieldType)
    (conv : (AType × Option Scalar) → Except String (Option PyVal)) (idx : Nat) :
    Value → Nat → List (AType × Option Scalar) → List (AType × Option Scalar) →
    Except String
      (Value × List (AType × Option Scalar) × List (AType × Option Scalar) × Nat)
  | p, 0, kes, ves => .ok (p, kes, ves, 0)
  | p, _ + 1, [], ves => .ok (p, [], ves, 0)
  | p, _ + 1, kes, [] => .ok (p, kes, [], 0)
  | p, n + 1, ke :: kes, ve :: ves => do
      let key ← match ke.2 with
        | none => .error "TypeError"
        | some s => .ok s
      let value ← if ve.2.isSome then conv ve else pure none
      let entries ← (if isMessageKind vt then mergeAssign vt else directAssign vt)
        (getFieldVal p idx).entriesOf key value
      let (p', kes', ves', cnt) ←
        mapItemMany vt conv idx (setFieldVal p idx (.mapF entries)) n kes ves
      .ok (p', kes', ves', cnt + 1)

/-- The `MapItemAssigner` loop over all parents. -/
def mapItemLoop (vt : FieldType)
    (conv : (AType × Option Scalar) → Except String (Option PyVal)) (idx : Nat) :
    List Value → List Int → List (AType × Option Scalar) →
    List (AType × Option Scalar) → Except String (List Value × List Bool)
  | [], _, _, _ => .ok ([], [])
  | ps, [], _, _ => .ok (ps, List.replicate ps.length false)
  | p :: ps, size :: szs, kes, ves => do
      let (p', kes', ves', cnt) ← mapItemMany vt conv idx p size.toNat kes ves
      let (ps', tchs) ← mapItemLoop vt conv idx ps szs kes' ves'
      .ok (p' :: ps', decide (0 < cnt) :: tchs)

/-- Reinstall the extracted sub-messages of a singular struct column into the
valid parents (rows whose struct slot is null keep their parent untouched —
their virtual parent was the throw-away instance).  A sub-message becomes
present exactly when some write reached it. -/
def writeBackStruct (idx : Nat) :
    List Value → List Bool → List Value → List Bool → List Value
  | p :: ps, vb :: vbs, s :: ss, tb :: tbs =>
      (if vb then
        setFieldVal p idx (.single ((getFieldVal p idx).presentOf || tb) s)
      else p) :: writeBackStruct idx ps vbs ss tbs
  | ps, _, _, _ => ps

/-- `struct_type.get_field_index(name)` (first match, `none` for -1). -/
def getFieldIndex (fields : List (String × Bool × AType)) (name : String) :
    Option Nat :=
  fields.findIdx? fun f => f.1 == name

/-- The field list of a custom message type. -/
def msgFieldsOf : FieldType → FieldList
  | .msgT fs => fs
  | _ => .nil

mutual
/-- `_extract_field`. -/
def extractField (arr0 : AArray) (card : Card) (t : FieldType) (idx : Nat)
    (parents : List Value) : Except String (List Value × List Bool) := do
  let arr ← prepareArray arr0
  match card with
  | .repeatedC | .mapC _ => extractRepeatedField arr card t idx parents
  | .singular =>
      match t with
      | .tsT => specialLoop .tsT idx parents (elements arr)
      | .dateT => specialLoop .dateT idx parents (elements arr)
      | .todT => specialLoop .todT idx parents (elements arr)
      | .msgT fs => extractStructField arr fs idx parents
      | t => do
          let conv ← getConverter t
          plainLoop t conv idx parents (elements arr)
termination_by 32 * sizeOf t + 14
decreasing_by all_goals (simp_wf; try omega)

/-- `_extract_repeated_field`. -/
def extractRepeatedField (arr : AArray) (card : Card) (t : FieldType)
    (idx : Nat) (parents : List Value) :
    Except String (List Value × List Bool) :=
  match card with
  | .mapC k => extractMapField arr k t idx parents
  | _ =>
      match t with
      | .msgT fs => extractRepeatedMessage arr fs idx parents
      | _ => extractRepeatedPrimitive arr t idx parents
termination_by 32 * sizeOf t + 12
decreasing_by all_goals (simp_wf; try omega)

/-- `_extract_map_field`. -/
def extractMapField (arr : AArray) (_k : PrimKind) (vt : FieldType) (idx : Nat)
    (parents : List Value) : Except String (List Value × List Bool) :=
  match arr with
  | .mapA offs keys items =>
      match vt with
      | .msgT vfs => do
        -- `is_custom_field(value_type)` holds exactly for plain sub-messages
        let sizes ← offsetToSize offs
        let (parents1, hss) ← reserveLoop vt idx parents sizes (elements keys) 0
        let handles := hss.flatten
        let vals := handles.map fun h =>
          (assocFind (getFieldVal (parents1.getD h.1 (.msgV [])) idx).entriesOf
            h.2).getD (defaultValueOf vt)
        let (vals', _tch) ← extractArrayMessages items vfs vals
        .ok (writeBackMap idx parents1 handles vals',
          hss.map fun hs => !hs.isEmpty)
      | _ => do
        let conv ← getConverter vt
        let sizes ← offsetToSize offs
        let vals ← prepareArray items
        mapItemLoop vt conv idx parents sizes (elements keys) (elements vals)
  | _ => .error "AssertionError"
termination_by 32 * sizeOf vt + 10
decreasing_by all_goals (simp_wf; try omega)

/-- `_extract_struct_field`. -/
def extractStructField (arr : AArray) (fs : FieldList) (idx : Nat)
    (parents : List Value) : Except String (List Value × List Bool) := do
  let valid := arrayIsValid arr
  let subs := List.zipWith (fun p (vb : Bool) =>
      if vb then (getFieldVal p idx).valueOf else defaultValueOf (.msgT fs))
    parents valid
  let (subs', tch) ← extractArrayMessages arr fs subs
  .ok (writeBackStruct idx parents valid subs' tch,
    List.zipWith (fun (vb tb : Bool) => vb && tb) valid tch)
termination_by 32 * sizeOf fs + 8
decreasing_by all_goals (simp_wf; try omega)

/-- `_extract_repeated_message`. -/
def extractRepeatedMessage (arr : AArray) (fs : FieldList) (idx : Nat)
    (parents : List Value) : Except String (List Value × List Bool) :=
  match arr with
  | .listA _ offs child => do
      let sizes ← offsetToSize offs
      let (parents1, ks) :=
        extendDefaults (defaultValueOf (.msgT fs)) idx parents sizes (alen child)
      let subs := (parents1.map fun p => (getFieldVal p idx).listOf).flatten
      let (subs', _tch) ← extractArrayMessages child fs subs
      let pieces :=
        redistribute (parents1.map fun p => (getFieldVal p idx).listOf.length)
          subs'
      .ok (writeBackLists idx parents1 pieces, ks.map fun k => decide (0 < k))
  | _ => .error "AttributeError"
termination_by 32 * sizeOf fs + 6
decreasing_by all_goals (simp_wf; try omega)

/-- `_extract_array_messages`. -/
def extractArrayMessages (arr : AArray) (fs : FieldList) (parents : List Value) :
    Except String (List Value × List Bool) :=
  match arr with
  | .structA stFields children _ => extractFieldsLoop stFields children fs 0 parents
  | _ => .error "AssertionError"
termination_by 32 * sizeOf fs + 4
decreasing_by all_goals (simp_wf; try omega)

/-- The descriptor-driven loop of `_extract_array_messages` (and of
`_extract_record_batch_messages`): columns are looked up by field name,
missing columns are skipped. -/
def extractFieldsLoop (stFields : List (String × Bool × AType))
    (children : List AArray) (fs : FieldList) (idx : Nat)
    (parents : List Value) : Except String (List Value × List Bool) :=
  match fs with
  | .nil => .ok (parents, List.replicate parents.length false)
  | .cons name card t rest =>
      match getFieldIndex stFields name with
      | none => extractFieldsLoop stFields children rest (idx + 1) parents
      | some j => do
          let (parents', tch) ←
            extractField (children.getD j (.structA [] [] none)) card t idx
              parents
          let (parents'', tchs) ←
            extractFieldsLoop stFields children rest (idx + 1) parents'
          .ok (parents'', List.zipWith (fun (a b : Bool) => a || b) tch tchs)
termination_by 32 * sizeOf fs + 2
decreasing_by all_goals (simp_wf; try omega)
end

/-- `_extract_record_batch_messages`. -/
def extractRecordBatchMessages (rb : RecordBatch) (fs : FieldList)
    (parents : List Value) : Except String (List Value) := do
  let (ps, _) ← extractFieldsLoop rb.fields rb.columns fs 0 parents
  .ok ps

/-- `record_batch_to_messages`: allocate one default message per row, then
extract each matching column into them. -/
def recordBatchToMessages (rb : RecordBatch) (fs : FieldList) :
    Except String (List Value) :=
  extractRecordBatchMessages rb fs
    (List.replicate rb.nrows (defaultValueOf (.msgT fs)))

/-! ## General lemmas about the embedding -/

/-- The descriptor's fields as a plain list (for stating schema lemmas). -/
def fieldsOfFL : FieldList → List (String × Card × FieldType)
  | .nil => []
  | .cons name card t rest => (name, card, t) :: fieldsOfFL rest

/-- Unfolding of `protoFieldToArray` at `Timestamp` fields (the converter
registry resolves to `ToNanoseconds`, the type to `_PA_TIMESTAMP_TYPE`). -/
theorem protoFieldToArray_ts (records : List Value) (mask : Option (List Bool))
    (cfg : ProtarrowConfig) :
    protoFieldToArray records .tsT mask cfg = (do
      let elems ← maskedElems (fun v => .ok (match v with
        | Value.tsV sec nanos => some (Scalar.i (sec * 1000000000 + nanos))
        | _ => none)) none records mask
      .ok (.flat paTimestampType elems)) := by
  rw [protoFieldToArray]
  try rfl
  all_goals exact fun _ h => FieldType.noConfusion h

/-- Unfolding of `protoFieldToArray` at `Date` fields. -/
theorem protoFieldToArray_date (records : List Value)
    (mask : Option (List Bool)) (cfg : ProtarrowConfig) :
    protoFieldToArray records .dateT mask cfg = (do
      let elems ← maskedElems (fun v => .ok (match v with
        | Value.dateV y m d =>
            if y = 0 then none else some (Scalar.date y m d)
        | _ => none)) none records mask
      .ok (.flat .date32T elems)) := by
  rw [protoFieldToArray]
  try rfl
  all_goals exact fun _ h => FieldType.noConfusion h

/-- Unfolding of `protoFieldToArray` at `TimeOfDay` fields. -/
theorem protoFieldToArray_tod (records : List Value)
    (mask : Option (List Bool)) (cfg : ProtarrowConfig) :
    protoFieldToArray records .todT mask cfg = (do
      let elems ← maskedElems (fun v => .ok (match v with
        | Value.todV h mi s n => some (Scalar.i (timeOfDayToNanos h mi s n))
        | _ => none)) none records mask
      .ok (.flat paTimeType elems)) := by
  rw [protoFieldToArray]
  try rfl
  all_goals exact fun _ h => FieldType.noConfusion h

/-- Unfolding of `protoFieldToArray` at wrapper fields (the column type is the
unwrapped scalar type, the converter extracts `.value`). -/
theorem protoFieldToArray_wrap (p : PrimKind) (records : List Value)
    (mask : Option (List Bool)) (cfg : ProtarrowConfig) :
    protoFieldToArray records (.wrapT p) mask cfg = (do
      let elems ← maskedElems (fun v => .ok (match v with
        | Value.wrapV s => some s
        | _ => none)) none records mask
      .ok (.flat (primPa p) elems)) := by
  rw [protoFieldToArray]
  try rfl
  all_goals exact fun _ h => FieldType.noConfusion h

theorem maskedElems_none {conv : Value → Except String (Option Scalar)}
    {f : Value → Option Scalar} {nv : Option Scalar} {rs : List Value}
    (h : ∀ r ∈ rs, conv r = .ok (f r)) :
    maskedElems conv nv rs none = .ok (rs.map f) := by
  induction rs with
  | nil => simp [maskedElems]
  | cons r rs ih =>
      simp only [maskedElems, h r (by simp)]
      rw [ih fun x hx => h x (by simp [hx])]
      rfl

theorem maskedElems_some {conv : Value → Except String (Option Scalar)}
    {f : Value → Option Scalar} {nv : Option Scalar} {rs : List Value}
    {m : List Bool} (h : ∀ r ∈ rs, conv r = .ok (f r))
    (hlen : rs.length ≤ m.length) :
    maskedElems conv nv rs (some m) =
      .ok (List.zipWith (fun r bit => if bit then f r else nv) rs m) := by
  induction rs generalizing m with
  | nil => simp [maskedElems]
  | cons r rs ih =>
      cases m with
      | nil => simp at hlen
      | cons bit bs =>
          simp only [maskedElems]
          rcases bit with _ | _
          · simp only [Bool.false_eq_true, if_false, reduceIte]
            rw [ih (fun x hx => h x (by simp [hx])) (by simpa using hlen)]
            rfl
          · simp only [if_true]
            rw [h r (by simp)]
            rw [ih (fun x hx => h x (by simp [hx])) (by simpa using hlen)]
            rfl

/-! ## Well-formedness of schemas and messages (for the round-trip claim C1)

These predicates delimit the domain on which the codec round-trips: they
record protobuf-level invariants (normalized temporal values, known enum
numbers, distinct map keys, presence discipline of unset fields) and exclude
the combinations on which the decoder demonstrably fails or loses data. -/

/-- Whether a python scalar belongs to the value family of a primitive kind
(the protobuf runtime only ever hands the codec matching values). -/
def scalarMatches : PrimKind → Scalar → Bool
  | .doubleP, .f _ | .floatP, .f _ => true
  | .boolP, .b _ => true
  | .stringP, .s _ => true
  | .bytesP, .bin _ => true
  | .doubleP, _ | .floatP, _ | .boolP, _ | .stringP, _ | .bytesP, _ => false
  | _, .i _ => true
  | _, _ => false

/-- The initial value of one field slot in a fresh message. -/
def defaultFieldVal (card : Card) (t : FieldType) : FieldVal :=
  match card with
  | .singular => .single (defaultPresent t) (defaultValueOf t)
  | .repeatedC => .rep []
  | .mapC _ => .mapF []

mutual
/-- Whether decoding the encoding of this (present) value writes at least one
field through the protobuf runtime — the condition under which the C++ backend
marks a lazily-created sub-message present in its parent.  Non-message values
always count as written. -/
def writesBack : FieldType → Value → Bool
  | .msgT fs, r => writesFrom fs 0 r
  | _, _ => true

/-- Whether decoding one field slot writes into the parent message. -/
def writesField (card : Card) (t : FieldType) (fv : FieldVal) : Bool :=
  match card with
  | .repeatedC => !fv.listOf.isEmpty
  | .mapC _ => !fv.entriesOf.isEmpty
  | .singular =>
      match t with
      | .prim _ => true
      | .enumT _ => true
      | .tsT | .dateT | .todT => fv.presentOf
      | .wrapT _ => fv.presentOf
      | .msgT fs => fv.presentOf && writesBack (.msgT fs) fv.valueOf

/-- `writesField` over a suffix of the fields of a message value, starting at
slot `idx`. -/
def writesFrom : FieldList → Nat → Value → Bool
  | .nil, _, _ => false
  | .cons _ card t rest, idx, r =>
      writesField card t (getFieldVal r idx) || writesFrom rest (idx + 1) r
end

mutual
/-- Conformance of a value to a field type, including the protobuf-level
normalization the round trip needs: normalized timestamps, valid dates (year
non-zero, so the date lossy case does not arise), in-range times of day,
enum numbers that exist in the descriptor, and matching scalar families. -/
def Conforms : FieldType → Value → Prop
  | .prim p, .primV s => scalarMatches p s = true
  | .enumT vals, .enumV n => (lookupNumber vals n).isSome = true
  | .tsT, .tsV _ nanos => 0 ≤ nanos ∧ nanos < 1000000000
  | .dateT, .dateV y m d =>
      1 ≤ y ∧ y ≤ 9999 ∧ 1 ≤ m ∧ m ≤ 12 ∧ 1 ≤ d ∧ d ≤ 31
  | .todT, .todV h mi s n =>
      0 ≤ h ∧ h < 24 ∧ 0 ≤ mi ∧ mi < 60 ∧ 0 ≤ s ∧ s < 60 ∧
        0 ≤ n ∧ n < 1000000000
  | .wrapT p, .wrapV s => scalarMatches p s = true
  | .msgT fs, .msgV vs => ConformsFL fs vs
  | _, _ => False
termination_by t _ => 4 * sizeOf t
decreasing_by all_goals (simp_wf; try omega)

/-- Conformance of one stored field slot, including the presence discipline:
plain scalars and enums carry the canonical `true` bit, an unset message-typed
field stores the default instance, and a present sub-message conforms and must
be one that decoding writes into (otherwise its presence is lost — the amended
C1 excludes it). -/
def ConformsField : Card → FieldType → FieldVal → Prop
  | .singular, .prim p, .single pres v => pres = true ∧ Conforms (.prim p) v
  | .singular, .enumT vals, .single pres v =>
      pres = true ∧ Conforms (.enumT vals) v
  | .singular, .tsT, .single pres v =>
      if pres = true then Conforms .tsT v else v = defaultValueOf .tsT
  | .singular, .dateT, .single pres v =>
      if pres = true then Conforms .dateT v else v = defaultValueOf .dateT
  | .singular, .todT, .single pres v =>
      if pres = true then Conforms .todT v else v = defaultValueOf .todT
  | .singular, .wrapT p, .single pres v =>
      if pres = true then Conforms (.wrapT p) v
      else v = defaultValueOf (.wrapT p)
  | .singular, .msgT fs, .single pres v =>
      if pres = true then Conforms (.msgT fs) v ∧ writesBack (.msgT fs) v = true
      else v = defaultValueOf (.msgT fs)
  | .repeatedC, t, .rep vs => ∀ v ∈ vs, Conforms t v
  | .mapC k, t, .mapF es =>
      (∀ e ∈ es, scalarMatches k e.1 = true ∧ Conforms t e.2) ∧
      (es.map Prod.fst).Nodup
  | _, _, _ => False
termination_by _ t _ => 4 * sizeOf t + 3
decreasing_by all_goals (simp_wf; try omega)

/-- Positional conformance of a message's slots to a field list. -/
def ConformsFL : FieldList → List FieldVal → Prop
  | .nil, vs => vs = []
  | .cons _ card t rest, vs =>
      match vs with
      | [] => False
      | fv :: fvs => ConformsField card t fv ∧ ConformsFL rest fvs
termination_by fs _ => 4 * sizeOf fs + 2
decreasing_by all_goals (simp_wf; try omega)
end

/-- Conformance of a message value from slot `idx` on, against a descriptor
suffix. -/
def ConformsFrom : FieldList → Nat → Value → Prop
  | .nil, _, _ => True
  | .cons _ card t rest, idx, r =>
      ConformsField card t (getFieldVal r idx) ∧ ConformsFrom rest (idx + 1) r

/-- Per-field cardinality restriction: wrappers do not occur as repeated
elements or map values (the decoder's append/merge paths reject them). -/
def FieldCardWf (card : Card) (t : FieldType) : Prop :=
  match card with
  | .singular => True
  | _ =>
      match t with
      | .wrapT _ => False
      | _ => True

mutual
/-- Schema well-formedness for the round trip: enum tables have distinct
numbers and names, sub-message types are non-empty with distinct field names,
and wrappers do not occur as repeated elements or map values. -/
def SchemaWfT : FieldType → Prop
  | .enumT vals =>
      (vals.map Prod.fst).Nodup ∧ (vals.map Prod.snd).Nodup ∧
        (lookupNumber vals 0).isSome = true
  | .msgT fs =>
      fs ≠ .nil ∧ (namesFL fs).Nodup ∧ SchemaWfFL fs
  | _ => True

/-- Schema well-formedness over a field list. -/
def SchemaWfFL : FieldList → Prop
  | .nil => True
  | .cons _ card t rest =>
      SchemaWfT t ∧ FieldCardWf card t ∧ SchemaWfFL rest

/-- The field names of a descriptor, in order. -/
def namesFL : FieldList → List String
  | .nil => []
  | .cons name _ _ rest => name :: namesFL rest
end

/-- The per-parent key handles collected by the `MapKeyAssigner` pass, grouped
per parent, with parent positions counting up from `pos`. -/
def mapHandles (pos : Nat) : List (List Scalar) → List (List (Nat × Scalar))
  | [] => []
  | g :: gs => (g.map fun k => (pos, k)) :: mapHandles (pos + 1) gs

/-- The enum representations under which enum columns survive the round trip
(the decoder's `values_by_name` lookup only matches `str` elements). -/
def CfgOk (cfg : ProtarrowConfig) : Prop :=
  cfg.enumType = .stringT ∨ cfg.enumType = .dict32T .stringT

/-- Install the slots of a suffix of fields of `r` into `p`, positionally
(the effect of decoding those columns into `p`). -/
def writeSuffixV : FieldList → Nat → Value → Value → Value
  | .nil, _, _, p => p
  | .cons _ _ _ rest, idx, r, p =>
      writeSuffixV rest (idx + 1) r (setFieldVal p idx (getFieldVal r idx))

/-- The slots of a suffix of fields of `p` are still at their defaults and in
range (the decode-time state of a message whose later columns have not been
extracted yet). -/
def FreshFrom : FieldList → Nat → List FieldVal → Prop
  | .nil, _, _ => True
  | .cons _ card t rest, idx, pf =>
      idx < pf.length ∧ pf.getD idx junkField = defaultFieldVal card t ∧
        FreshFrom rest (idx + 1) pf

/-- Each suffix field's column, as the decoder finds it: the field's name
looks up to a position in the struct's fields whose child is the encoded
column. -/
def ColsAlign (stFields : List (String × Bool × AType))
    (children : List AArray) : FieldList → List AArray → Prop
  | .nil, arrays => arrays = []
  | .cons name _ _ rest, arrays =>
      match arrays with
      | [] => False
      | a :: arrays' =>
          (∃ j, getFieldIndex stFields name = some j ∧
            children.getD j (.structA [] [] none) = a) ∧
          ColsAlign stFields children rest arrays'

@[simp] theorem exceptBind_ok {α β ε : Type} (a : α) (f : α → Except ε β) :
    (do let x ← Except.ok a; f x) = f a := rfl

theorem exceptBind_eq_ok {ε α β : Type} {x : Except ε α} {f : α → Except ε β}
    {b : β} : (x >>= f) = .ok b ↔ ∃ a, x = .ok a ∧ f a = .ok b := by
  cases x with
  | error e =>
      constructor
      · intro h
        exact absurd h (by simp [Bind.bind, Except.bind])
      · rintro ⟨a, ha, -⟩
        exact absurd ha (by simp)
  | ok a =>
      constructor
      · intro h
        exact ⟨a, rfl, h⟩
      · rintro ⟨a', ha, hf⟩
        obtain rfl : a = a' := by simpa using ha
        exact hf

@[simp] theorem exceptBind_error {α β ε : Type} (e : ε) (f : α → Except ε β) :
    (do let x ← (Except.error e : Except ε α); f x) =
      (Except.error e : Except ε β) := rfl

/-- The schema fields produced by the field loop of `_message_to_array` carry
the source field names and the `_proto_field_nullable` nullability. -/
theorem messageFieldsToArrays_fields (fs : FieldList) (records : List Value)
    (cfg : ProtarrowConfig) (idx : Nat) (flds : List (String × Bool × AType))
    (arrays : List AArray)
    (h : messageFieldsToArrays fs records cfg idx = .ok (flds, arrays)) :
    List.Forall₂
      (fun (fd : String × Card × FieldType) (cf : String × Bool × AType) =>
        cf.1 = fd.1 ∧ cf.2.1 = protoFieldNullable fd.2.2 fd.2.1 true)
      (fieldsOfFL fs) flds := by
  cases fs with
  | nil =>
      rw [messageFieldsToArrays] at h
      simp only [Except.ok.injEq, Prod.mk.injEq] at h
      obtain ⟨h1, -⟩ := h
      subst h1
      exact List.Forall₂.nil
  | cons name card t rest =>
      rw [messageFieldsToArrays.eq_def] at h
      have main : ∀ (x : Except String AArray),
          (do
            let array ← x
            let r ← messageFieldsToArrays rest records cfg (idx + 1)
            match r with
            | (fields, arrays) =>
                Except.ok ((name, protoFieldNullable t card true,
                  atypeOf array) :: fields, array :: arrays)) = .ok (flds, arrays) →
          List.Forall₂
            (fun (fd : String × Card × FieldType) (cf : String × Bool × AType) =>
              cf.1 = fd.1 ∧ cf.2.1 = protoFieldNullable fd.2.2 fd.2.1 true)
            (fieldsOfFL (.cons name card t rest)) flds := by
        intro x hx
        rw [exceptBind_eq_ok] at hx
        obtain ⟨array, -, hx⟩ := hx
        rw [exceptBind_eq_ok] at hx
        obtain ⟨⟨fields', arrays'⟩, hR, hx⟩ := hx
        simp only [Except.ok.injEq, Prod.mk.injEq] at hx
        obtain ⟨h1, -⟩ := hx
        subst h1
        exact List.Forall₂.cons ⟨rfl, rfl⟩
          (messageFieldsToArrays_fields rest records cfg (idx + 1) fields'
            arrays' hR)
      cases card
      · exact main _ h
      · exact main _ h
      · exact main _ h
termination_by sizeOf fs

/-! ## Claim C3: column nullability policy -/

/-- C3 counterexample: a repeated primitive (int32) column is nullable in the
produced schema, although the claim says repeated columns are non-nullable
(`_proto_field_nullable` is true whenever the field is message-typed or, with
`is_struct=True` as always passed, repeated — which covers all repeated and map
fields). -/
theorem repeated_column_nullable :
    (messagesToRecordBatch [] (.cons "r" .repeatedC (.prim .int32P) .nil)
        {}).map RecordBatch.fields =
      .ok [("r", true, .listT false .int32T)] ∧
    protoFieldNullable (.prim .int32P) .repeatedC true = true := by
  constructor
  · rw [messagesToRecordBatch, messageToArray, messageFieldsToArrays,
      messageFieldsToArrays, repeatedProtoToArray, protoFieldToArray]
    rfl
  · rfl

/-- C3 amended: in the schema of every record batch produced by
`messages_to_record_batch`, a column is nullable iff its field is
message-typed (singular sub-message, wrapper or temporal special — and also
repeated/map message fields) or repeated (including maps and repeated
primitives); only singular primitive and enum columns are non-nullable. -/
theorem column_nullability (fs : FieldList) (records : List Value)
    (cfg : ProtarrowConfig) (rb : RecordBatch)
    (h : messagesToRecordBatch records fs cfg = .ok rb) :
    List.Forall₂
      (fun (fd : String × Card × FieldType) (cf : String × Bool × AType) =>
        cf.1 = fd.1 ∧
        cf.2.1 = (isMessageKind fd.2.2 || (fd.2.1 != Card.singular)))
      (fieldsOfFL fs) rb.fields := by
  rw [messagesToRecordBatch] at h
  rcases hM : messageToArray records fs none cfg with _ | a
  · rw [hM] at h
    simp at h
  · rw [hM] at h
    simp only [exceptBind_ok, Except.ok.injEq] at h
    rw [messageToArray] at hM
    rcases hF : messageFieldsToArrays fs records cfg 0 with _ | pr
    · rw [hF] at hM
      simp at hM
    · obtain ⟨flds, arrays⟩ := pr
      rw [hF] at hM
      simp only [exceptBind_ok, Except.ok.injEq] at hM
      have hfl := messageFieldsToArrays_fields fs records cfg 0 flds arrays hF
      subst h
      rw [← hM]
      simpa only [protoFieldNullable, Bool.true_and, recordBatchFromStructArray]
        using hfl

/-- Witness for `column_nullability` on a two-field schema (a non-null
singular int32 column and a nullable wrapper column). -/
theorem column_nullability_witness :
    List.Forall₂
      (fun (fd : String × Card × FieldType) (cf : String × Bool × AType) =>
        cf.1 = fd.1 ∧
        cf.2.1 = (isMessageKind fd.2.2 || (fd.2.1 != Card.singular)))
      (fieldsOfFL (.cons "a" .singular (.prim .int32P)
        (.cons "w" .singular (.wrapT .int32P) .nil)))
      (RecordBatch.fields ⟨[("a", false, .int32T), ("w", true, .int32T)],
        [.flat .int32T [], .flat .int32T []], 0⟩) :=
  column_nullability
    (.cons "a" .singular (.prim .int32P)
      (.cons "w" .singular (.wrapT .int32P) .nil)) [] {} _ (by
    rw [messagesToRecordBatch, messageToArray, messageFieldsToArrays,
      messageFieldsToArrays, messageFieldsToArrays, protoFieldToArray,
      protoFieldToArray_wrap]
    rfl)

/-- The `zip(plain_assigner, array)` loop as a pointwise zip, given a
pointwise description of `PlainAssigner.__call__`. -/
theorem plainLoop_zip {t : FieldType}
    {conv : (AType × Option Scalar) → Except String (Option PyVal)} {idx : Nat}
    (f : Value → (AType × Option Scalar) → Value × Bool)
    (hstep : ∀ p e, plainWrite t conv idx p e = .ok (f p e)) :
    ∀ (ps : List Value) (es : List (AType × Option Scalar)),
      ps.length = es.length →
      plainLoop t conv idx ps es =
        .ok (List.zipWith (fun p e => (f p e).1) ps es,
          List.zipWith (fun p e => (f p e).2) ps es) := by
  intro ps
  induction ps with
  | nil =>
      intro es hlen
      obtain rfl : es = [] := by
        cases es
        · rfl
        · simp at hlen
      rfl
  | cons p ps ih =>
      intro es hlen
      cases es with
      | nil => simp at hlen
      | cons e es =>
          simp only [plainLoop, hstep p e, exceptBind_ok]
          rw [ih es (by simpa using hlen)]
          rfl

/-! ## Claim C6: singular enum decode leniency -/

/-- C6: on a singular enum column, the extractor converts each element by
looking its name up in `values_by_name` and assigns the numeric value when
found; an element whose name matches no enum value converts to `None`, the
assignment is skipped (the field stays at its default, unset) and no error is
raised. -/
theorem singular_enum_decode (evals : List (Int × String))
    (vals : List (Option Scalar)) (parents : List Value) (idx : Nat)
    (hlen : parents.length = vals.length) :
    extractField (.flat .stringT vals) .singular (.enumT evals) idx parents =
      .ok (List.zipWith (fun p sv =>
          match sv with
          | some (Scalar.s nm) =>
              match lookupName evals nm with
              | some n => setFieldVal p idx (.single true (.enumV n))
              | none => p
          | _ => p) parents vals,
        List.zipWith (fun _ sv =>
          match sv with
          | some (Scalar.s nm) => (lookupName evals nm).isSome
          | _ => false) parents vals) := by
  have hstep : ∀ p e, plainWrite (.enumT evals)
      (fun e => .ok (match e.2 with
        | some (Scalar.s nm) => (lookupName evals nm).map fun n =>
            PyVal.scalar (.i n)
        | _ => none)) idx p e =
      .ok (match e.2 with
        | some (Scalar.s nm) =>
            match lookupName evals nm with
            | some n => (setFieldVal p idx (.single true (.enumV n)), true)
            | none => (p, false)
        | _ => (p, false)) := by
    intro p e
    obtain ⟨ty, sv⟩ := e
    match sv with
    | none => rfl
    | some (.i n) => rfl
    | some (.f b) => rfl
    | some (.b v) => rfl
    | some (.bin v) => rfl
    | some (.date y m d) => rfl
    | some (.s nm) =>
        simp only [plainWrite, Option.isSome_some, if_true]
        cases h : lookupName evals nm <;>
          simp [h, isMessageKind, assignScalar]
  rw [extractField]
  · simp only [prepareArray, exceptBind_ok, getConverter]
    rw [plainLoop_zip _ hstep parents (elements (.flat .stringT vals))
      (by simpa [elements] using hlen)]
    simp only [elements, List.zipWith_map_right, Except.ok.injEq, Prod.mk.injEq]
    constructor
    · congr 1
      funext a e
      match e with
      | none => rfl
      | some (.i n) => rfl
      | some (.f b) => rfl
      | some (.b v) => rfl
      | some (.bin v) => rfl
      | some (.date y m d) => rfl
      | some (.s nm) => rcases h : lookupName evals nm with _ | n <;> simp [h]
    · congr 1
      funext a e
      match e with
      | none => rfl
      | some (.i n) => rfl
      | some (.f b) => rfl
      | some (.b v) => rfl
      | some (.bin v) => rfl
      | some (.date y m d) => rfl
      | some (.s nm) => rcases h : lookupName evals nm with _ | n <;> simp [h]

/-- Witness for `singular_enum_decode`: one matching and one unknown name. -/
theorem singular_enum_decode_witness :
    extractField (.flat .stringT [some (.s "B"), some (.s "ZZZ")]) .singular
        (.enumT [(0, "A"), (1, "B")]) 0
        [.msgV [.single true (.enumV 0)], .msgV [.single true (.enumV 0)]] =
      .ok ([.msgV [.single true (.enumV 1)], .msgV [.single true (.enumV 0)]],
        [true, false]) := by
  rw [singular_enum_decode _ _ _ _ (by decide)]
  rfl

/-- `_prepare_array` leaves the primitive-mapped column types unchanged (none
of them is a `time64`). -/
theorem prepareArray_primPa (pk : PrimKind) (vals : List (Option Scalar)) :
    prepareArray (.flat (primPa pk) vals) = .ok (.flat (primPa pk) vals) := by
  cases pk <;> rfl

/-! ## Offset well-formedness (claim C4) and length bookkeeping (claim C9) -/

/-- Checker for the offsets tail: non-decreasing from `prev`, all non-null,
ending at `childLen`. -/
def offsetsChain (childLen : Int) : Int → List (Option Int) → Bool
  | prev, [] => decide (prev = childLen)
  | prev, some o :: rest => decide (prev ≤ o) && offsetsChain childLen o rest
  | _, none :: _ => false

/-- The offset well-formedness of one offsets vector against its child length:
`offsets[0] = 0`, offsets non-decreasing, `offsets[n] = childLen` (which also
forces length `n+1 ≥ 1`). -/
def offsetsOkCore (offs : List (Option Int)) (childLen : Nat) : Bool :=
  match offs with
  | some o :: rest => decide (o = 0) && offsetsChain (childLen : Int) o rest
  | _ => false

mutual
/-- Offset well-formedness of every list and map node of an array tree (for a
map node the keys and values must also have the same length). -/
def offsetsOk : AArray → Bool
  | .flat _ _ => true
  | .listA _ offs child => offsetsOkCore offs (alen child) && offsetsOk child
  | .mapA offs keys items =>
      offsetsOkCore offs (alen keys) && decide (alen keys = alen items) &&
        offsetsOk keys && offsetsOk items
  | .structA _ children _ => offsetsOkList children

/-- `offsetsOk` over a list of children. -/
def offsetsOkList : List AArray → Bool
  | [] => true
  | c :: cs => offsetsOk c && offsetsOkList cs
end

mutual
/-- Struct-length coherence of an array tree: at every struct node (at any
nesting depth), every child array has the node's own length (`len()` of the
struct column), and the property holds recursively inside list, map and
struct children. -/
def structLensOk : AArray → Bool
  | .flat _ _ => true
  | .listA _ _ child => structLensOk child
  | .mapA _ keys items => structLensOk keys && structLensOk items
  | .structA fields children v =>
      structLensOkList (alen (.structA fields children v)) children

/-- Every child array has length `n` and is itself struct-length coherent. -/
def structLensOkList (n : Nat) : List AArray → Bool
  | [] => true
  | c :: cs => decide (alen c = n) && structLensOk c && structLensOkList n cs
end

mutual
/-- Every (nested) sub-message type of the field type has at least one field
(a zero-field struct column has no length carrier in the columnar model; the
arrow kernel is degenerate there). -/
def msgNonempty : FieldType → Bool
  | .msgT .nil => false
  | .msgT (.cons _ _ t rest) => msgNonempty t && msgNonemptyFL rest
  | _ => true

/-- `msgNonempty` over a field list. -/
def msgNonemptyFL : FieldList → Bool
  | .nil => true
  | .cons _ _ t rest => msgNonempty t && msgNonemptyFL rest
end

/-- Number of fields of a descriptor. -/
def lengthFL : FieldList → Nat
  | .nil => 0
  | .cons _ _ _ rest => lengthFL rest + 1

theorem getOffsetsAux_length {α : Type} (l : List (Option (List α)))
    (base : Int) : (getOffsetsAux l base).length = l.length + 1 := by
  induction l generalizing base with
  | nil => rfl
  | cons x xs ih =>
      cases x <;> simp [getOffsetsAux, ih]

theorem getOffsetsAux_chain {α : Type} (l : List (List α)) (base : Int)
    (C : Nat) (h : base + (l.flatten.length : Int) = (C : Int)) :
    ∃ rest, getOffsetsAux (l.map some) base = some base :: rest ∧
      offsetsChain (C : Int) base rest = true := by
  induction l generalizing base with
  | nil =>
      refine ⟨[], rfl, ?_⟩
      simp only [List.flatten_nil, List.length_nil, Nat.cast_zero,
        add_zero] at h
      simp [offsetsChain, h]
  | cons x xs ih =>
      obtain ⟨rest', haux, hchain⟩ := ih (base + x.length) (by
        simp only [List.flatten_cons, List.length_append] at h
        push_cast at h
        linarith)
      refine ⟨some (base + x.length) :: rest', ?_, ?_⟩
      · simp only [List.map_cons, getOffsetsAux, haux]
      · simp only [offsetsChain, hchain, Bool.and_true]
        simp

theorem offsetsOkCore_getOffsets {α : Type} (l : List (List α)) :
    offsetsOkCore (getOffsets (l.map some)) l.flatten.length = true := by
  obtain ⟨rest, haux, hchain⟩ := getOffsetsAux_chain l 0 l.flatten.length
    (by simp)
  rw [getOffsets, haux]
  show (decide ((0 : Int) = 0) &&
    offsetsChain (l.flatten.length : Int) 0 rest) = true
  simp only [Bool.and_eq_true]
  exact ⟨rfl, hchain⟩

theorem getOffsets_length {α : Type} (l : List (Option (List α))) :
    (getOffsets l).length = l.length + 1 :=
  getOffsetsAux_length l 0

theorem maskedElems_length {conv : Value → Except String (Option Scalar)}
    {nv : Option Scalar} :
    ∀ {rs : List Value} {m : Option (List Bool)} {es : List (Option Scalar)},
      maskedElems conv nv rs m = .ok es → es.length = rs.length := by
  intro rs
  induction rs with
  | nil =>
      intro m es h
      cases m <;> simp only [maskedElems, Except.ok.injEq] at h <;> subst h <;>
        rfl
  | cons r rs ih =>
      intro m es h
      match m with
      | none =>
          rw [maskedElems, exceptBind_eq_ok] at h
          obtain ⟨v, -, h⟩ := h
          rw [exceptBind_eq_ok] at h
          obtain ⟨tl, htl, h⟩ := h
          simp only [Except.ok.injEq] at h
          subst h
          simp [ih htl]
      | some [] => simp [maskedElems] at h
      | some (bit :: bs) =>
          rw [maskedElems] at h
          cases bit
          · simp only [Bool.false_eq_true, reduceIte, exceptBind_ok] at h
            rw [exceptBind_eq_ok] at h
            obtain ⟨tl, htl, h⟩ := h
            simp only [Except.ok.injEq] at h
            subst h
            simp [ih htl]
          · simp only [reduceIte] at h
            rw [exceptBind_eq_ok] at h
            obtain ⟨v, -, h⟩ := h
            rw [exceptBind_eq_ok] at h
            obtain ⟨tl, htl, h⟩ := h
            simp only [Except.ok.injEq] at h
            subst h
            simp [ih htl]

theorem flatten_map_length {α β : Type} (f : α → β)
    (l : List (List α)) :
    ((l.map fun es => List.map f es).flatten).length = l.flatten.length := by
  induction l with
  | nil => rfl
  | cons x xs ih => simp [ih]

mutual
theorem protoFieldToArray_shape (records : List Value) (t : FieldType)
    (mask : Option (List Bool)) (cfg : ProtarrowConfig) (arr : AArray)
    (hne : msgNonempty t = true)
    (h : protoFieldToArray records t mask cfg = .ok arr) :
    alen arr = records.length ∧ offsetsOk arr = true := by
  match t with
  | .msgT fs =>
      rw [protoFieldToArray] at h
      refine messageToArray_shape records fs mask cfg arr ?_ ?_ h
      · match fs with
        | .nil => exact absurd hne (by simp [msgNonempty])
        | .cons n c t' r => exact hne
      · match fs with
        | .nil => exact absurd hne (by simp [msgNonempty])
        | .cons n c t' r => simp
  | .enumT vals =>
      rw [protoFieldToArray] at h
      rw [exceptBind_eq_ok] at h
      obtain ⟨ec, -, h⟩ := h
      rw [exceptBind_eq_ok] at h
      obtain ⟨elems, helems, h⟩ := h
      simp only [Except.ok.injEq] at h
      subst h
      exact ⟨by simpa [alen] using maskedElems_length helems, rfl⟩
  | .prim p =>
      rw [protoFieldToArray] at h
      rw [exceptBind_eq_ok] at h
      obtain ⟨elems, helems, h⟩ := h
      simp only [Except.ok.injEq] at h
      subst h
      exact ⟨by simpa [alen] using maskedElems_length helems, rfl⟩
  | .tsT =>
      rw [protoFieldToArray_ts, exceptBind_eq_ok] at h
      obtain ⟨elems, helems, h⟩ := h
      simp only [Except.ok.injEq] at h
      subst h
      exact ⟨by simpa [alen] using maskedElems_length helems, rfl⟩
  | .dateT =>
      rw [protoFieldToArray_date, exceptBind_eq_ok] at h
      obtain ⟨elems, helems, h⟩ := h
      simp only [Except.ok.injEq] at h
      subst h
      exact ⟨by simpa [alen] using maskedElems_length helems, rfl⟩
  | .todT =>
      rw [protoFieldToArray_tod, exceptBind_eq_ok] at h
      obtain ⟨elems, helems, h⟩ := h
      simp only [Except.ok.injEq] at h
      subst h
      exact ⟨by simpa [alen] using maskedElems_length helems, rfl⟩
  | .wrapT p =>
      rw [protoFieldToArray_wrap, exceptBind_eq_ok] at h
      obtain ⟨elems, helems, h⟩ := h
      simp only [Except.ok.injEq] at h
      subst h
      exact ⟨by simpa [alen] using maskedElems_length helems, rfl⟩
termination_by 8 * sizeOf t
decreasing_by all_goals (simp_wf; try omega)

theorem repeatedProtoToArray_shape (records : List (List Value))
    (t : FieldType) (cfg : ProtarrowConfig) (arr : AArray)
    (hne : msgNonempty t = true)
    (h : repeatedProtoToArray records t cfg = .ok arr) :
    alen arr = records.length ∧ offsetsOk arr = true := by
  rw [repeatedProtoToArray] at h
  rw [exceptBind_eq_ok] at h
  obtain ⟨array, hA, h⟩ := h
  simp only [Except.ok.injEq] at h
  subst h
  obtain ⟨hlen, hok⟩ := protoFieldToArray_shape records.flatten t none cfg
    array hne hA
  refine ⟨?_, ?_⟩
  · simp [alen, getOffsets_length]
  · simp only [offsetsOk, Bool.and_eq_true]
    refine ⟨?_, hok⟩
    rw [hlen]
    exact offsetsOkCore_getOffsets records
termination_by 8 * sizeOf t + 2
decreasing_by all_goals (simp_wf; try omega)

theorem protoMapToArray_shape (records : List (List (Scalar × Value)))
    (k : PrimKind) (vt : FieldType) (cfg : ProtarrowConfig) (arr : AArray)
    (hne : msgNonempty vt = true)
    (h : protoMapToArray records k vt cfg = .ok arr) :
    alen arr = records.length ∧ offsetsOk arr = true := by
  rw [protoMapToArray] at h
  rw [exceptBind_eq_ok] at h
  obtain ⟨keys, hK, h⟩ := h
  rw [exceptBind_eq_ok] at h
  obtain ⟨values, hV, h⟩ := h
  simp only [Except.ok.injEq] at h
  subst h
  obtain ⟨hKlen, hKok⟩ := protoFieldToArray_shape _ (.prim k) none cfg keys
    rfl hK
  obtain ⟨hVlen, hVok⟩ := protoFieldToArray_shape _ vt none cfg values hne hV
  refine ⟨?_, ?_⟩
  · simp [alen, getOffsets_length]
  · simp only [offsetsOk, Bool.and_eq_true, decide_eq_true_eq]
    refine ⟨⟨⟨?_, ?_⟩, hKok⟩, hVok⟩
    · rw [hKlen, flatten_map_length]
      exact offsetsOkCore_getOffsets records
    · rw [hKlen, hVlen, flatten_map_length, flatten_map_length]
termination_by 8 * sizeOf vt + 8 * sizeOf k + 12
decreasing_by all_goals (simp_wf; try omega)

theorem messageFieldsToArrays_shape (fs : FieldList) (records : List Value)
    (cfg : ProtarrowConfig) (idx : Nat)
    (flds : List (String × Bool × AType)) (arrays : List AArray)
    (hne : msgNonemptyFL fs = true)
    (h : messageFieldsToArrays fs records cfg idx = .ok (flds, arrays)) :
    arrays.length = lengthFL fs ∧ offsetsOkList arrays = true ∧
      ∀ a ∈ arrays, alen a = records.length := by
  match fs with
  | .nil =>
      rw [messageFieldsToArrays] at h
      simp only [Except.ok.injEq, Prod.mk.injEq] at h
      obtain ⟨-, h2⟩ := h
      subst h2
      exact ⟨rfl, rfl, by simp⟩
  | .cons name card t rest =>
      rw [messageFieldsToArrays.eq_def] at h
      have hneT : msgNonempty t = true := by
        simp only [msgNonemptyFL, Bool.and_eq_true] at hne
        exact hne.1
      have hneR : msgNonemptyFL rest = true := by
        simp only [msgNonemptyFL, Bool.and_eq_true] at hne
        exact hne.2
      have main : ∀ (x : Except String AArray),
          (∀ a, x = .ok a → alen a = records.length ∧ offsetsOk a = true) →
          (do
            let array ← x
            let r ← messageFieldsToArrays rest records cfg (idx + 1)
            match r with
            | (fields, arrays) =>
                Except.ok ((name, protoFieldNullable t card true,
                  atypeOf array) :: fields, array :: arrays)) =
            .ok (flds, arrays) →
          arrays.length = lengthFL (.cons name card t rest) ∧
            offsetsOkList arrays = true ∧
            ∀ a ∈ arrays, alen a = records.length := by
        intro x hx hx2
        rw [exceptBind_eq_ok] at hx2
        obtain ⟨array, hA, hx2⟩ := hx2
        rw [exceptBind_eq_ok] at hx2
        obtain ⟨⟨fields', arrays'⟩, hR, hx2⟩ := hx2
        simp only [Except.ok.injEq, Prod.mk.injEq] at hx2
        obtain ⟨-, h2⟩ := hx2
        subst h2
        obtain ⟨hL, hOk, hAl⟩ := messageFieldsToArrays_shape rest records cfg
          (idx + 1) fields' arrays' hneR hR
        obtain ⟨hal, haok⟩ := hx array hA
        refine ⟨by simp [lengthFL, hL], ?_, ?_⟩
        · simp only [offsetsOkList, Bool.and_eq_true]
          exact ⟨haok, hOk⟩
        · intro a ha
          rcases List.mem_cons.mp ha with rfl | ha
          · exact hal
          · exact hAl a ha
      cases card with
      | singular =>
          exact main
            (protoFieldToArray (records.map fun r => (getFieldVal r idx).valueOf)
              t (protoFieldValidityMask records idx t .singular) cfg)
            (fun a ha => by
              simpa using protoFieldToArray_shape _ t _ cfg a hneT ha) h
      | repeatedC =>
          exact main
            (repeatedProtoToArray (records.map fun r => (getFieldVal r idx).listOf)
              t cfg)
            (fun a ha => by
              simpa using repeatedProtoToArray_shape _ t cfg a hneT ha) h
      | mapC k =>
          exact main
            (protoMapToArray (records.map fun r => (getFieldVal r idx).entriesOf)
              k t cfg)
            (fun a ha => by
              simpa using protoMapToArray_shape _ k t cfg a hneT ha) h
termination_by 8 * sizeOf fs + 6
decreasing_by all_goals (subst_vars; simp_wf; try omega)

theorem messageToArray_shape (records : List Value) (fs : FieldList)
    (mask : Option (List Bool)) (cfg : ProtarrowConfig) (arr : AArray)
    (hne : msgNonemptyFL fs = true) (hfs : fs ≠ .nil)
    (h : messageToArray records fs mask cfg = .ok arr) :
    alen arr = records.length ∧ offsetsOk arr = true := by
  rw [messageToArray] at h
  rw [exceptBind_eq_ok] at h
  obtain ⟨⟨flds, arrays⟩, hF, h⟩ := h
  simp only [Except.ok.injEq] at h
  subst h
  obtain ⟨hL, hOk, hAl⟩ := messageFieldsToArrays_shape fs records cfg 0 flds
    arrays hne hF
  refine ⟨?_, hOk⟩
  match harr : arrays with
  | [] =>
      exfalso
      match fs with
      | .nil => exact hfs rfl
      | .cons n c t r => simp [harr, lengthFL] at hL
  | a :: rest => exact hAl a (by simp)
termination_by 8 * sizeOf fs + 7
decreasing_by all_goals (simp_wf; try omega)
end

theorem structLensOkList_of_forall (n : Nat) :
    ∀ (l : List AArray), (∀ a ∈ l, alen a = n) →
    (∀ a ∈ l, structLensOk a = true) → structLensOkList n l = true := by
  intro l
  induction l with
  | nil =>
      intro _ _
      rfl
  | cons c cs ih =>
      intro h1 h2
      show (decide (alen c = n) && structLensOk c &&
        structLensOkList n cs) = true
      rw [h1 c (by simp), h2 c (by simp),
        ih (fun a ha => h1 a (by simp [ha]))
          (fun a ha => h2 a (by simp [ha]))]
      simp

mutual
/-- Struct-length coherence of every array `_proto_field_to_array` builds. -/
theorem protoFieldToArray_lens (records : List Value) (t : FieldType)
    (mask : Option (List Bool)) (cfg : ProtarrowConfig) (arr : AArray)
    (hne : msgNonempty t = true)
    (h : protoFieldToArray records t mask cfg = .ok arr) :
    structLensOk arr = true := by
  match t with
  | .msgT fs =>
      rw [protoFieldToArray] at h
      refine messageToArray_lens records fs mask cfg arr ?_ ?_ h
      · match fs with
        | .nil => exact absurd hne (by simp [msgNonempty])
        | .cons n c t' r => exact hne
      · match fs with
        | .nil => exact absurd hne (by simp [msgNonempty])
        | .cons n c t' r => simp
  | .enumT vals =>
      rw [protoFieldToArray] at h
      rw [exceptBind_eq_ok] at h
      obtain ⟨ec, -, h⟩ := h
      rw [exceptBind_eq_ok] at h
      obtain ⟨elems, -, h⟩ := h
      simp only [Except.ok.injEq] at h
      subst h
      rfl
  | .prim p =>
      rw [protoFieldToArray] at h
      rw [exceptBind_eq_ok] at h
      obtain ⟨elems, -, h⟩ := h
      simp only [Except.ok.injEq] at h
      subst h
      rfl
  | .tsT =>
      rw [protoFieldToArray_ts, exceptBind_eq_ok] at h
      obtain ⟨elems, -, h⟩ := h
      simp only [Except.ok.injEq] at h
      subst h
      rfl
  | .dateT =>
      rw [protoFieldToArray_date, exceptBind_eq_ok] at h
      obtain ⟨elems, -, h⟩ := h
      simp only [Except.ok.injEq] at h
      subst h
      rfl
  | .todT =>
      rw [protoFieldToArray_tod, exceptBind_eq_ok] at h
      obtain ⟨elems, -, h⟩ := h
      simp only [Except.ok.injEq] at h
      subst h
      rfl
  | .wrapT p =>
      rw [protoFieldToArray_wrap, exceptBind_eq_ok] at h
      obtain ⟨elems, -, h⟩ := h
      simp only [Except.ok.injEq] at h
      subst h
      rfl
termination_by 8 * sizeOf t
decreasing_by all_goals (simp_wf; try omega)

/-- Struct-length coherence of every list array `_repeated_proto_to_array`
builds. -/
theorem repeatedProtoToArray_lens (records : List (List Value))
    (t : FieldType) (cfg : ProtarrowConfig) (arr : AArray)
    (hne : msgNonempty t = true)
    (h : repeatedProtoToArray records t cfg = .ok arr) :
    structLensOk arr = true := by
  rw [repeatedProtoToArray] at h
  rw [exceptBind_eq_ok] at h
  obtain ⟨array, hA, h⟩ := h
  simp only [Except.ok.injEq] at h
  subst h
  exact protoFieldToArray_lens records.flatten t none cfg array hne hA
termination_by 8 * sizeOf t + 2
decreasing_by all_goals (simp_wf; try omega)

/-- Struct-length coherence of every map array `_proto_map_to_array`
builds. -/
theorem protoMapToArray_lens (records : List (List (Scalar × Value)))
    (k : PrimKind) (vt : FieldType) (cfg : ProtarrowConfig) (arr : AArray)
    (hne : msgNonempty vt = true)
    (h : protoMapToArray records k vt cfg = .ok arr) :
    structLensOk arr = true := by
  rw [protoMapToArray] at h
  rw [exceptBind_eq_ok] at h
  obtain ⟨keys, hK, h⟩ := h
  rw [exceptBind_eq_ok] at h
  obtain ⟨values, hV, h⟩ := h
  simp only [Except.ok.injEq] at h
  subst h
  have h1 := protoFieldToArray_lens _ (.prim k) none cfg keys rfl hK
  have h2 := protoFieldToArray_lens _ vt none cfg values hne hV
  show (structLensOk keys && structLensOk values) = true
  rw [h1, h2]
  rfl
termination_by 8 * sizeOf vt + 8 * sizeOf k + 12
decreasing_by all_goals (simp_wf; try omega)

/-- Struct-length coherence of every column the field loop of
`_message_to_array` builds. -/
theorem messageFieldsToArrays_lens (fs : FieldList) (records : List Value)
    (cfg : ProtarrowConfig) (idx : Nat)
    (flds : List (String × Bool × AType)) (arrays : List AArray)
    (hne : msgNonemptyFL fs = true)
    (h : messageFieldsToArrays fs records cfg idx = .ok (flds, arrays)) :
    ∀ a ∈ arrays, structLensOk a = true := by
  match fs with
  | .nil =>
      rw [messageFieldsToArrays] at h
      simp only [Except.ok.injEq, Prod.mk.injEq] at h
      obtain ⟨-, h2⟩ := h
      subst h2
      simp
  | .cons name card t rest =>
      rw [messageFieldsToArrays.eq_def] at h
      have hneT : msgNonempty t = true := by
        simp only [msgNonemptyFL, Bool.and_eq_true] at hne
        exact hne.1
      have hneR : msgNonemptyFL rest = true := by
        simp only [msgNonemptyFL, Bool.and_eq_true] at hne
        exact hne.2
      have main : ∀ (x : Except String AArray),
          (∀ a, x = .ok a → structLensOk a = true) →
          (do
            let array ← x
            let r ← messageFieldsToArrays rest records cfg (idx + 1)
            match r with
            | (fields, arrays) =>
                Except.ok ((name, protoFieldNullable t card true,
                  atypeOf array) :: fields, array :: arrays)) =
            .ok (flds, arrays) →
          ∀ a ∈ arrays, structLensOk a = true := by
        intro x hx hx2
        rw [exceptBind_eq_ok] at hx2
        obtain ⟨array, hA, hx2⟩ := hx2
        rw [exceptBind_eq_ok] at hx2
        obtain ⟨⟨fields', arrays'⟩, hR, hx2⟩ := hx2
        simp only [Except.ok.injEq, Prod.mk.injEq] at hx2
        obtain ⟨-, h2⟩ := hx2
        subst h2
        intro a ha
        rcases List.mem_cons.mp ha with rfl | ha
        · exact hx a hA
        · exact messageFieldsToArrays_lens rest records cfg (idx + 1)
            fields' arrays' hneR hR a ha
      cases card with
      | singular =>
          exact main
            (protoFieldToArray
              (records.map fun r => (getFieldVal r idx).valueOf) t
              (protoFieldValidityMask records idx t .singular) cfg)
            (fun a ha => protoFieldToArray_lens _ t _ cfg a hneT ha) h
      | repeatedC =>
          exact main
            (repeatedProtoToArray
              (records.map fun r => (getFieldVal r idx).listOf) t cfg)
            (fun a ha => repeatedProtoToArray_lens _ t cfg a hneT ha) h
      | mapC k =>
          exact main
            (protoMapToArray
              (records.map fun r => (getFieldVal r idx).entriesOf) k t cfg)
            (fun a ha => protoMapToArray_lens _ k t cfg a hneT ha) h
termination_by 8 * sizeOf fs + 6
decreasing_by all_goals (subst_vars; simp_wf; try omega)

/-- Struct-length coherence of the struct array `_message_to_array` builds:
its children all carry the struct's own length, recursively. -/
theorem messageToArray_lens (records : List Value) (fs : FieldList)
    (mask : Option (List Bool)) (cfg : ProtarrowConfig) (arr : AArray)
    (hne : msgNonemptyFL fs = true) (hfs : fs ≠ .nil)
    (h : messageToArray records fs mask cfg = .ok arr) :
    structLensOk arr = true := by
  rw [messageToArray] at h
  rw [exceptBind_eq_ok] at h
  obtain ⟨⟨flds, arrays⟩, hF, h⟩ := h
  simp only [Except.ok.injEq] at h
  subst h
  have hlens := messageFieldsToArrays_lens fs records cfg 0 flds arrays hne hF
  obtain ⟨hL, -, hAl⟩ := messageFieldsToArrays_shape fs records cfg 0 flds
    arrays hne hF
  show structLensOkList (alen (.structA flds arrays mask)) arrays = true
  have halen : alen (.structA flds arrays mask) = records.length := by
    match harr : arrays with
    | [] =>
        exfalso
        match fs with
        | .nil => exact hfs rfl
        | .cons n c t r => simp [harr, lengthFL] at hL
    | a :: rest => exact hAl a (by simp)
  rw [halen]
  exact structLensOkList_of_forall records.length arrays hAl hlens
termination_by 8 * sizeOf fs + 7
decreasing_by all_goals (simp_wf; try omega)
end

/-! ## Claim C4: offset well-formedness -/

/-- C4: in every record batch produced by `messages_to_record_batch`, every
list and map column at any nesting level has well-formed offsets:
`offsets[0] = 0`, offsets non-decreasing and non-null, and the final offset
equal to the child array's length (`offsetsOk` checks exactly this at every
list/map node of every column).  Sub-message types are assumed non-empty
(a zero-field struct has no length carrier in the columnar model). -/
theorem offsets_well_formed (fs : FieldList) (records : List Value)
    (cfg : ProtarrowConfig) (rb : RecordBatch)
    (hne : msgNonemptyFL fs = true)
    (h : messagesToRecordBatch records fs cfg = .ok rb) :
    offsetsOkList rb.columns = true := by
  rw [messagesToRecordBatch, exceptBind_eq_ok] at h
  obtain ⟨a, hM, h⟩ := h
  simp only [Except.ok.injEq] at h
  subst h
  rw [messageToArray, exceptBind_eq_ok] at hM
  obtain ⟨⟨flds, arrays⟩, hF, hM⟩ := hM
  simp only [Except.ok.injEq] at hM
  subst hM
  obtain ⟨-, hok, -⟩ := messageFieldsToArrays_shape fs records cfg 0 flds
    arrays hne hF
  exact hok

/-- Witness for `offsets_well_formed` at a two-row repeated-int32 batch. -/
theorem offsets_well_formed_witness :
    offsetsOkList (RecordBatch.columns
      ⟨[("r", true, .listT false .int32T)],
       [.listA false [some 0, some 2, some 2]
         (.flat .int32T [some (.i 1), some (.i 2)])], 2⟩) = true :=
  offsets_well_formed (.cons "r" .repeatedC (.prim .int32P) .nil)
    [.msgV [.rep [.primV (.i 1), .primV (.i 2)]], .msgV [.rep []]] {} _ rfl
    (by
      rw [messagesToRecordBatch, messageToArray, messageFieldsToArrays,
        messageFieldsToArrays, repeatedProtoToArray, protoFieldToArray]
      rfl)

/-! ## Decode-side length preservation -/

theorem plainLoop_length {t : FieldType}
    {conv : (AType × Option Scalar) → Except String (Option PyVal)} {idx : Nat} :
    ∀ {ps : List Value} {es : List (AType × Option Scalar)} {qs : List Value}
      {tch : List Bool}, plainLoop t conv idx ps es = .ok (qs, tch) →
      qs.length = ps.length := by
  intro ps
  induction ps with
  | nil =>
      intro es qs tch h
      cases es <;> simp only [plainLoop, Except.ok.injEq, Prod.mk.injEq] at h <;>
        obtain ⟨h1, -⟩ := h <;> subst h1 <;> rfl
  | cons p ps ih =>
      intro es qs tch h
      cases es with
      | nil =>
          simp only [plainLoop, Except.ok.injEq, Prod.mk.injEq] at h
          obtain ⟨h1, -⟩ := h
          subst h1
          rfl
      | cons e es =>
          rw [plainLoop, exceptBind_eq_ok] at h
          obtain ⟨⟨p', tb⟩, -, h⟩ := h
          rw [exceptBind_eq_ok] at h
          obtain ⟨⟨ps', tchs⟩, hps, h⟩ := h
          simp only [Except.ok.injEq, Prod.mk.injEq] at h
          obtain ⟨h1, -⟩ := h
          subst h1
          simp [ih hps]

theorem specialLoop_length {t : FieldType} {idx : Nat} :
    ∀ {ps : List Value} {es : List (AType × Option Scalar)} {qs : List Value}
      {tch : List Bool}, specialLoop t idx ps es = .ok (qs, tch) →
      qs.length = ps.length := by
  intro ps
  induction ps with
  | nil =>
      intro es qs tch h
      cases es <;> simp only [specialLoop, Except.ok.injEq, Prod.mk.injEq] at h <;>
        obtain ⟨h1, -⟩ := h <;> subst h1 <;> rfl
  | cons p ps ih =>
      intro es qs tch h
      cases es with
      | nil =>
          simp only [specialLoop, Except.ok.injEq, Prod.mk.injEq] at h
          obtain ⟨h1, -⟩ := h
          subst h1
          rfl
      | cons e es =>
          rw [specialLoop] at h
          by_cases hv : e.2.isSome
          · simp only [hv, if_true, reduceIte] at h
            rw [exceptBind_eq_ok] at h
            obtain ⟨m, -, h⟩ := h
            rw [exceptBind_eq_ok] at h
            obtain ⟨⟨ps', tchs⟩, hps, h⟩ := h
            simp only [Except.ok.injEq, Prod.mk.injEq] at h
            obtain ⟨h1, -⟩ := h
            subst h1
            simp [ih hps]
          · simp only [hv, Bool.false_eq_true, if_false, reduceIte] at h
            rw [exceptBind_eq_ok] at h
            obtain ⟨⟨ps', tchs⟩, hps, h⟩ := h
            simp only [Except.ok.injEq, Prod.mk.injEq] at h
            obtain ⟨h1, -⟩ := h
            subst h1
            simp [ih hps]

theorem appendLoop_length {t : FieldType}
    {conv : (AType × Option Scalar) → Except String (Option PyVal)} {idx : Nat} :
    ∀ {ps : List Value} {szs : List Int}
      {vals : List (AType × Option Scalar)} {qs : List Value}
      {tch : List Bool}, appendLoop t conv idx ps szs vals = .ok (qs, tch) →
      qs.length = ps.length := by
  intro ps
  induction ps with
  | nil =>
      intro szs vals qs tch h
      cases szs <;> simp only [appendLoop, Except.ok.injEq, Prod.mk.injEq] at h <;>
        obtain ⟨h1, -⟩ := h <;> subst h1 <;> rfl
  | cons p ps ih =>
      intro szs vals qs tch h
      cases szs with
      | nil =>
          simp only [appendLoop, Except.ok.injEq, Prod.mk.injEq] at h
          obtain ⟨h1, -⟩ := h
          subst h1
          rfl
      | cons size szs =>
          rw [appendLoop, exceptBind_eq_ok] at h
          obtain ⟨⟨cur', rest⟩, -, h⟩ := h
          rw [exceptBind_eq_ok] at h
          obtain ⟨⟨ps', tchs⟩, hps, h⟩ := h
          simp only [Except.ok.injEq, Prod.mk.injEq] at h
          obtain ⟨h1, -⟩ := h
          subst h1
          simp [ih hps]

theorem mapItemLoop_length {vt : FieldType}
    {conv : (AType × Option Scalar) → Except String (Option PyVal)} {idx : Nat} :
    ∀ {ps : List Value} {szs : List Int}
      {kes ves : List (AType × Option Scalar)} {qs : List Value}
      {tch : List Bool},
      mapItemLoop vt conv idx ps szs kes ves = .ok (qs, tch) →
      qs.length = ps.length := by
  intro ps
  induction ps with
  | nil =>
      intro szs kes ves qs tch h
      cases szs <;> simp only [mapItemLoop, Except.ok.injEq, Prod.mk.injEq] at h <;>
        obtain ⟨h1, -⟩ := h <;> subst h1 <;> rfl
  | cons p ps ih =>
      intro szs kes ves qs tch h
      cases szs with
      | nil =>
          simp only [mapItemLoop, Except.ok.injEq, Prod.mk.injEq] at h
          obtain ⟨h1, -⟩ := h
          subst h1
          rfl
      | cons size szs =>
          rw [mapItemLoop, exceptBind_eq_ok] at h
          obtain ⟨⟨p', kes', ves', cnt⟩, -, h⟩ := h
          rw [exceptBind_eq_ok] at h
          obtain ⟨⟨ps', tchs⟩, hps, h⟩ := h
          simp only [Except.ok.injEq, Prod.mk.injEq] at h
          obtain ⟨h1, -⟩ := h
          subst h1
          simp [ih hps]

theorem reserveLoop_length {vt : FieldType} {idx : Nat} :
    ∀ {ps : List Value} {szs : List Int}
      {kes : List (AType × Option Scalar)} {pos : Nat} {qs : List Value}
      {hss : List (List (Nat × Scalar))},
      reserveLoop vt idx ps szs kes pos = .ok (qs, hss) →
      qs.length = ps.length := by
    intro ps
    induction ps with
    | nil =>
        intro szs kes pos qs hss h
        cases szs <;> simp only [reserveLoop, Except.ok.injEq,
          Prod.mk.injEq] at h <;> obtain ⟨h1, -⟩ := h <;> subst h1 <;> rfl
    | cons p ps ih =>
        intro szs kes pos qs hss h
        cases szs with
        | nil =>
            simp only [reserveLoop, Except.ok.injEq, Prod.mk.injEq] at h
            obtain ⟨h1, -⟩ := h
            subst h1
            rfl
        | cons size szs =>
            rw [reserveLoop, exceptBind_eq_ok] at h
            obtain ⟨⟨p', hs, rest⟩, -, h⟩ := h
            rw [exceptBind_eq_ok] at h
            obtain ⟨⟨ps', hss'⟩, hps, h⟩ := h
            simp only [Except.ok.injEq, Prod.mk.injEq] at h
            obtain ⟨h1, -⟩ := h
            subst h1
            simp [ih hps]

theorem writeBackMap_length {idx : Nat} :
    ∀ {hs : List (Nat × Scalar)} {vs : List Value} {ps : List Value},
      (writeBackMap idx ps hs vs).length = ps.length := by
  intro hs
  induction hs with
  | nil =>
      intro vs ps
      cases vs <;> rfl
  | cons h hs ih =>
      intro vs ps
      cases vs with
      | nil => rfl
      | cons v vs => simp [writeBackMap, ih]

theorem writeBackStruct_length {idx : Nat} :
    ∀ {ps : List Value} {vbs : List Bool} {ss : List Value} {tbs : List Bool},
      (writeBackStruct idx ps vbs ss tbs).length = ps.length := by
  intro ps
  induction ps with
  | nil => intro vbs ss tbs; cases vbs <;> cases ss <;> cases tbs <;> rfl
  | cons p ps ih =>
      intro vbs ss tbs
      cases vbs with
      | nil => rfl
      | cons vb vbs =>
          cases ss with
          | nil => rfl
          | cons s ss =>
              cases tbs with
              | nil => rfl
              | cons tb tbs => simp [writeBackStruct, ih]

theorem writeBackLists_length {idx : Nat} :
    ∀ {ps : List Value} {pieces : List (List Value)},
      (writeBackLists idx ps pieces).length = ps.length := by
  intro ps
  induction ps with
  | nil => intro pieces; cases pieces <;> rfl
  | cons p ps ih =>
      intro pieces
      cases pieces with
      | nil => rfl
      | cons piece rest => simp [writeBackLists, ih]

theorem extendDefaults_length {d : Value} {idx : Nat} :
    ∀ {ps : List Value} {szs : List Int} {budget : Nat},
      (extendDefaults d idx ps szs budget).1.length = ps.length := by
  intro ps
  induction ps with
  | nil => intro szs budget; cases szs <;> rfl
  | cons p ps ih =>
      intro szs budget
      cases szs with
      | nil => rfl
      | cons size szs => simp [extendDefaults, ih]

theorem extractStructField_length {arr : AArray} {fs : FieldList} {idx : Nat}
    {ps qs : List Value} {tch : List Bool}
    (h : extractStructField arr fs idx ps = .ok (qs, tch)) :
    qs.length = ps.length := by
  rw [extractStructField] at h
  rw [exceptBind_eq_ok] at h
  obtain ⟨⟨subs', tch'⟩, -, h⟩ := h
  simp only [Except.ok.injEq, Prod.mk.injEq] at h
  obtain ⟨h1, -⟩ := h
  subst h1
  exact writeBackStruct_length

theorem extractMapField_length {arr : AArray} {k : PrimKind} {vt : FieldType}
    {idx : Nat} {ps qs : List Value} {tch : List Bool}
    (h : extractMapField arr k vt idx ps = .ok (qs, tch)) :
    qs.length = ps.length := by
  rw [extractMapField.eq_def] at h
  match arr with
  | .flat t vals => exact absurd h (by simp)
  | .listA nb offs child => exact absurd h (by simp)
  | .structA f c v => exact absurd h (by simp)
  | .mapA offs keys items =>
      match vt with
      | .msgT vfs =>
          rw [exceptBind_eq_ok] at h
          obtain ⟨sizes, -, h⟩ := h
          rw [exceptBind_eq_ok] at h
          obtain ⟨⟨parents1, hss⟩, hres, h⟩ := h
          rw [exceptBind_eq_ok] at h
          obtain ⟨⟨vals', tch'⟩, -, h⟩ := h
          simp only [Except.ok.injEq, Prod.mk.injEq] at h
          obtain ⟨h1, -⟩ := h
          subst h1
          rw [writeBackMap_length]
          exact reserveLoop_length hres
      | .prim p =>
          rw [exceptBind_eq_ok] at h
          obtain ⟨conv, -, h⟩ := h
          rw [exceptBind_eq_ok] at h
          obtain ⟨sizes, -, h⟩ := h
          rw [exceptBind_eq_ok] at h
          obtain ⟨vals, -, h⟩ := h
          exact mapItemLoop_length h
      | .enumT vals =>
          rw [exceptBind_eq_ok] at h
          obtain ⟨conv, -, h⟩ := h
          rw [exceptBind_eq_ok] at h
          obtain ⟨sizes, -, h⟩ := h
          rw [exceptBind_eq_ok] at h
          obtain ⟨vals, -, h⟩ := h
          exact mapItemLoop_length h
      | .tsT =>
          rw [exceptBind_eq_ok] at h
          obtain ⟨conv, -, h⟩ := h
          rw [exceptBind_eq_ok] at h
          obtain ⟨sizes, -, h⟩ := h
          rw [exceptBind_eq_ok] at h
          obtain ⟨vals, -, h⟩ := h
          exact mapItemLoop_length h
      | .dateT =>
          rw [exceptBind_eq_ok] at h
          obtain ⟨conv, -, h⟩ := h
          rw [exceptBind_eq_ok] at h
          obtain ⟨sizes, -, h⟩ := h
          rw [exceptBind_eq_ok] at h
          obtain ⟨vals, -, h⟩ := h
          exact mapItemLoop_length h
      | .todT =>
          rw [exceptBind_eq_ok] at h
          obtain ⟨conv, -, h⟩ := h
          rw [exceptBind_eq_ok] at h
          obtain ⟨sizes, -, h⟩ := h
          rw [exceptBind_eq_ok] at h
          obtain ⟨vals, -, h⟩ := h
          exact mapItemLoop_length h
      | .wrapT p =>
          rw [exceptBind_eq_ok] at h
          obtain ⟨conv, -, h⟩ := h
          rw [exceptBind_eq_ok] at h
          obtain ⟨sizes, -, h⟩ := h
          rw [exceptBind_eq_ok] at h
          obtain ⟨vals, -, h⟩ := h
          exact mapItemLoop_length h

theorem extractRepeatedMessage_length {arr : AArray} {fs : FieldList}
    {idx : Nat} {ps qs : List Value} {tch : List Bool}
    (h : extractRepeatedMessage arr fs idx ps = .ok (qs, tch)) :
    qs.length = ps.length := by
  rw [extractRepeatedMessage.eq_def] at h
  match arr with
  | .flat t vals => exact absurd h (by simp)
  | .mapA offs keys items => exact absurd h (by simp)
  | .structA f c v => exact absurd h (by simp)
  | .listA nb offs child =>
      rw [exceptBind_eq_ok] at h
      obtain ⟨sizes, -, h⟩ := h
      rw [exceptBind_eq_ok] at h
      obtain ⟨⟨subs', tch'⟩, -, h⟩ := h
      simp only [Except.ok.injEq, Prod.mk.injEq] at h
      obtain ⟨h1, -⟩ := h
      subst h1
      rw [writeBackLists_length]
      exact extendDefaults_length

theorem extractRepeatedPrimitive_length {arr : AArray} {t : FieldType}
    {idx : Nat} {ps qs : List Value} {tch : List Bool}
    (h : extractRepeatedPrimitive arr t idx ps = .ok (qs, tch)) :
    qs.length = ps.length := by
  rw [extractRepeatedPrimitive.eq_def] at h
  match arr with
  | .flat ty vals => exact absurd h (by simp)
  | .mapA offs keys items => exact absurd h (by simp)
  | .structA f c v => exact absurd h (by simp)
  | .listA nb offs child =>
      rw [exceptBind_eq_ok] at h
      obtain ⟨conv, -, h⟩ := h
      rw [exceptBind_eq_ok] at h
      obtain ⟨sizes, -, h⟩ := h
      rw [exceptBind_eq_ok] at h
      obtain ⟨vals, -, h⟩ := h
      exact appendLoop_length h

theorem extractField_length {arr0 : AArray} {card : Card} {t : FieldType}
    {idx : Nat} {ps qs : List Value} {tch : List Bool}
    (h : extractField arr0 card t idx ps = .ok (qs, tch)) :
    qs.length = ps.length := by
  rw [extractField.eq_def] at h
  rw [exceptBind_eq_ok] at h
  obtain ⟨arr, -, h⟩ := h
  match card with
  | .repeatedC =>
      have h' : extractRepeatedField arr .repeatedC t idx ps = .ok (qs, tch) := h
      rw [extractRepeatedField.eq_def] at h'
      match t with
      | .msgT fs => exact extractRepeatedMessage_length h'
      | .prim p => exact extractRepeatedPrimitive_length h'
      | .enumT vals => exact extractRepeatedPrimitive_length h'
      | .tsT => exact extractRepeatedPrimitive_length h'
      | .dateT => exact extractRepeatedPrimitive_length h'
      | .todT => exact extractRepeatedPrimitive_length h'
      | .wrapT p => exact extractRepeatedPrimitive_length h'
  | .mapC k =>
      have h' : extractRepeatedField arr (.mapC k) t idx ps = .ok (qs, tch) := h
      rw [extractRepeatedField.eq_def] at h'
      exact extractMapField_length h'
  | .singular =>
      match t with
      | .tsT => exact specialLoop_length h
      | .dateT => exact specialLoop_length h
      | .todT => exact specialLoop_length h
      | .msgT fs => exact extractStructField_length h
      | .prim p =>
          have h' : plainLoop (.prim p) convertScalar idx ps (elements arr) =
              .ok (qs, tch) := h
          exact plainLoop_length h'
      | .enumT vals =>
          have h' : (do
            let conv ← getConverter (.enumT vals)
            plainLoop (.enumT vals) conv idx ps (elements arr)) =
              .ok (qs, tch) := h
          rw [exceptBind_eq_ok] at h'
          obtain ⟨conv, -, h'⟩ := h'
          exact plainLoop_length h'
      | .wrapT p =>
          have h' : plainLoop (.wrapT p) convertScalar idx ps (elements arr) =
              .ok (qs, tch) := h
          exact plainLoop_length h'

theorem extractFieldsLoop_length (fs : FieldList) :
    ∀ {stFields : List (String × Bool × AType)} {children : List AArray}
      {idx : Nat} {ps qs : List Value} {tch : List Bool},
      extractFieldsLoop stFields children fs idx ps = .ok (qs, tch) →
      qs.length = ps.length := by
  intro stFields children idx ps qs tch h
  match fs with
  | .nil =>
      rw [extractFieldsLoop] at h
      simp only [Except.ok.injEq, Prod.mk.injEq] at h
      obtain ⟨h1, -⟩ := h
      subst h1
      rfl
  | .cons name card t rest =>
      rw [extractFieldsLoop.eq_def] at h
      have h' : (match getFieldIndex stFields name with
          | none => extractFieldsLoop stFields children rest (idx + 1) ps
          | some j => do
              let (parents', tch') ←
                extractField (children.getD j (.structA [] [] none)) card t idx
                  ps
              let (parents'', tchs) ←
                extractFieldsLoop stFields children rest (idx + 1) parents'
              Except.ok (parents'',
                List.zipWith (fun a b => a || b) tch' tchs)) =
          .ok (qs, tch) := h
      clear h
      rcases hgi : getFieldIndex stFields name with _ | j
      · rw [hgi] at h'
        exact extractFieldsLoop_length rest h'
      · rw [hgi] at h'
        rw [exceptBind_eq_ok] at h'
        obtain ⟨⟨ps', tch'⟩, hf, h'⟩ := h'
        rw [exceptBind_eq_ok] at h'
        obtain ⟨⟨ps'', tchs⟩, hl, h'⟩ := h'
        simp only [Except.ok.injEq, Prod.mk.injEq] at h'
        obtain ⟨h1, -⟩ := h'
        subst h1
        rw [extractFieldsLoop_length rest hl]
        exact extractField_length hf
termination_by sizeOf fs

/-- Length of the message list returned by `record_batch_to_messages`. -/
theorem recordBatchToMessages_length (rb : RecordBatch) (fs : FieldList)
    (msgs : List Value) (h : recordBatchToMessages rb fs = .ok msgs) :
    msgs.length = rb.nrows := by
  rw [recordBatchToMessages, extractRecordBatchMessages,
    exceptBind_eq_ok] at h
  obtain ⟨⟨ps, tch⟩, hl, h⟩ := h
  simp only [Except.ok.injEq] at h
  subst h
  rw [extractFieldsLoop_length fs hl]
  exact List.length_replicate _ _

/-! ## Claim C9: length preservation -/

/-- C9: for every non-empty message sequence of a (non-degenerate) schema,
`messages_to_record_batch` produces a batch whose row count equals the number
of input messages, whose top-level columns all have that same length, and in
which every nested struct column's child arrays have the same length as the
parent column (`structLensOk` checks this at every struct node of every
column, at any nesting depth); conversely `record_batch_to_messages` returns
exactly `num_rows` messages. -/
theorem length_preservation (fs : FieldList) (records : List Value)
    (cfg : ProtarrowConfig) (rb : RecordBatch)
    (hne : msgNonemptyFL fs = true) (hfs : fs ≠ .nil) (_hrec : records ≠ [])
    (h : messagesToRecordBatch records fs cfg = .ok rb) :
    rb.nrows = records.length ∧
    (∀ a ∈ rb.columns, alen a = records.length) ∧
    (∀ a ∈ rb.columns, structLensOk a = true) ∧
    (∀ (rb' : RecordBatch) (fs' : FieldList) (msgs : List Value),
      recordBatchToMessages rb' fs' = .ok msgs → msgs.length = rb'.nrows) := by
  rw [messagesToRecordBatch, exceptBind_eq_ok] at h
  obtain ⟨a, hM, h⟩ := h
  simp only [Except.ok.injEq] at h
  subst h
  have hshape := messageToArray_shape records fs none cfg a hne hfs hM
  rw [messageToArray, exceptBind_eq_ok] at hM
  obtain ⟨⟨flds, arrays⟩, hF, hM⟩ := hM
  simp only [Except.ok.injEq] at hM
  subst hM
  obtain ⟨-, -, hAl⟩ := messageFieldsToArrays_shape fs records cfg 0 flds
    arrays hne hF
  have hlens := messageFieldsToArrays_lens fs records cfg 0 flds arrays
    hne hF
  refine ⟨hshape.1, ?_, ?_, fun rb' fs' msgs h' =>
    recordBatchToMessages_length rb' fs' msgs h'⟩
  · intro x hx
    exact hAl x hx
  · intro x hx
    exact hlens x hx

/-- Witness for `length_preservation` at a one-row, one-column batch. -/
theorem length_preservation_witness :
    (RecordBatch.nrows ⟨[("a", false, .int32T)],
        [.flat .int32T [some (.i 5)]], 1⟩ =
      [Value.msgV [.single true (.primV (.i 5))]].length) ∧
    (∀ a ∈ RecordBatch.columns ⟨[("a", false, .int32T)],
        [.flat .int32T [some (.i 5)]], 1⟩,
      alen a = [Value.msgV [.single true (.primV (.i 5))]].length) ∧
    (∀ a ∈ RecordBatch.columns ⟨[("a", false, .int32T)],
        [.flat .int32T [some (.i 5)]], 1⟩,
      structLensOk a = true) ∧
    (∀ (rb' : RecordBatch) (fs' : FieldList) (msgs : List Value),
      recordBatchToMessages rb' fs' = .ok msgs → msgs.length = rb'.nrows) :=
  length_preservation (.cons "a" .singular (.prim .int32P) .nil)
    [.msgV [.single true (.primV (.i 5))]] {} _ rfl (by simp) (by simp)
    (by
      rw [messagesToRecordBatch, messageToArray, messageFieldsToArrays,
        messageFieldsToArrays, protoFieldToArray]
      rfl)

/-! ## Claim C5: wrapper presence -/

/-- C5: a singular wrapper-of-scalar field is encoded as the unwrapped scalar
column whose validity bit at row `i` is set iff the message at row `i` has the
field present (the mask comes from `_proto_field_validity_mask`, the value from
the `.value` converter); decoding writes `.value` (marking the field present)
for valid slots and leaves the parent untouched for null slots, so a field
that was absent stays unset (`HasField` false, the default presence of a
wrapper field). -/
theorem wrapper_presence (pk : PrimKind) (idx : Nat) (cfg : ProtarrowConfig)
    (ps : List Value) (ws : List (Bool × Scalar))
    (hF : List.Forall₂
      (fun p w => getFieldVal p idx = FieldVal.single w.1 (.wrapV w.2)) ps ws) :
    protoFieldToArray (ps.map fun p => (getFieldVal p idx).valueOf) (.wrapT pk)
        (protoFieldValidityMask ps idx (.wrapT pk) .singular) cfg =
      .ok (.flat (primPa pk) (ws.map fun w => if w.1 then some w.2 else none)) ∧
    (∀ (vals : List (Option Scalar)) (qs : List Value),
      qs.length = vals.length →
      extractField (.flat (primPa pk) vals) .singular (.wrapT pk) idx qs =
        .ok (List.zipWith (fun q sv =>
            match sv with
            | some s => setFieldVal q idx (.single true (.wrapV s))
            | none => q) qs vals,
          List.zipWith (fun _ sv => sv.isSome) qs vals)) ∧
    defaultPresent (.wrapT pk) = false := by
  refine ⟨?_, ?_, rfl⟩
  · rw [protoFieldToArray_wrap]
    simp only [protoFieldValidityMask, isMessageKind, Bool.not_true,
      Bool.false_or, bne_self_eq_false, Bool.false_eq_true, if_false, reduceIte]
    have key : ∀ (ps : List Value) (ws : List (Bool × Scalar)),
        List.Forall₂
          (fun p w => getFieldVal p idx = FieldVal.single w.1 (.wrapV w.2))
          ps ws →
        maskedElems (fun v => .ok (match v with
            | Value.wrapV s => some s
            | _ => none)) none
          (ps.map fun p => (getFieldVal p idx).valueOf)
          (some (ps.map fun p => (getFieldVal p idx).presentOf)) =
        .ok (ws.map fun w => if w.1 then some w.2 else none) := by
      intro ps ws h
      induction h with
      | nil => rfl
      | cons hp hF ih =>
          rename_i p w ps' ws'
          obtain ⟨b, sc⟩ := w
          have hv : (getFieldVal p idx).valueOf = Value.wrapV sc := by
            rw [hp]
            rfl
          have hb : (getFieldVal p idx).presentOf = b := by
            rw [hp]
            rfl
          cases b
          · simp only [List.map_cons, hv, hb, maskedElems,
              Bool.false_eq_true, reduceIte, exceptBind_ok]
            rw [ih]
            rfl
          · simp only [List.map_cons, hv, hb, maskedElems, reduceIte,
              exceptBind_ok]
            rw [ih]
            rfl
    rw [key ps ws hF]
    rfl
  · intro vals qs hlen
    have hstep : ∀ p e, plainWrite (.wrapT pk) convertScalar idx p e =
        .ok (match e.2 with
          | some s => (setFieldVal p idx (.single true (.wrapV s)), true)
          | none => (p, false)) := by
      intro p e
      obtain ⟨ty, sv⟩ := e
      cases sv <;> rfl
    rw [extractField.eq_def, prepareArray_primPa]
    simp only [exceptBind_ok]
    rw [show getConverter (.wrapT pk) = .ok convertScalar from rfl]
    simp only [exceptBind_ok]
    rw [plainLoop_zip _ hstep qs (elements (.flat (primPa pk) vals))
      (by simpa [elements] using hlen)]
    simp only [elements, List.zipWith_map_right, Except.ok.injEq, Prod.mk.injEq]
    constructor
    · congr 1
      funext q sv
      cases sv <;> rfl
    · congr 1
      funext q sv
      cases sv <;> rfl

/-- Witness for `wrapper_presence` at a present and an absent wrapper. -/
theorem wrapper_presence_witness :
    (protoFieldToArray
        ([Value.msgV [.single true (.wrapV (.i 7))],
          Value.msgV [.single false (.wrapV (.i 0))]].map
          fun p => (getFieldVal p 0).valueOf) (.wrapT .int32P)
        (protoFieldValidityMask
          [Value.msgV [.single true (.wrapV (.i 7))],
           Value.msgV [.single false (.wrapV (.i 0))]] 0 (.wrapT .int32P)
          .singular) {} =
      .ok (.flat (primPa .int32P)
        ([((true : Bool), Scalar.i 7), (false, .i 0)].map
          fun w => if w.1 then some w.2 else none))) ∧
    (∀ (vals : List (Option Scalar)) (qs : List Value),
      qs.length = vals.length →
      extractField (.flat (primPa .int32P) vals) .singular (.wrapT .int32P) 0
          qs =
        .ok (List.zipWith (fun q sv =>
            match sv with
            | some s => setFieldVal q 0 (.single true (.wrapV s))
            | none => q) qs vals,
          List.zipWith (fun _ sv => sv.isSome) qs vals)) ∧
    defaultPresent (.wrapT .int32P) = false :=
  wrapper_presence .int32P 0 {}
    [Value.msgV [.single true (.wrapV (.i 7))],
     Value.msgV [.single false (.wrapV (.i 0))]]
    [(true, .i 7), (false, .i 0)]
    (List.Forall₂.cons rfl (List.Forall₂.cons rfl List.Forall₂.nil))

/-! ## Claim C10: repeated enum with an unknown name raises -/

/-- C10: a record batch with a repeated enum column (string representation)
holding an element whose name matches no enum value makes
`record_batch_to_messages` raise: the converter yields `None` and
`AppendAssigner` appends it to the repeated scalar field, which the runtime
rejects, unlike the singular case which skips the element. -/
theorem repeated_enum_unknown_name_raises :
    recordBatchToMessages
      ⟨[("re", true, .listT false .stringT)],
       [.listA false [some 0, some 1] (.flat .stringT [some (.s "ZZZ")])], 1⟩
      (.cons "re" .repeatedC (.enumT [(0, "A"), (1, "B")]) .nil) =
    .error "TypeError" := by
  rw [recordBatchToMessages, extractRecordBatchMessages,
    extractFieldsLoop.eq_def]
  simp only [List.replicate]
  rw [show getFieldIndex [("re", true, AType.listT false .stringT)] "re" =
    some 0 from rfl]
  simp only []
  rw [extractField.eq_def]
  rw [show prepareArray ([AArray.listA false [some 0, some 1]
      (.flat .stringT [some (.s "ZZZ")])].getD 0 (.structA [] [] none)) =
    .ok (.listA false [some 0, some 1]
      (.flat .stringT [some (Scalar.s "ZZZ")])) from rfl]
  simp only [exceptBind_ok]
  rw [extractRepeatedField.eq_def]
  rfl

/-! ## Claim C7: TimeOfDay scalar codec round trip -/

/-- C7: `_time_of_day_to_nanos` maps a TimeOfDay to
`((hours*60+minutes)*60+seconds)*1_000_000_000 + nanos` and
`_time_of_day_scalar_to_proto` splits a nanosecond count with
`/3_600_000_000_000`, `/60_000_000_000 mod 60`, `/1_000_000_000 mod 60` and
`mod 1_000_000_000`; for every TimeOfDay with hours in `[0,24)`, minutes and
seconds in `[0,60)` and nanos in `[0,1e9)`, decoding the encoding is the
identity. -/
theorem timeOfDay_codec_round_trip (h mi s n : Int)
    (_hh0 : 0 ≤ h) (_hh : h < 24) (hmi0 : 0 ≤ mi) (hmi : mi < 60)
    (hs0 : 0 ≤ s) (hs : s < 60) (hn0 : 0 ≤ n) (hn : n < 1000000000) :
    timeOfDayToNanos h mi s n =
      ((h * 60 + mi) * 60 + s) * 1000000000 + n ∧
    timeOfDayScalarToProto (some (.i (timeOfDayToNanos h mi s n))) =
      .ok (.todV h mi s n) := by
  refine ⟨rfl, ?_⟩
  simp only [timeOfDayScalarToProto, timeOfDayToNanos, Except.ok.injEq,
    Value.todV.injEq]
  refine ⟨?_, ?_, ?_, ?_⟩ <;> omega

/-- Witness for `timeOfDay_codec_round_trip` at a concrete time of day. -/
theorem timeOfDay_codec_round_trip_witness :
    timeOfDayToNanos 13 59 58 999999999 =
      ((13 * 60 + 59) * 60 + 58) * 1000000000 + 999999999 ∧
    timeOfDayScalarToProto (some (.i (timeOfDayToNanos 13 59 58 999999999))) =
      .ok (.todV 13 59 58 999999999) :=
  timeOfDay_codec_round_trip 13 59 58 999999999 (by decide) (by decide)
    (by decide) (by decide) (by decide) (by decide) (by decide) (by decide)

/-! ## Claim C2: timestamp encoding and the configured unit -/

/-- C2 counterexample: encoding `Timestamp(seconds=1, nanos=123_456_789)` with
`timestamp_unit = "ms"` does not yield the element `1_123` in a
millisecond-unit column: the encoder ignores the configured unit and produces
`1_123_456_789` in the fixed `timestamp("ns", "UTC")` column type. -/
theorem timestamp_encode_not_rescaled :
    protoFieldToArray [.tsV 1 123456789] .tsT none
        { timestampUnit := .ms } =
      .ok (.flat paTimestampType [some (.i 1123456789)]) ∧
    paTimestampType ≠ .timestampT .ms "UTC" ∧
    Scalar.i 1123456789 ≠ .i 1123 := by
  refine ⟨?_, ?_, ?_⟩
  · rw [protoFieldToArray_ts]
    rfl
  · simp [paTimestampType]
  · simp

/-- C2 amended: the encoder converts `(seconds, nanos)` to total nanoseconds
(`Timestamp.ToNanoseconds`) and stores them unscaled in a
`timestamp("ns","UTC")` column regardless of the configuration; the decoder
multiplies an element by its column unit's nanosecond factor and splits, so
the millisecond element `1_123` decodes to `seconds=1, nanos=123_000_000`. -/
theorem timestamp_encode_decode (recs : List (Int × Int))
    (cfg : ProtarrowConfig) (v : Int) (tz : String) :
    protoFieldToArray (recs.map fun p => .tsV p.1 p.2) .tsT none cfg =
      .ok (.flat paTimestampType
        (recs.map fun p => some (.i (p.1 * 1000000000 + p.2)))) ∧
    timestampScalarToProto (.timestampT .ms tz) (some (.i v)) =
      .ok (.tsV (v * 1000000 / 1000000000) (v * 1000000 % 1000000000)) ∧
    timestampScalarToProto (.timestampT .ms tz) (some (.i 1123)) =
      .ok (.tsV 1 123000000) := by
  refine ⟨?_, by simp [timestampScalarToProto, timestampConverter], ?_⟩
  · rw [protoFieldToArray_ts]
    rw [maskedElems_none (f := fun w =>
      match w with
      | Value.tsV sec nanos => some (Scalar.i (sec * 1000000000 + nanos))
      | _ => none)]
    · simp only [List.map_map]
      rfl
    · intro r _
      rfl
  · simp only [timestampScalarToProto, timestampConverter]
    norm_num

/-! ## List auxiliaries for the round-trip development -/

theorem listGetD_set_self {α : Type} (l : List α) (i : Nat) (v d : α)
    (h : i < l.length) : (l.set i v).getD i d = v := by
  induction l generalizing i with
  | nil => simp at h
  | cons a l ih =>
      cases i with
      | zero => rfl
      | succ i => exact ih i (by simpa using h)

theorem listGetD_set_ne {α : Type} (l : List α) (i j : Nat) (v d : α)
    (h : i ≠ j) : (l.set i v).getD j d = l.getD j d := by
  induction l generalizing i j with
  | nil => simp [List.set]
  | cons a l ih =>
      cases i with
      | zero =>
          cases j with
          | zero => exact absurd rfl h
          | succ j => rfl
      | succ i =>
          cases j with
          | zero => rfl
          | succ j => exact ih i j fun e => h (by rw [e])

theorem listSet_getD_self {α : Type} (l : List α) (i : Nat) (d : α)
    (h : i < l.length) : l.set i (l.getD i d) = l := by
  induction l generalizing i with
  | nil => rfl
  | cons a l ih =>
      cases i with
      | zero => rfl
      | succ i => simpa [List.set] using ih i (by simpa using h)

theorem listGetD_append_cons {α : Type} (pre : List α) (p : α) (ps : List α)
    (d : α) : (pre ++ p :: ps).getD pre.length d = p := by
  induction pre with
  | nil => rfl
  | cons a pre ih => simpa using ih

theorem listSet_append_cons {α : Type} (pre : List α) (p x : α) (ps : List α) :
    (pre ++ p :: ps).set pre.length x = pre ++ x :: ps := by
  induction pre with
  | nil => rfl
  | cons a pre ih => simp [List.set, ih]

theorem redistribute_flatten (groups : List (List Value)) :
    redistribute (groups.map List.length) groups.flatten = groups := by
  induction groups with
  | nil => rfl
  | cons g gs ih =>
      simp only [List.map_cons, List.flatten_cons, redistribute]
      rw [List.take_left, List.drop_left, ih]

theorem zipWith_left_comp {α β γ : Type} (g : α → γ → γ) (f : α → β → γ)
    (as : List α) (bs : List β) :
    List.zipWith g as (List.zipWith f as bs) =
      List.zipWith (fun a b => g a (f a b)) as bs := by
  induction as generalizing bs with
  | nil => rfl
  | cons a as ih =>
      cases bs with
      | nil => rfl
      | cons b bs => simpa using ih bs

theorem zipWith_same_map {α β γ δ : Type} (k : β → γ → δ) (f : α → β)
    (g : α → γ) (as : List α) :
    List.zipWith k (as.map f) (as.map g) = as.map fun a => k (f a) (g a) := by
  induction as with
  | nil => rfl
  | cons a as ih => simp [ih]

theorem zipWith_snd_of_length {α β : Type} (as : List α) (bs : List β)
    (h : as.length = bs.length) :
    List.zipWith (fun _ b => b) as bs = bs := by
  induction as generalizing bs with
  | nil =>
      cases bs with
      | nil => rfl
      | cons b bs => simp at h
  | cons a as ih =>
      cases bs with
      | nil => simp at h
      | cons b bs => simpa using ih bs (by simpa using h)

theorem forall2_zipWith {α β γ : Type} {R : α → β → Prop} {R' : α → γ → Prop}
    {f : α → β → γ} {as : List α} {bs : List β} (h : List.Forall₂ R as bs)
    (hf : ∀ a b, R a b → R' a (f a b)) :
    List.Forall₂ R' as (List.zipWith f as bs) := by
  induction h with
  | nil => exact List.Forall₂.nil
  | cons hab _ ih => exact List.Forall₂.cons (hf _ _ hab) ih

theorem forall2_with_mem {α β : Type} {R : α → β → Prop} {Q : α → Prop}
    {as : List α} {bs : List β} (h : List.Forall₂ R as bs)
    (hq : ∀ a ∈ as, Q a) :
    List.Forall₂ (fun a b => Q a ∧ R a b) as bs := by
  induction h with
  | nil => exact List.Forall₂.nil
  | cons hab _ ih =>
      exact List.Forall₂.cons ⟨hq _ (by simp), hab⟩
        (ih fun a ha => hq a (by simp [ha]))

theorem nodup_map_inj_on {α β : Type} (f : α → β) (l : List α)
    (h : (l.map f).Nodup) {a b : α} (ha : a ∈ l) (hb : b ∈ l)
    (hf : f a = f b) : a = b := by
  induction l with
  | nil => simp at ha
  | cons x l ih =>
      simp only [List.map_cons, List.nodup_cons] at h
      rcases List.mem_cons.mp ha with rfl | ha'
      · rcases List.mem_cons.mp hb with rfl | hb'
        · rfl
        · exact absurd (hf ▸ List.mem_map_of_mem f hb') h.1
      · rcases List.mem_cons.mp hb with rfl | hb'
        · exact absurd (hf ▸ List.mem_map_of_mem f ha') h.1
        · exact ih h.2 ha' hb'

theorem decide_pos_length {α : Type} (l : List α) :
    decide (0 < l.length) = !l.isEmpty := by
  cases l <;> simp

/-! ## Preparation and converter unfoldings -/

theorem prepareArray_listA (nb : Bool) (offs : List (Option Int))
    (child : AArray) :
    prepareArray (.listA nb offs child) = .ok (.listA nb offs child) := rfl

theorem prepareArray_mapA (offs : List (Option Int)) (keys items : AArray) :
    prepareArray (.mapA offs keys items) = .ok (.mapA offs keys items) := rfl

theorem prepareArray_structA (fields : List (String × Bool × AType))
    (children : List AArray) (v : Option (List Bool)) :
    prepareArray (.structA fields children v) =
      .ok (.structA fields children v) := rfl

theorem prepareArray_flat_ts (vals : List (Option Scalar)) :
    prepareArray (.flat paTimestampType vals) =
      .ok (.flat paTimestampType vals) := rfl

theorem prepareArray_flat_date (vals : List (Option Scalar)) :
    prepareArray (.flat .date32T vals) = .ok (.flat .date32T vals) := rfl

theorem prepareArray_enumCfg (cfg : ProtarrowConfig) (h : CfgOk cfg)
    (vals : List (Option Scalar)) :
    prepareArray (.flat cfg.enumType vals) = .ok (.flat cfg.enumType vals) := by
  rcases h with h | h <;> rw [h] <;> rfl

theorem prepareArray_time (vals : List (Option Scalar)) :
    prepareArray (.flat paTimeType vals) =
      .ok (.flat .int64T (vals.map fun sv => sv.map fun s =>
        match s with
        | .i n => .i (n * 1)
        | x => x)) := rfl

theorem getEnumConverter_cfg (cfg : ProtarrowConfig) (h : CfgOk cfg)
    (vals : List (Int × String)) :
    getEnumConverter cfg.enumType vals = .ok (fun x =>
      match lookupNumber vals x with
      | some nm => .ok (.s nm)
      | none => .error "KeyError") := by
  rcases h with h | h <;> rw [h] <;> rfl

/-! ## Element-level codec identities -/

theorem mergeInt_zero (n : Int) : mergeInt 0 n = n := by
  rw [mergeInt]
  split
  · omega
  · rfl

theorem mergeSpecial_ts (a b : Int) :
    mergeSpecial (.tsV 0 0) (.tsV a b) = .tsV a b := by
  simp [mergeSpecial, mergeInt_zero]

theorem mergeSpecial_date (y m d : Int) :
    mergeSpecial (.dateV 0 0 0) (.dateV y m d) = .dateV y m d := by
  simp [mergeSpecial, mergeInt_zero]

theorem mergeSpecial_tod (h mi s n : Int) :
    mergeSpecial (.todV 0 0 0 0) (.todV h mi s n) = .todV h mi s n := by
  simp [mergeSpecial, mergeInt_zero]

theorem ts_codec (sec nanos : Int) (h1 : 0 ≤ nanos) (h2 : nanos < 1000000000) :
    timestampScalarToProto paTimestampType
      (some (.i (sec * 1000000000 + nanos))) = .ok (.tsV sec nanos) := by
  simp only [paTimestampType, timestampScalarToProto, timestampConverter,
    Except.ok.injEq, Value.tsV.injEq]
  constructor <;> omega

theorem tod_codec (h mi s n : Int) (_hh0 : 0 ≤ h) (_hh : h < 24)
    (hmi0 : 0 ≤ mi) (hmi : mi < 60) (hs0 : 0 ≤ s) (hs : s < 60)
    (hn0 : 0 ≤ n) (hn : n < 1000000000) :
    timeOfDayScalarToProto (some (.i (timeOfDayToNanos h mi s n * 1))) =
      .ok (.todV h mi s n) := by
  simp only [timeOfDayScalarToProto, timeOfDayToNanos, Except.ok.injEq,
    Value.todV.injEq]
  refine ⟨?_, ?_, ?_, ?_⟩ <;> omega

theorem lookupNumber_mem (vals : List (Int × String)) (n : Int) (nm : String)
    (h : lookupNumber vals n = some nm) : (n, nm) ∈ vals := by
  rw [lookupNumber] at h
  rcases hf : vals.find? fun e => e.1 = n with _ | e
  · rw [hf] at h
    exact Option.noConfusion h
  · rw [hf] at h
    simp only [Option.map_some', Option.some.injEq] at h
    have he1 : e ∈ vals := List.mem_of_find?_eq_some hf
    have he2 : e.1 = n := by
      have := List.find?_some hf
      simpa using this
    obtain ⟨e1, e2⟩ := e
    simp only at he2
    subst he2 h
    exact he1

theorem lookupName_of_number (vals : List (Int × String))
    (hnd : (vals.map Prod.snd).Nodup) (n : Int) (nm : String)
    (h : lookupNumber vals n = some nm) : lookupName vals nm = some n := by
  have hmem := lookupNumber_mem vals n nm h
  rw [lookupName]
  rcases hf : vals.find? fun e => e.2 = nm with _ | e
  · have := List.find?_eq_none.mp hf (n, nm) hmem
    simp at this
  · have he1 : e ∈ vals := List.mem_of_find?_eq_some hf
    have he2 : e.2 = nm := by
      have := List.find?_some hf
      simpa using this
    have he : e = (n, nm) := nodup_map_inj_on Prod.snd vals hnd he1 hmem (by
      rw [he2])
    subst he
    rw [hf]
    rfl

/-! ## Association-list lemmas -/

theorem assocReserve_notin (es : List (Scalar × Value)) (k : Scalar) (d : Value)
    (h : k ∉ es.map Prod.fst) :
    assocReserve es k d = (es ++ [(k, d)], d) := by
  induction es with
  | nil => rfl
  | cons e es ih =>
      obtain ⟨k', v'⟩ := e
      have hne : ¬ (k' = k) := by
        intro hk
        exact h (by simp [hk])
      have h' : k ∉ es.map Prod.fst := by
        intro hm
        exact h (by simp [hm])
      rw [assocReserve, if_neg hne, ih h']
      rfl

theorem assocSet_append_cons (done : List (Scalar × Value)) (k : Scalar)
    (d v : Value) (rest : List (Scalar × Value))
    (h : k ∉ done.map Prod.fst) :
    assocSet (done ++ (k, d) :: rest) k v = done ++ (k, v) :: rest := by
  induction done with
  | nil =>
      rw [List.nil_append, assocSet, if_pos rfl]
      rfl
  | cons e done ih =>
      obtain ⟨k', v'⟩ := e
      have hne : ¬ (k' = k) := by
        intro hk
        exact h (by simp [hk])
      have h' : k ∉ done.map Prod.fst := by
        intro hm
        exact h (by simp [hm])
      rw [List.cons_append, assocSet, if_neg hne, ih h']
      rfl

theorem assocFind_append_cons (done : List (Scalar × Value)) (k : Scalar)
    (v : Value) (rest : List (Scalar × Value))
    (h : k ∉ done.map Prod.fst) :
    assocFind (done ++ (k, v) :: rest) k = some v := by
  induction done with
  | nil => simp [assocFind]
  | cons e done ih =>
      have hne : ¬ (e.1 = k) := by
        intro hk
        exact h (by simp [← hk])
      have h' : k ∉ done.map Prod.fst := by
        intro hm
        exact h (by simp [hm])
      rw [List.cons_append, assocFind, List.find?_cons_of_neg _ (by simpa using hne)]
      exact ih h'

theorem assocFind_map_default (g : List Scalar) (k : Scalar) (d : Value)
    (h : k ∈ g) :
    assocFind (g.map fun k' => (k', d)) k = some d := by
  induction g with
  | nil => simp at h
  | cons k' g ih =>
      by_cases hk : k' = k
      · simp [assocFind, List.find?_cons_of_pos, hk]
      · rw [List.map_cons, assocFind,
          List.find?_cons_of_neg _ (by simpa using hk)]
        exact ih (by
          rcases List.mem_cons.mp h with h1 | h1
          · exact absurd h1.symm hk
          · exact h1)

/-! ## Pointwise loop characterizations -/

theorem plainLoop_round {t : FieldType}
    {conv : (AType × Option Scalar) → Except String (Option PyVal)} {idx : Nat}
    {R : Value → Value → Prop} (efun : Value → AType × Option Scalar)
    (g : Value → Value → Value) (w : Value → Bool)
    (hstep : ∀ r p, R r p → plainWrite t conv idx p (efun r) = .ok (g r p, w r))
    {records parents : List Value} (h : List.Forall₂ R records parents) :
    plainLoop t conv idx parents (records.map efun) =
      .ok (List.zipWith g records parents, records.map w) := by
  induction h with
  | nil => rfl
  | cons hab htl ih =>
      simp only [List.map_cons, plainLoop, hstep _ _ hab, exceptBind_ok, ih]
      rfl

theorem specialLoop_round {t : FieldType} {idx : Nat}
    {R : Value → Value → Prop} (efun : Value → AType × Option Scalar)
    (g : Value → Value → Value) (w : Value → Bool)
    (hstep : ∀ r p, R r p →
      if (efun r).2.isSome then
        ∃ m, specialToProto t (efun r) = .ok m ∧
          g r p = setFieldVal p idx
            (.single true (mergeSpecial (getFieldVal p idx).valueOf m)) ∧
          w r = true
      else g r p = p ∧ w r = false)
    {records parents : List Value} (h : List.Forall₂ R records parents) :
    specialLoop t idx parents (records.map efun) =
      .ok (List.zipWith g records parents, records.map w) := by
  induction h with
  | nil => rfl
  | cons hab htl ih =>
      rename_i r p rs ps
      have hr := hstep r p hab
      rcases hv : (efun r).2.isSome with _ | _
      · rw [hv] at hr
        simp only [Bool.false_eq_true, if_false] at hr
        simp only [List.map_cons, specialLoop, hv, Bool.false_eq_true,
          if_false, ih, exceptBind_ok]
        rw [List.zipWith_cons_cons, hr.1, hr.2]
      · rw [hv] at hr
        simp only [if_true] at hr
        obtain ⟨m, hm, hg, hw⟩ := hr
        simp only [List.map_cons, specialLoop, hv, if_true, hm, exceptBind_ok,
          ih]
        rw [List.zipWith_cons_cons, ← hg, hw]

theorem setFieldVal_setFieldVal (p : Value) (idx : Nat) (a b : FieldVal) :
    setFieldVal (setFieldVal p idx a) idx b = setFieldVal p idx b := by
  cases p <;> simp [setFieldVal, List.set_set]

theorem getFieldVal_set_self (pf : List FieldVal) (idx : Nat) (fv : FieldVal)
    (h : idx < pf.length) :
    getFieldVal (setFieldVal (.msgV pf) idx fv) idx = fv := by
  simp only [setFieldVal, getFieldVal, Value.fieldsOf]
  exact listGetD_set_self pf idx fv junkField h

theorem setFieldVal_self (pf : List FieldVal) (idx : Nat)
    (h : idx < pf.length) :
    setFieldVal (.msgV pf) idx (getFieldVal (.msgV pf) idx) = .msgV pf := by
  simp only [setFieldVal, getFieldVal, Value.fieldsOf]
  rw [listSet_getD_self pf idx junkField h]

theorem flatten_map_replicate {α : Type} (d : α) (ns : List Nat) :
    (ns.map fun n => List.replicate n d).flatten = List.replicate ns.sum d := by
  induction ns with
  | nil => rfl
  | cons n ns ih =>
      simp only [List.map_cons, List.flatten_cons, List.sum_cons, ih]
      rw [List.replicate_add]

theorem zipWith_replicate_right {α β γ : Type} (f : α → β → γ) (as : List α)
    (b : β) :
    List.zipWith f as (List.replicate as.length b) = as.map (f · b) := by
  induction as with
  | nil => rfl
  | cons a as ih => simp [List.replicate_succ, ih]

theorem appendMany_exact {t : FieldType}
    {conv : (AType × Option Scalar) → Except String (Option PyVal)}
    (efun : Value → AType × Option Scalar) (g : List Value)
    (hel : ∀ v ∈ g, ∃ x, conv (efun v) = .ok (some x) ∧
      ∀ cur, appendPrimOne t cur (some x) = .ok (cur ++ [v])) :
    ∀ (cur : List Value) (rest : List (AType × Option Scalar)),
      appendMany t conv cur g.length (g.map efun ++ rest) =
        .ok (cur ++ g, rest) := by
  induction g with
  | nil =>
      intro cur rest
      simp only [List.map_nil, List.nil_append, List.length_nil,
        List.append_nil]
      rw [appendMany]
  | cons v g ih =>
      intro cur rest
      obtain ⟨x, hx, happend⟩ := hel v (by simp)
      simp only [List.map_cons, List.cons_append, List.length_cons, appendMany,
        hx, exceptBind_ok, happend cur, List.append_eq]
      rw [ih (fun u hu => hel u (by simp [hu])) (cur ++ [v]) rest]
      simp

theorem appendLoop_round {t : FieldType}
    {conv : (AType × Option Scalar) → Except String (Option PyVal)} {idx : Nat}
    {R : Value → Value → Prop} (efun : Value → AType × Option Scalar)
    (grp : Value → List Value)
    (hfresh : ∀ r p, R r p → (getFieldVal p idx).listOf = [])
    (hel : ∀ r p, R r p → ∀ v ∈ grp r, ∃ x, conv (efun v) = .ok (some x) ∧
      ∀ cur, appendPrimOne t cur (some x) = .ok (cur ++ [v]))
    {records parents : List Value} (h : List.Forall₂ R records parents) :
    appendLoop t conv idx parents
        (records.map fun r => ((grp r).length : Int))
        ((records.map fun r => (grp r).map efun).flatten) =
      .ok (List.zipWith (fun r p => setFieldVal p idx (.rep (grp r))) records
        parents, records.map fun r => !(grp r).isEmpty) := by
  induction h with
  | nil => rfl
  | cons hab htl ih =>
      rename_i r p rs ps
      simp only [List.map_cons, List.flatten_cons, appendLoop, hfresh r p hab]
      rw [show ((((grp r).length : Int)).toNat) = (grp r).length from by omega]
      rw [appendMany_exact efun (grp r) (hel r p hab) [] _]
      simp only [List.nil_append, exceptBind_ok, ih, exceptBind_ok]
      simp only [List.length_nil, decide_pos_length]
      rfl

theorem extendDefaults_exact (d : Value) (idx : Nat)
    {R : Value → Value → Prop} (grp : Value → List Value)
    (hfresh : ∀ r p, R r p → (getFieldVal p idx).listOf = [])
    {records parents : List Value} (h : List.Forall₂ R records parents) :
    ∀ budget, (records.map fun r => (grp r).length).sum ≤ budget →
    extendDefaults d idx parents (records.map fun r => ((grp r).length : Int))
        budget =
      (List.zipWith (fun r p =>
          setFieldVal p idx (.rep (List.replicate (grp r).length d)))
        records parents,
       records.map fun r => (grp r).length) := by
  induction h with
  | nil =>
      intro budget _
      rfl
  | cons hab htl ih =>
      rename_i r p rs ps
      intro budget hsum
      simp only [List.map_cons, List.sum_cons] at hsum ⊢
      have hlen : (grp r).length ≤ budget := by omega
      simp only [extendDefaults, hfresh r p hab]
      rw [show (min (((grp r).length : Int)).toNat budget) = (grp r).length
        from by omega]
      rw [ih (budget - (grp r).length) (by omega)]
      rfl

theorem writeBackLists_round (idx : Nat) :
    ∀ (ps : List Value) (pieces : List (List Value)),
      ps.length = pieces.length →
      writeBackLists idx ps pieces =
        List.zipWith (fun p piece => setFieldVal p idx (.rep piece)) ps
          pieces := by
  intro ps
  induction ps with
  | nil =>
      intro pieces h
      cases pieces with
      | nil => rfl
      | cons a b => simp at h
  | cons p ps ih =>
      intro pieces h
      cases pieces with
      | nil => simp at h
      | cons piece rest =>
          rw [writeBackLists, ih rest (by simpa using h)]
          rfl

/-! ## Map-column loop characterizations -/

theorem reserveMany_exact {vt : FieldType} {idx pos : Nat}
    (kt : Scalar → AType) :
    ∀ (ks : List Scalar) (pf : List FieldVal) (acc : List (Scalar × Value))
      (rest : List (AType × Option Scalar)),
    idx < pf.length →
    pf.getD idx junkField = .mapF acc →
    ks.Nodup → (∀ k ∈ ks, k ∉ acc.map Prod.fst) →
    reserveMany vt idx pos (.msgV pf) ks.length
        ((ks.map fun k => (kt k, some k)) ++ rest) =
      .ok (.msgV (pf.set idx
          (.mapF (acc ++ ks.map fun k => (k, defaultValueOf vt)))),
        ks.map fun k => (pos, k), rest) := by
  intro ks
  induction ks with
  | nil =>
      intro pf acc rest hidx hget _ _
      simp only [List.map_nil, List.nil_append, List.length_nil,
        List.append_nil]
      rw [reserveMany, ← hget, listSet_getD_self pf idx junkField hidx]
  | cons k ks ih =>
      intro pf acc rest hidx hget hnd hnotin
      rw [List.map_cons, List.cons_append, List.length_cons, reserveMany]
      simp only []
      have hres : assocReserve (getFieldVal (.msgV pf) idx).entriesOf k
          (defaultValueOf vt) =
          (acc ++ [(k, defaultValueOf vt)], defaultValueOf vt) := by
        have : getFieldVal (.msgV pf) idx = .mapF acc := hget
        rw [this]
        exact assocReserve_notin acc k (defaultValueOf vt)
          (hnotin k (by simp))
      rw [hres]
      have hset : setFieldVal (.msgV pf) idx
          (.mapF (acc ++ [(k, defaultValueOf vt)])) =
          .msgV (pf.set idx (.mapF (acc ++ [(k, defaultValueOf vt)]))) := rfl
      rw [hset]
      rw [ih (pf.set idx (.mapF (acc ++ [(k, defaultValueOf vt)])))
        (acc ++ [(k, defaultValueOf vt)]) rest
        (by simpa using hidx)
        (listGetD_set_self pf idx _ junkField hidx)
        (List.Nodup.of_cons hnd)
        (by
          intro k' hk' hmem
          rw [List.map_append] at hmem
          rcases List.mem_append.mp hmem with hm | hm
          · exact hnotin k' (by simp [hk']) hm
          · simp only [List.map_cons, List.map_nil, List.mem_singleton] at hm
            rcases List.nodup_cons.mp hnd with ⟨hknot, -⟩
            exact hknot (hm ▸ hk'))]
      simp only [exceptBind_ok, List.set_set, List.append_assoc,
        List.singleton_append]
      rfl

theorem reserveLoop_round {vt : FieldType} {idx : Nat} (kt : Scalar → AType)
    {R : Value → Value → Prop} (grp : Value → List Scalar)
    (hR : ∀ r p, R r p → (∃ pf, p = .msgV pf ∧ idx < pf.length ∧
      pf.getD idx junkField = .mapF []) ∧ (grp r).Nodup)
    {records parents : List Value} (h : List.Forall₂ R records parents) :
    ∀ pos,
    reserveLoop vt idx parents (records.map fun r => ((grp r).length : Int))
        ((records.map fun r => (grp r).map fun k => (kt k, some k)).flatten)
        pos =
      .ok (List.zipWith (fun r p => setFieldVal p idx
            (.mapF ((grp r).map fun k => (k, defaultValueOf vt)))) records
          parents,
        mapHandles pos (records.map grp)) := by
  induction h with
  | nil =>
      intro pos
      rfl
  | cons hab htl ih =>
      rename_i r p rs ps
      intro pos
      obtain ⟨⟨pf, rfl, hidx, hget⟩, hnd⟩ := hR r _ hab
      simp only [List.map_cons, List.flatten_cons, reserveLoop]
      rw [show (((grp r).length : Int)).toNat = (grp r).length from by omega]
      rw [reserveMany_exact kt (grp r) pf [] _ hidx hget hnd (by simp)]
      simp only [List.nil_append, exceptBind_ok]
      rw [ih (pos + 1)]
      rfl

theorem handles_vals (idx : Nat) (d : Value) :
    ∀ (groups : List (List Scalar)) (done : List Value) (rem : List Value),
    List.Forall₂ (fun (g : List Scalar) p => ∃ pf, p = .msgV pf ∧
      idx < pf.length ∧
      pf.getD idx junkField = .mapF (g.map fun k => (k, d))) groups rem →
    ((mapHandles done.length groups).flatten).map (fun h =>
        (assocFind (getFieldVal ((done ++ rem).getD h.1 (.msgV []))
          idx).entriesOf h.2).getD d) =
      List.replicate ((groups.map List.length).sum) d := by
  intro groups
  induction groups with
  | nil =>
      intro done rem _
      rfl
  | cons g gs ih =>
      intro done rem h
      cases h with
      | cons hgp htl =>
          rename_i p ps
          obtain ⟨pf, rfl, hidx, hget⟩ := hgp
          simp only [mapHandles, List.flatten_cons, List.map_append,
            List.map_map, List.map_cons, List.sum_cons]
          have h1 : (g.map ((fun h =>
              (assocFind (getFieldVal ((done ++ .msgV pf :: ps).getD h.1
                (.msgV [])) idx).entriesOf h.2).getD d) ∘ fun k =>
                (done.length, k))) = List.replicate g.length d := by
            rw [List.map_congr_left]
            · exact List.map_const' g d
            · intro k hk
              simp only [Function.comp_apply]
              rw [listGetD_append_cons done (Value.msgV pf) ps (.msgV [])]
              have : getFieldVal (.msgV pf) idx =
                  .mapF (g.map fun k => (k, d)) := hget
              rw [this]
              have : FieldVal.entriesOf (.mapF (g.map fun k => (k, d))) =
                  g.map fun k => (k, d) := rfl
              rw [this, assocFind_map_default g k d hk]
              rfl
          rw [h1]
          have h2 := ih (done ++ [Value.msgV pf]) ps htl
          rw [List.length_append, List.length_cons, List.length_nil] at h2
          rw [show done ++ [Value.msgV pf] ++ ps = done ++ Value.msgV pf :: ps
            from by simp] at h2
          rw [h2, ← List.replicate_add]

theorem writeBackMap_group (idx : Nat) (d : Value) :
    ∀ (ks : List Scalar) (vs : List Value) (done : List (Scalar × Value))
      (pre : List Value) (pf : List FieldVal) (ps : List Value)
      (hs' : List (Nat × Scalar)) (vs' : List Value),
    idx < pf.length →
    pf.getD idx junkField = .mapF (done ++ ks.map fun k => (k, d)) →
    ks.Nodup → (∀ k ∈ ks, k ∉ done.map Prod.fst) →
    ks.length = vs.length →
    writeBackMap idx (pre ++ .msgV pf :: ps)
        ((ks.map fun k => (pre.length, k)) ++ hs') (vs ++ vs') =
      writeBackMap idx
        (pre ++ .msgV (pf.set idx (.mapF (done ++ ks.zip vs))) :: ps) hs'
        vs' := by
  intro ks
  induction ks with
  | nil =>
      intro vs done pre pf ps hs' vs' hidx hget _ _ hlen
      obtain rfl : vs = [] := by
        cases vs
        · rfl
        · simp at hlen
      simp only [List.map_nil, List.append_nil] at hget
      have hpf : pf.set idx
          (.mapF (done ++ List.zip ([] : List Scalar) ([] : List Value))) =
          pf := by
        have := listSet_getD_self pf idx junkField hidx
        rw [hget] at this
        simpa using this
      simp only [List.map_nil, List.nil_append, hpf]
  | cons k ks ih =>
      intro vs done pre pf ps hs' vs' hidx hget hnd hnotin hlen
      cases vs with
      | nil => simp at hlen
      | cons v vs =>
          rw [List.map_cons, List.cons_append, List.cons_append, writeBackMap]
          simp only []
          rw [listGetD_append_cons pre (Value.msgV pf) ps (.msgV [])]
          have hent : (getFieldVal (.msgV pf) idx).entriesOf =
              done ++ (k, d) :: (ks.map fun k => (k, d)) := by
            have : getFieldVal (.msgV pf) idx =
                .mapF (done ++ (k, d) :: (ks.map fun k => (k, d))) := by
              rw [show (getFieldVal (.msgV pf) idx) = pf.getD idx junkField
                from rfl, hget]
              rfl
            rw [this]
            rfl
          rw [hent, assocSet_append_cons done k d v _ (hnotin k (by simp))]
          rw [show setFieldVal (.msgV pf) idx
              (.mapF (done ++ (k, v) :: (ks.map fun k => (k, d)))) =
              .msgV (pf.set idx
                (.mapF (done ++ (k, v) :: (ks.map fun k => (k, d)))))
            from rfl]
          rw [listSet_append_cons]
          rw [ih vs (done ++ [(k, v)]) pre
            (pf.set idx (.mapF (done ++ (k, v) :: (ks.map fun k => (k, d)))))
            ps hs' vs'
            (by simpa using hidx)
            (by
              rw [listGetD_set_self _ _ _ _ hidx]
              simp)
            (List.Nodup.of_cons hnd)
            (by
              intro k' hk' hmem
              rw [List.map_append] at hmem
              rcases List.mem_append.mp hmem with hm | hm
              · exact hnotin k' (by simp [hk']) hm
              · simp only [List.map_cons, List.map_nil,
                  List.mem_singleton] at hm
                rcases List.nodup_cons.mp hnd with ⟨hknot, -⟩
                exact hknot (hm ▸ hk'))
            (by simpa using hlen)]
          rw [List.set_set]
          simp only [List.append_assoc, List.singleton_append, List.zip_cons_cons]

theorem writeBackMap_round (idx : Nat) (d : Value) :
    ∀ (kgs : List (List Scalar)) (vgs : List (List Value))
      (pre rem : List Value),
    List.Forall₂ (fun (gv : List Scalar × List Value) p => ∃ pf,
        p = .msgV pf ∧ idx < pf.length ∧
        pf.getD idx junkField = .mapF (gv.1.map fun k => (k, d)) ∧
        gv.1.Nodup ∧ gv.1.length = gv.2.length)
      (kgs.zip vgs) rem →
    kgs.length = vgs.length →
    writeBackMap idx (pre ++ rem) ((mapHandles pre.length kgs).flatten)
        vgs.flatten =
      pre ++ List.zipWith (fun (gv : List Scalar × List Value) p =>
          setFieldVal p idx (.mapF (gv.1.zip gv.2))) (kgs.zip vgs) rem := by
  intro kgs
  induction kgs with
  | nil =>
      intro vgs pre rem h _
      obtain rfl : rem = [] := by
        cases h
        rfl
      simp only [mapHandles, List.flatten_nil, List.zip_nil_left,
        List.zipWith_nil_left, List.append_nil]
      rw [writeBackMap]
  | cons kg kgs ih =>
      intro vgs pre rem h hlen
      cases vgs with
      | nil => simp at hlen
      | cons vg vgs =>
          rw [List.zip_cons_cons] at h
          cases h with
          | cons hgp htl =>
              rename_i p ps
              obtain ⟨pf, rfl, hidx, hget, hnd, hglen⟩ := hgp
              simp only [mapHandles, List.flatten_cons]
              rw [writeBackMap_group idx d kg vg [] pre pf ps _ _ hidx
                (by simpa using hget) hnd (by simp) hglen]
              have hstep := ih vgs
                (pre ++ [Value.msgV (pf.set idx (.mapF ([] ++ kg.zip vg)))])
                ps htl (by simpa using hlen)
              rw [List.length_append, List.length_cons, List.length_nil]
                at hstep
              rw [show pre ++ [Value.msgV (pf.set idx
                  (.mapF ([] ++ kg.zip vg)))] ++ ps =
                  pre ++ Value.msgV (pf.set idx
                    (.mapF ([] ++ kg.zip vg))) :: ps from by simp] at hstep
              rw [show pre.length + 1 = pre.length + 1 from rfl] at hstep
              rw [hstep]
              simp only [List.nil_append, List.append_assoc,
                List.singleton_append, List.zip_cons_cons,
                List.zipWith_cons_cons]
              rfl

theorem mapItemMany_exact {vt : FieldType}
    {conv : (AType × Option Scalar) → Except String (Option PyVal)} {idx : Nat}
    (kt : Scalar → AType) (vfun : Scalar × Value → AType × Option Scalar)
    (pv : Scalar × Value → PyVal) :
    ∀ (es : List (Scalar × Value)) (pf : List FieldVal)
      (acc : List (Scalar × Value)) (krest vrest : List (AType × Option Scalar)),
    idx < pf.length →
    pf.getD idx junkField = .mapF acc →
    (es.map Prod.fst).Nodup →
    (∀ e ∈ es, e.1 ∉ acc.map Prod.fst) →
    (∀ e ∈ es, (vfun e).2.isSome = true ∧ conv (vfun e) = .ok (some (pv e))) →
    (∀ e ∈ es, ∀ cur, e.1 ∉ cur.map Prod.fst →
      (if isMessageKind vt then mergeAssign vt else directAssign vt) cur e.1
        (some (pv e)) = .ok (cur ++ [e])) →
    mapItemMany vt conv idx (.msgV pf) es.length
        ((es.map fun e => (kt e.1, some e.1)) ++ krest)
        (es.map vfun ++ vrest) =
      .ok (.msgV (pf.set idx (.mapF (acc ++ es))), krest, vrest,
        es.length) := by
  intro es
  induction es with
  | nil =>
      intro pf acc krest vrest hidx hget _ _ _ _
      simp only [List.map_nil, List.nil_append, List.length_nil,
        List.append_nil]
      rw [mapItemMany, ← hget, listSet_getD_self pf idx junkField hidx]
  | cons e es ih =>
      intro pf acc krest vrest hidx hget hnd hnotin hconv hhandler
      rw [List.map_cons, List.map_cons, List.cons_append, List.cons_append,
        List.length_cons, mapItemMany]
      simp only []
      obtain ⟨hvsome, hvconv⟩ := hconv e (by simp)
      rw [hvsome]
      simp only [if_true, hvconv, exceptBind_ok]
      have hcur : getFieldVal (.msgV pf) idx = .mapF acc := hget
      rw [show (getFieldVal (.msgV pf) idx).entriesOf = acc from by
        rw [hcur]
        rfl]
      rw [hhandler e (by simp) acc (hnotin e (by simp))]
      simp only [exceptBind_ok]
      rw [show setFieldVal (.msgV pf) idx (.mapF (acc ++ [e])) =
          .msgV (pf.set idx (.mapF (acc ++ [e]))) from rfl]
      rw [ih (pf.set idx (.mapF (acc ++ [e]))) (acc ++ [e]) krest vrest
        (by simpa using hidx)
        (listGetD_set_self pf idx _ junkField hidx)
        (by
          rw [List.map_cons] at hnd
          exact List.Nodup.of_cons hnd)
        (by
          intro e' he' hmem
          rw [List.map_append] at hmem
          rcases List.mem_append.mp hmem with hm | hm
          · exact hnotin e' (by simp [he']) hm
          · simp only [List.map_cons, List.map_nil,
              List.mem_singleton] at hm
            rw [List.map_cons] at hnd
            rcases List.nodup_cons.mp hnd with ⟨hknot, -⟩
            exact hknot (hm ▸ List.mem_map_of_mem Prod.fst he'))
        (fun e' he' => hconv e' (by simp [he']))
        (fun e' he' => hhandler e' (by simp [he']))]
      simp only [exceptBind_ok, List.set_set, List.append_assoc,
        List.singleton_append]

theorem mapItemLoop_round {vt : FieldType}
    {conv : (AType × Option Scalar) → Except String (Option PyVal)} {idx : Nat}
    (kt : Scalar → AType) (vfun : Scalar × Value → AType × Option Scalar)
    (pv : Scalar × Value → PyVal) {R : Value → Value → Prop}
    (grp : Value → List (Scalar × Value))
    (hR : ∀ r p, R r p →
      (∃ pf, p = .msgV pf ∧ idx < pf.length ∧
        pf.getD idx junkField = .mapF []) ∧
      ((grp r).map Prod.fst).Nodup ∧
      (∀ e ∈ grp r, (vfun e).2.isSome = true ∧
        conv (vfun e) = .ok (some (pv e))) ∧
      (∀ e ∈ grp r, ∀ cur, e.1 ∉ cur.map Prod.fst →
        (if isMessageKind vt then mergeAssign vt else directAssign vt) cur e.1
          (some (pv e)) = .ok (cur ++ [e])))
    {records parents : List Value} (h : List.Forall₂ R records parents) :
    mapItemLoop vt conv idx parents
        (records.map fun r => ((grp r).length : Int))
        ((records.map fun r => (grp r).map fun e => (kt e.1, some e.1)).flatten)
        ((records.map fun r => (grp r).map vfun).flatten) =
      .ok (List.zipWith (fun r p => setFieldVal p idx (.mapF (grp r))) records
          parents,
        records.map fun r => !(grp r).isEmpty) := by
  induction h with
  | nil => rfl
  | cons hab htl ih =>
      rename_i r p rs ps
      obtain ⟨⟨pf, rfl, hidx, hget⟩, hnd, hconv, hhandler⟩ := hR r _ hab
      simp only [List.map_cons, List.flatten_cons, mapItemLoop]
      rw [show (((grp r).length : Int)).toNat = (grp r).length from by omega]
      rw [mapItemMany_exact kt vfun pv (grp r) pf [] _ _ hidx hget hnd
        (by simp) hconv hhandler]
      simp only [List.nil_append, exceptBind_ok, ih]
      simp only [decide_pos_length]
      rfl

/-! ## Conformance, defaults and freshness auxiliaries -/

theorem ConformsFL_length : ∀ (fs : FieldList) (vs : List FieldVal),
    ConformsFL fs vs → vs.length = lengthFL fs
  | .nil, vs => by
      intro h
      rw [ConformsFL.eq_def] at h
      have h' : vs = [] := h
      subst h'
      rfl
  | .cons n card t rest, vs => by
      intro h
      rw [ConformsFL.eq_def] at h
      cases vs with
      | nil => exact (h : False).elim
      | cons fv fvs =>
          have h' : ConformsField card t fv ∧ ConformsFL rest fvs := h
          obtain ⟨-, htl⟩ := h'
          rw [List.length_cons, lengthFL,
            ConformsFL_length rest fvs htl]
termination_by fs => sizeOf fs

theorem defaultFields_cons (n : String) (card : Card) (t : FieldType)
    (rest : FieldList) :
    defaultFields (.cons n card t rest) =
      defaultFieldVal card t :: defaultFields rest := by
  cases card <;> rfl

theorem defaultFields_length : ∀ (fs : FieldList),
    (defaultFields fs).length = lengthFL fs
  | .nil => rfl
  | .cons n card t rest => by
      rw [defaultFields_cons, List.length_cons, lengthFL,
        defaultFields_length rest]
termination_by fs => sizeOf fs

theorem freshFrom_default : ∀ (fs : FieldList) (pre : List FieldVal),
    FreshFrom fs pre.length (pre ++ defaultFields fs)
  | .nil, pre => by
      rw [FreshFrom]
      trivial
  | .cons n card t rest, pre => by
      rw [FreshFrom, defaultFields_cons]
      refine ⟨by simp, listGetD_append_cons pre _ _ junkField, ?_⟩
      have h := freshFrom_default rest (pre ++ [defaultFieldVal card t])
      rw [List.length_append, List.length_cons, List.length_nil] at h
      rw [show pre ++ [defaultFieldVal card t] ++ defaultFields rest =
          pre ++ defaultFieldVal card t :: defaultFields rest from by simp]
        at h
      exact h
termination_by fs _ => sizeOf fs

theorem freshFrom_set_lt : ∀ (fs : FieldList) (i : Nat) (pf : List FieldVal)
    (fv : FieldVal) (j : Nat), j < i → FreshFrom fs i pf →
    FreshFrom fs i (pf.set j fv)
  | .nil, i, pf, fv, j => by
      intro _ _
      rw [FreshFrom]
      trivial
  | .cons n card t rest, i, pf, fv, j => by
      intro hj h
      rw [FreshFrom] at h ⊢
      obtain ⟨h1, h2, h3⟩ := h
      refine ⟨by simpa using h1, ?_, ?_⟩
      · rw [listGetD_set_ne pf j i fv junkField (by omega)]
        exact h2
      · exact freshFrom_set_lt rest (i + 1) pf fv j (by omega) h3
termination_by fs _ _ _ _ => sizeOf fs

theorem writeSuffixV_splice : ∀ (fs : FieldList) (idx : Nat)
    (vs pf : List FieldVal),
    pf.length = vs.length → idx + lengthFL fs = vs.length →
    (∀ j, j < idx → pf.getD j junkField = vs.getD j junkField) →
    writeSuffixV fs idx (.msgV vs) (.msgV pf) = .msgV vs
  | .nil, idx, vs, pf => by
      intro hlen hidx hagree
      rw [writeSuffixV]
      congr 1
      apply List.ext_getElem hlen
      intro i h1 h2
      have hi : i < idx := by
        rw [lengthFL] at hidx
        omega
      have := hagree i hi
      rw [List.getD_eq_getElem pf junkField h1,
        List.getD_eq_getElem vs junkField h2] at this
      exact this
  | .cons n card t rest, idx, vs, pf => by
      intro hlen hidx hagree
      rw [writeSuffixV]
      rw [show setFieldVal (.msgV pf) idx (getFieldVal (.msgV vs) idx) =
          .msgV (pf.set idx (vs.getD idx junkField)) from rfl]
      have hidxlt : idx < vs.length := by
        rw [lengthFL] at hidx
        omega
      refine writeSuffixV_splice rest (idx + 1) vs _ (by simpa using hlen)
        (by
          rw [lengthFL] at hidx
          omega) ?_
      intro j hj
      by_cases hji : j = idx
      · subst hji
        rw [listGetD_set_self pf j _ junkField (by omega)]
      · rw [listGetD_set_ne pf idx j _ junkField (by omega)]
        exact hagree j (by omega)
termination_by fs _ _ _ => sizeOf fs

theorem conformsFrom_of_FL : ∀ (fs : FieldList) (idx : Nat)
    (vs : List FieldVal), idx ≤ vs.length → ConformsFL fs (vs.drop idx) →
    ConformsFrom fs idx (.msgV vs)
  | .nil, idx, vs => by
      intro _ _
      rw [ConformsFrom]
      trivial
  | .cons n card t rest, idx, vs => by
      intro hle h
      rw [ConformsFL.eq_def] at h
      rcases hd : vs.drop idx with _ | ⟨fv, fvs⟩
      · rw [hd] at h
        exact (h : False).elim
      · rw [hd] at h
        have h' : ConformsField card t fv ∧ ConformsFL rest fvs := h
        obtain ⟨hfv, htl⟩ := h'
        have hlt : idx < vs.length := by
          by_contra hge
          rw [List.drop_eq_nil_of_le (by omega)] at hd
          exact List.noConfusion hd
        rw [List.drop_eq_getElem_cons hlt] at hd
        injection hd with he ht
        rw [ConformsFrom]
        constructor
        · rw [show getFieldVal (.msgV vs) idx = vs.getD idx junkField from rfl,
            List.getD_eq_getElem vs junkField hlt, he]
          exact hfv
        · exact conformsFrom_of_FL rest (idx + 1) vs (by omega)
            (by
              rw [ht]
              exact htl)
termination_by fs _ _ => sizeOf fs

theorem scalarMatches_primDefault (p : PrimKind) :
    scalarMatches p (primDefault p) = true := by
  cases p <;> rfl

theorem conformsField_default (card : Card) (t : FieldType)
    (hT : SchemaWfT t) :
    ConformsField card t (defaultFieldVal card t) := by
  cases card with
  | repeatedC =>
      rw [defaultFieldVal, ConformsField]
      intro v hv
      simp at hv
  | mapC k =>
      rw [defaultFieldVal, ConformsField.eq_def]
      exact ⟨by simp, List.nodup_nil⟩
  | singular =>
      rw [defaultFieldVal]
      cases t with
      | prim p =>
          rw [ConformsField]
          refine ⟨rfl, ?_⟩
          rw [show defaultValueOf (.prim p) = .primV (primDefault p) from by
            rw [defaultValueOf]]
          rw [Conforms]
          exact scalarMatches_primDefault p
      | enumT vals =>
          rw [ConformsField]
          refine ⟨rfl, ?_⟩
          rw [show defaultValueOf (.enumT vals) = .enumV 0 from by
            rw [defaultValueOf]]
          rw [Conforms]
          rw [SchemaWfT] at hT
          exact hT.2.2
      | tsT =>
          rw [ConformsField]
          rw [show defaultPresent .tsT = false from rfl]
          simp
      | dateT =>
          rw [ConformsField]
          rw [show defaultPresent .dateT = false from rfl]
          simp
      | todT =>
          rw [ConformsField]
          rw [show defaultPresent .todT = false from rfl]
          simp
      | wrapT p =>
          rw [ConformsField]
          rw [show defaultPresent (.wrapT p) = false from rfl]
          simp
      | msgT fs =>
          rw [ConformsField]
          rw [show defaultPresent (.msgT fs) = false from rfl]
          simp

theorem conformsFL_default : ∀ (fs : FieldList), SchemaWfFL fs →
    ConformsFL fs (defaultFields fs)
  | .nil, _ => by
      rw [ConformsFL]
      rw [defaultFields]
  | .cons n card t rest, h => by
      rw [SchemaWfFL] at h
      rw [defaultFields_cons, ConformsFL.eq_def]
      exact ⟨conformsField_default card t h.1,
        conformsFL_default rest h.2.2⟩
termination_by fs => sizeOf fs

mutual
theorem schemaWf_msgNonempty : ∀ (t : FieldType), SchemaWfT t →
    msgNonempty t = true
  | .prim _, _ => rfl
  | .enumT _, _ => rfl
  | .tsT, _ => rfl
  | .dateT, _ => rfl
  | .todT, _ => rfl
  | .wrapT _, _ => rfl
  | .msgT fs, h => by
      rw [SchemaWfT] at h
      obtain ⟨hne, -, hwf⟩ := h
      cases fs with
      | nil => exact absurd rfl hne
      | cons n card t rest =>
          rw [SchemaWfFL] at hwf
          rw [msgNonempty, Bool.and_eq_true]
          exact ⟨schemaWf_msgNonempty t hwf.1,
            schemaWf_msgNonemptyFL rest hwf.2.2⟩

theorem schemaWf_msgNonemptyFL : ∀ (fs : FieldList), SchemaWfFL fs →
    msgNonemptyFL fs = true
  | .nil, _ => rfl
  | .cons n card t rest, h => by
      rw [SchemaWfFL] at h
      rw [msgNonemptyFL, Bool.and_eq_true]
      exact ⟨schemaWf_msgNonempty t h.1,
        schemaWf_msgNonemptyFL rest h.2.2⟩
end

theorem namesFL_fieldsOf : ∀ (fs : FieldList),
    namesFL fs = (fieldsOfFL fs).map (fun f => f.1)
  | .nil => rfl
  | .cons n card t rest => by
      rw [namesFL, fieldsOfFL, List.map_cons, namesFL_fieldsOf rest]
termination_by fs => sizeOf fs

theorem messageFieldsToArrays_len : ∀ (fs : FieldList) (records : List Value)
    (cfg : ProtarrowConfig) (idx : Nat)
    (flds : List (String × Bool × AType)) (arrays : List AArray),
    messageFieldsToArrays fs records cfg idx = .ok (flds, arrays) →
    flds.length = arrays.length := by
  intro fs
  match fs with
  | .nil =>
      intro records cfg idx flds arrays h
      rw [messageFieldsToArrays] at h
      simp only [Except.ok.injEq, Prod.mk.injEq] at h
      obtain ⟨h1, h2⟩ := h
      subst h1 h2
      rfl
  | .cons name card t rest =>
      intro records cfg idx flds arrays h
      rw [messageFieldsToArrays.eq_def] at h
      have main : ∀ (x : Except String AArray),
          (do
            let array ← x
            let r ← messageFieldsToArrays rest records cfg (idx + 1)
            match r with
            | (fields, arrays) =>
                Except.ok ((name, protoFieldNullable t card true,
                  atypeOf array) :: fields, array :: arrays)) =
            .ok (flds, arrays) →
          flds.length = arrays.length := by
        intro x hx
        rw [exceptBind_eq_ok] at hx
        obtain ⟨array, -, hx⟩ := hx
        rw [exceptBind_eq_ok] at hx
        obtain ⟨⟨fields', arrays'⟩, hR, hx⟩ := hx
        simp only [Except.ok.injEq, Prod.mk.injEq] at hx
        obtain ⟨h1, h2⟩ := hx
        subst h1 h2
        simp only [List.length_cons]
        rw [messageFieldsToArrays_len rest records cfg (idx + 1) fields'
          arrays' hR]
      cases card
      · exact main _ h
      · exact main _ h
      · exact main _ h
termination_by fs => sizeOf fs

theorem getFieldIndex_append_cons (preF : List (String × Bool × AType))
    (f : String × Bool × AType) (sufF : List (String × Bool × AType))
    (h : f.1 ∉ preF.map (fun x => x.1)) :
    getFieldIndex (preF ++ f :: sufF) f.1 = some preF.length := by
  induction preF with
  | nil => simp [getFieldIndex]
  | cons e preF ih =>
      have hne : ¬ (e.1 == f.1) = true := by
        intro he
        have heq : e.1 = f.1 := by simpa using he
        exact h (by simp [heq.symm])
      rw [List.cons_append, getFieldIndex, List.findIdx?_cons, if_neg hne]
      rw [List.findIdx?_succ]
      have hix := ih (fun hm => h (by simp [hm]))
      rw [getFieldIndex] at hix
      rw [hix]
      rfl

theorem colsAlign_build : ∀ (fs : FieldList)
    (preF sufF : List (String × Bool × AType)) (preC : List AArray)
    (arrays : List AArray),
    List.Forall₂
      (fun (fd : String × Card × FieldType) (cf : String × Bool × AType) =>
        cf.1 = fd.1) (fieldsOfFL fs) sufF →
    (((preF ++ sufF).map fun f => f.1)).Nodup →
    preF.length = preC.length →
    sufF.length = arrays.length →
    ColsAlign (preF ++ sufF) (preC ++ arrays) fs arrays
  | .nil, preF, sufF, preC, arrays => by
      intro hnames _ _ hlen
      rw [fieldsOfFL] at hnames
      cases hnames
      cases arrays with
      | nil =>
          rw [ColsAlign]
      | cons a arrays => simp at hlen
  | .cons name card t rest, preF, sufF, preC, arrays => by
      intro hnames hnodup hplen hslen
      rw [fieldsOfFL] at hnames
      cases hnames with
      | cons hhead htl =>
          rename_i cf sufF'
          cases arrays with
          | nil => simp at hslen
          | cons a arrays' =>
              rw [ColsAlign.eq_def]
              simp only []
              constructor
              · refine ⟨preF.length, ?_, ?_⟩
                · have hni : cf.1 ∉ preF.map (fun x => x.1) := by
                    rw [List.map_append] at hnodup
                    intro hm
                    rcases (List.nodup_append.mp hnodup) with ⟨-, -, hdis⟩
                    exact hdis hm (by simp)
                  have := getFieldIndex_append_cons preF cf sufF' hni
                  rw [hhead] at this
                  exact this
                · rw [hplen]
                  exact listGetD_append_cons preC a arrays' _
              · have := colsAlign_build rest (preF ++ [cf]) sufF'
                  (preC ++ [a]) arrays' htl
                  (by
                    rw [show preF ++ [cf] ++ sufF' = preF ++ cf :: sufF'
                      from by simp]
                    exact hnodup)
                  (by simp [hplen])
                  (by simpa using hslen)
                rw [show preF ++ [cf] ++ sufF' = preF ++ cf :: sufF'
                  from by simp] at this
                rw [show preC ++ [a] ++ arrays' = preC ++ a :: arrays'
                  from by simp] at this
                exact this
termination_by fs _ _ _ _ => sizeOf fs

theorem offsetDiffs_getOffsetsAux {α : Type} :
    ∀ (gs : List (List α)) (cur nxt : Int),
    offsetDiffs cur (getOffsetsAux (gs.map some) nxt) =
      .ok ((nxt - cur) :: gs.map fun g => (g.length : Int)) := by
  intro gs
  induction gs with
  | nil =>
      intro cur nxt
      rfl
  | cons g gs ih =>
      intro cur nxt
      rw [List.map_cons, getOffsetsAux, offsetDiffs]
      rw [ih nxt (nxt + g.length)]
      simp only [exceptBind_ok, List.map_cons]
      rw [show (nxt + (g.length : Int) - nxt) = (g.length : Int) from by omega]

theorem offsetToSize_getOffsets {α : Type} (groups : List (List α)) :
    offsetToSize (getOffsets (groups.map some)) =
      .ok (groups.map fun g => (g.length : Int)) := by
  cases groups with
  | nil => rfl
  | cons g gs =>
      rw [getOffsets, List.map_cons, getOffsetsAux, offsetToSize]
      rw [offsetDiffs_getOffsetsAux gs 0 (0 + (g.length : Int))]
      simp only [List.map_cons]
      rw [show ((0 : Int) + (g.length : Int) - 0) = (g.length : Int) from by
        omega]

/-! ## Inversion lemmas for conformance -/

theorem conforms_prim {p : PrimKind} {v : Value} (h : Conforms (.prim p) v) :
    ∃ s, v = .primV s ∧ scalarMatches p s = true := by
  rw [Conforms.eq_def] at h
  cases v with
  | primV s => exact ⟨s, rfl, h⟩
  | enumV n => exact (h : False).elim
  | tsV a b => exact (h : False).elim
  | dateV a b c => exact (h : False).elim
  | todV a b c d => exact (h : False).elim
  | wrapV s => exact (h : False).elim
  | msgV vs => exact (h : False).elim

theorem conforms_enum {vals : List (Int × String)} {v : Value}
    (h : Conforms (.enumT vals) v) :
    ∃ n, v = .enumV n ∧ (lookupNumber vals n).isSome = true := by
  rw [Conforms.eq_def] at h
  cases v with
  | enumV n => exact ⟨n, rfl, h⟩
  | primV s => exact (h : False).elim
  | tsV a b => exact (h : False).elim
  | dateV a b c => exact (h : False).elim
  | todV a b c d => exact (h : False).elim
  | wrapV s => exact (h : False).elim
  | msgV vs => exact (h : False).elim

theorem conforms_ts {v : Value} (h : Conforms .tsT v) :
    ∃ sec ns, v = .tsV sec ns ∧ 0 ≤ ns ∧ ns < 1000000000 := by
  rw [Conforms.eq_def] at h
  cases v with
  | tsV sec ns => exact ⟨sec, ns, rfl, (h : _ ∧ _).1, (h : _ ∧ _).2⟩
  | primV s => exact (h : False).elim
  | enumV n => exact (h : False).elim
  | dateV a b c => exact (h : False).elim
  | todV a b c d => exact (h : False).elim
  | wrapV s => exact (h : False).elim
  | msgV vs => exact (h : False).elim

theorem conforms_date {v : Value} (h : Conforms .dateT v) :
    ∃ y m d, v = .dateV y m d ∧ 1 ≤ y ∧ y ≤ 9999 ∧ 1 ≤ m ∧ m ≤ 12 ∧
      1 ≤ d ∧ d ≤ 31 := by
  rw [Conforms.eq_def] at h
  cases v with
  | dateV y m d => exact ⟨y, m, d, rfl, h⟩
  | primV s => exact (h : False).elim
  | enumV n => exact (h : False).elim
  | tsV a b => exact (h : False).elim
  | todV a b c d => exact (h : False).elim
  | wrapV s => exact (h : False).elim
  | msgV vs => exact (h : False).elim

theorem conforms_tod {v : Value} (h : Conforms .todT v) :
    ∃ hh mi s n, v = .todV hh mi s n ∧ 0 ≤ hh ∧ hh < 24 ∧ 0 ≤ mi ∧ mi < 60 ∧
      0 ≤ s ∧ s < 60 ∧ 0 ≤ n ∧ n < 1000000000 := by
  rw [Conforms.eq_def] at h
  cases v with
  | todV hh mi s n => exact ⟨hh, mi, s, n, rfl, h⟩
  | primV s => exact (h : False).elim
  | enumV n => exact (h : False).elim
  | tsV a b => exact (h : False).elim
  | dateV a b c => exact (h : False).elim
  | wrapV s => exact (h : False).elim
  | msgV vs => exact (h : False).elim

theorem conforms_wrap {p : PrimKind} {v : Value} (h : Conforms (.wrapT p) v) :
    ∃ s, v = .wrapV s ∧ scalarMatches p s = true := by
  rw [Conforms.eq_def] at h
  cases v with
  | wrapV s => exact ⟨s, rfl, h⟩
  | primV s => exact (h : False).elim
  | enumV n => exact (h : False).elim
  | tsV a b => exact (h : False).elim
  | dateV a b c => exact (h : False).elim
  | todV a b c d => exact (h : False).elim
  | msgV vs => exact (h : False).elim

theorem conforms_msg {fs : FieldList} {v : Value} (h : Conforms (.msgT fs) v) :
    ∃ vs, v = .msgV vs ∧ ConformsFL fs vs := by
  rw [Conforms.eq_def] at h
  cases v with
  | msgV vs => exact ⟨vs, rfl, h⟩
  | primV s => exact (h : False).elim
  | enumV n => exact (h : False).elim
  | tsV a b => exact (h : False).elim
  | dateV a b c => exact (h : False).elim
  | todV a b c d => exact (h : False).elim
  | wrapV s => exact (h : False).elim

theorem confField_singular {t : FieldType} {fv : FieldVal}
    (h : ConformsField .singular t fv) : ∃ pres v, fv = .single pres v := by
  rw [ConformsField.eq_def] at h
  cases fv with
  | single pres v => exact ⟨pres, v, rfl⟩
  | rep vs =>
      cases t with
      | prim p => exact (h : False).elim
      | enumT vals => exact (h : False).elim
      | tsT => exact (h : False).elim
      | dateT => exact (h : False).elim
      | todT => exact (h : False).elim
      | wrapT p => exact (h : False).elim
      | msgT fs => exact (h : False).elim
  | mapF es =>
      cases t with
      | prim p => exact (h : False).elim
      | enumT vals => exact (h : False).elim
      | tsT => exact (h : False).elim
      | dateT => exact (h : False).elim
      | todT => exact (h : False).elim
      | wrapT p => exact (h : False).elim
      | msgT fs => exact (h : False).elim

theorem confField_prim {p : PrimKind} {pres : Bool} {v : Value}
    (h : ConformsField .singular (.prim p) (.single pres v)) :
    pres = true ∧ ∃ s, v = .primV s ∧ scalarMatches p s = true := by
  rw [ConformsField.eq_def] at h
  have h' : pres = true ∧ Conforms (.prim p) v := h
  exact ⟨h'.1, conforms_prim h'.2⟩

theorem confField_enum {vals : List (Int × String)} {pres : Bool} {v : Value}
    (h : ConformsField .singular (.enumT vals) (.single pres v)) :
    pres = true ∧ ∃ n, v = .enumV n ∧ (lookupNumber vals n).isSome = true := by
  rw [ConformsField.eq_def] at h
  have h' : pres = true ∧ Conforms (.enumT vals) v := h
  exact ⟨h'.1, conforms_enum h'.2⟩

theorem confField_ts {pres : Bool} {v : Value}
    (h : ConformsField .singular .tsT (.single pres v)) :
    (pres = true → ∃ sec ns, v = .tsV sec ns ∧ 0 ≤ ns ∧ ns < 1000000000) ∧
    (pres = false → v = .tsV 0 0) := by
  rw [ConformsField.eq_def] at h
  have h' : if pres = true then Conforms .tsT v
    else v = defaultValueOf .tsT := h
  cases pres with
  | true =>
      simp only [if_true] at h'
      exact ⟨fun _ => conforms_ts h', fun hc => Bool.noConfusion hc⟩
  | false =>
      simp only [Bool.false_eq_true, if_false] at h'
      rw [show defaultValueOf .tsT = .tsV 0 0 from by rw [defaultValueOf]]
        at h'
      exact ⟨fun hc => Bool.noConfusion hc, fun _ => h'⟩

theorem confField_date {pres : Bool} {v : Value}
    (h : ConformsField .singular .dateT (.single pres v)) :
    (pres = true → ∃ y m d, v = .dateV y m d ∧ 1 ≤ y ∧ y ≤ 9999 ∧ 1 ≤ m ∧
      m ≤ 12 ∧ 1 ≤ d ∧ d ≤ 31) ∧
    (pres = false → v = .dateV 0 0 0) := by
  rw [ConformsField.eq_def] at h
  have h' : if pres = true then Conforms .dateT v
    else v = defaultValueOf .dateT := h
  cases pres with
  | true =>
      simp only [if_true] at h'
      exact ⟨fun _ => conforms_date h', fun hc => Bool.noConfusion hc⟩
  | false =>
      simp only [Bool.false_eq_true, if_false] at h'
      rw [show defaultValueOf .dateT = .dateV 0 0 0 from by rw [defaultValueOf]]
        at h'
      exact ⟨fun hc => Bool.noConfusion hc, fun _ => h'⟩

theorem confField_tod {pres : Bool} {v : Value}
    (h : ConformsField .singular .todT (.single pres v)) :
    (pres = true → ∃ hh mi s n, v = .todV hh mi s n ∧ 0 ≤ hh ∧ hh < 24 ∧
      0 ≤ mi ∧ mi < 60 ∧ 0 ≤ s ∧ s < 60 ∧ 0 ≤ n ∧ n < 1000000000) ∧
    (pres = false → v = .todV 0 0 0 0) := by
  rw [ConformsField.eq_def] at h
  have h' : if pres = true then Conforms .todT v
    else v = defaultValueOf .todT := h
  cases pres with
  | true =>
      simp only [if_true] at h'
      exact ⟨fun _ => conforms_tod h', fun hc => Bool.noConfusion hc⟩
  | false =>
      simp only [Bool.false_eq_true, if_false] at h'
      rw [show defaultValueOf .todT = .todV 0 0 0 0 from by rw [defaultValueOf]]
        at h'
      exact ⟨fun hc => Bool.noConfusion hc, fun _ => h'⟩

theorem confField_wrap {p : PrimKind} {pres : Bool} {v : Value}
    (h : ConformsField .singular (.wrapT p) (.single pres v)) :
    (pres = true → ∃ s, v = .wrapV s) ∧
    (pres = false → v = .wrapV (primDefault p)) := by
  rw [ConformsField.eq_def] at h
  have h' : if pres = true then Conforms (.wrapT p) v
    else v = defaultValueOf (.wrapT p) := h
  cases pres with
  | true =>
      simp only [if_true] at h'
      obtain ⟨s, rfl, -⟩ := conforms_wrap h'
      exact ⟨fun _ => ⟨s, rfl⟩, fun hc => Bool.noConfusion hc⟩
  | false =>
      simp only [Bool.false_eq_true, if_false] at h'
      rw [show defaultValueOf (.wrapT p) = .wrapV (primDefault p) from by
        rw [defaultValueOf]] at h'
      exact ⟨fun hc => Bool.noConfusion hc, fun _ => h'⟩

theorem confField_msg {fs : FieldList} {pres : Bool} {v : Value}
    (h : ConformsField .singular (.msgT fs) (.single pres v)) :
    (pres = true → ∃ vs, v = .msgV vs ∧ ConformsFL fs vs ∧
      writesBack (.msgT fs) v = true) ∧
    (pres = false → v = .msgV (defaultFields fs)) := by
  rw [ConformsField.eq_def] at h
  have h' : if pres = true then Conforms (.msgT fs) v ∧
      writesBack (.msgT fs) v = true
    else v = defaultValueOf (.msgT fs) := h
  cases pres with
  | true =>
      simp only [if_true] at h'
      obtain ⟨hc, hw⟩ := h'
      obtain ⟨vs, rfl, hfl⟩ := conforms_msg hc
      exact ⟨fun _ => ⟨vs, rfl, hfl, hw⟩, fun hc => Bool.noConfusion hc⟩
  | false =>
      simp only [Bool.false_eq_true, if_false] at h'
      rw [show defaultValueOf (.msgT fs) = .msgV (defaultFields fs) from by
        rw [defaultValueOf]] at h'
      exact ⟨fun hc => Bool.noConfusion hc, fun _ => h'⟩

theorem confField_rep {t : FieldType} {fv : FieldVal}
    (h : ConformsField .repeatedC t fv) :
    ∃ vs, fv = .rep vs ∧ ∀ v ∈ vs, Conforms t v := by
  rw [ConformsField.eq_def] at h
  cases fv with
  | rep vs => exact ⟨vs, rfl, h⟩
  | single pres v =>
      cases t with
      | prim p => exact (h : False).elim
      | enumT vals => exact (h : False).elim
      | tsT => exact (h : False).elim
      | dateT => exact (h : False).elim
      | todT => exact (h : False).elim
      | wrapT p => exact (h : False).elim
      | msgT fs => exact (h : False).elim
  | mapF es =>
      cases t with
      | prim p => exact (h : False).elim
      | enumT vals => exact (h : False).elim
      | tsT => exact (h : False).elim
      | dateT => exact (h : False).elim
      | todT => exact (h : False).elim
      | wrapT p => exact (h : False).elim
      | msgT fs => exact (h : False).elim

theorem confField_map {k : PrimKind} {t : FieldType} {fv : FieldVal}
    (h : ConformsField (.mapC k) t fv) :
    ∃ es, fv = .mapF es ∧
      (∀ e ∈ es, scalarMatches k e.1 = true ∧ Conforms t e.2) ∧
      (es.map Prod.fst).Nodup := by
  rw [ConformsField.eq_def] at h
  cases fv with
  | mapF es => exact ⟨es, rfl, h⟩
  | single pres v =>
      cases t with
      | prim p => exact (h : False).elim
      | enumT vals => exact (h : False).elim
      | tsT => exact (h : False).elim
      | dateT => exact (h : False).elim
      | todT => exact (h : False).elim
      | wrapT p => exact (h : False).elim
      | msgT fs => exact (h : False).elim
  | rep vs =>
      cases t with
      | prim p => exact (h : False).elim
      | enumT vals => exact (h : False).elim
      | tsT => exact (h : False).elim
      | dateT => exact (h : False).elim
      | todT => exact (h : False).elim
      | wrapT p => exact (h : False).elim
      | msgT fs => exact (h : False).elim

/-! ## Per-field round-trip lemmas -/

/-- The decode-time state of a parent whose slot `idx` has not been written
yet. -/
def FreshPar (card : Card) (t : FieldType) (idx : Nat) (q : Value) : Prop :=
  ∃ pf, q = .msgV pf ∧ idx < pf.length ∧
    pf.getD idx junkField = defaultFieldVal card t

theorem roundField_prim (p : PrimKind) (idx : Nat) (cfg : ProtarrowConfig)
    (records : List Value) (col : AArray) (parents : List Value)
    (hconf : ∀ r ∈ records,
      ConformsField .singular (.prim p) (getFieldVal r idx))
    (henc : protoFieldToArray
      (records.map fun r => (getFieldVal r idx).valueOf) (.prim p)
      (protoFieldValidityMask records idx (.prim p) .singular) cfg = .ok col)
    (hpar : List.Forall₂ (fun _r q => FreshPar .singular (.prim p) idx q)
      records parents) :
    extractField col .singular (.prim p) idx parents =
      .ok (List.zipWith (fun r q => setFieldVal q idx (getFieldVal r idx))
          records parents,
        records.map fun r =>
          writesField .singular (.prim p) (getFieldVal r idx)) := by
  rw [show protoFieldValidityMask records idx (.prim p) .singular = none
    from rfl] at henc
  rw [protoFieldToArray] at henc
  rw [maskedElems_none (f := primPayload) (fun r _ => rfl)] at henc
  simp only [exceptBind_ok, Except.ok.injEq] at henc
  subst henc
  rw [extractField]
  simp only [List.map_map, prepareArray_primPa, exceptBind_ok]
  rw [show getConverter (.prim p) = .ok convertScalar from rfl]
  simp only [exceptBind_ok, elements, List.map_map]
  rw [plainLoop_round
    ((fun sv => (primPa p, sv)) ∘ primPayload ∘
      (fun r => (getFieldVal r idx).valueOf))
    (fun r q => setFieldVal q idx (getFieldVal r idx))
    (fun r => writesField .singular (.prim p) (getFieldVal r idx))
    ?_ (forall2_with_mem hpar hconf)]
  intro r q hR
  obtain ⟨hc, pf, rfl, hidx, hget⟩ := hR
  obtain ⟨pres, v, hfv⟩ := confField_singular hc
  rw [hfv] at hc
  obtain ⟨hpres, s, hv, -⟩ := confField_prim hc
  subst hpres hv
  simp only [Function.comp_apply]
  rw [hfv]
  have hw : writesField .singular (.prim p) (.single true (.primV s)) =
      true := by
    rw [writesField]
  rw [hw]
  rfl

theorem forall2_mem_right {α β : Type} {R : α → β → Prop} {as : List α}
    {bs : List β} (h : List.Forall₂ R as bs) :
    ∀ b ∈ bs, ∃ a ∈ as, R a b := by
  induction h with
  | nil => simp
  | cons hab htl ih =>
      intro b hb
      rcases List.mem_cons.mp hb with rfl | hb'
      · exact ⟨_, by simp, hab⟩
      · obtain ⟨a, ha, hr⟩ := ih b hb'
        exact ⟨a, by simp [ha], hr⟩

theorem forall2_replicate_right {α β : Type} {R : α → β → Prop}
    {as : List α} {c : β} (h : ∀ a ∈ as, R a c) :
    List.Forall₂ R as (List.replicate as.length c) := by
  induction as with
  | nil => exact List.Forall₂.nil
  | cons a as ih =>
      exact List.Forall₂.cons (h a (by simp))
        (ih fun x hx => h x (by simp [hx]))

theorem zipWith_const {α β γ : Type} {as : List α} {bs : List β} {c : γ}
    (f : α → β → γ) (h : ∀ a ∈ as, ∀ b ∈ bs, f a b = c)
    (hlen : as.length = bs.length) :
    List.zipWith f as bs = List.replicate as.length c := by
  induction as generalizing bs with
  | nil => rfl
  | cons a as ih =>
      cases bs with
      | nil => simp at hlen
      | cons b bs =>
          rw [List.zipWith_cons_cons, h a (by simp) b (by simp),
            List.length_cons, List.replicate_succ]
          rw [ih (fun x hx y hy => h x (by simp [hx]) y (by simp [hy]))
            (by simpa using hlen)]

theorem zipWith_congr_forall2 {α β γ : Type} {R : α → β → Prop}
    {as : List α} {bs : List β} (f g : α → β → γ)
    (h : List.Forall₂ R as bs) (hfg : ∀ a b, R a b → f a b = g a b) :
    List.zipWith f as bs = List.zipWith g as bs := by
  induction h with
  | nil => rfl
  | cons hab htl ih =>
      rw [List.zipWith_cons_cons, List.zipWith_cons_cons, hfg _ _ hab, ih]

theorem map_zipWith_forall2 {α β γ δ : Type} {R : α → β → Prop}
    {as : List α} {bs : List β} (f : γ → δ) (g : α → β → γ) (h : α → δ)
    (hR : List.Forall₂ R as bs) (hfg : ∀ a b, R a b → f (g a b) = h a) :
    (List.zipWith g as bs).map f = as.map h := by
  induction hR with
  | nil => rfl
  | cons hab htl ih =>
      rw [List.zipWith_cons_cons, List.map_cons, List.map_cons,
        hfg _ _ hab, ih]

theorem zipWith_zip_map {α β γ δ ε : Type} (f : γ → δ → ε) (g : α → β → γ)
    (h : α → δ) (as : List α) (bs : List β) :
    List.zipWith f (List.zipWith g as bs) (as.map h) =
      List.zipWith (fun a b => f (g a b) (h a)) as bs := by
  induction as generalizing bs with
  | nil => rfl
  | cons a as ih =>
      cases bs with
      | nil => rfl
      | cons b bs => simpa using ih bs

theorem zip_map_same {α β γ : Type} (f : α → β) (g : α → γ) (as : List α) :
    (as.map f).zip (as.map g) = as.map fun a => (f a, g a) := by
  induction as with
  | nil => rfl
  | cons a as ih => simpa using ih

theorem zip_fst_snd {α β : Type} (l : List (α × β)) :
    (l.map Prod.fst).zip (l.map Prod.snd) = l := by
  induction l with
  | nil => rfl
  | cons e l ih => simpa using ih

theorem assocSet_notin (es : List (Scalar × Value)) (k : Scalar) (v : Value)
    (h : k ∉ es.map Prod.fst) :
    assocSet es k v = es ++ [(k, v)] := by
  induction es with
  | nil => rfl
  | cons e es ih =>
      obtain ⟨k', v'⟩ := e
      have hne : ¬ (k' = k) := by
        intro hk
        exact h (by simp [hk])
      rw [assocSet, if_neg hne, ih (fun hm => h (by simp [hm]))]
      rfl

theorem mapHandles_isEmpty : ∀ (pos : Nat) (gs : List (List Scalar)),
    (mapHandles pos gs).map (fun hs => !hs.isEmpty) =
      gs.map fun g => !g.isEmpty := by
  intro pos gs
  induction gs generalizing pos with
  | nil => rfl
  | cons g gs ih =>
      rw [mapHandles, List.map_cons, List.map_cons, ih]
      cases g <;> rfl

theorem writeBackStruct_round {idx : Nat} {R : Value → Value → Prop}
    (vfun : Value → Bool) (sfun : Value → Value) (tfun : Value → Bool)
    (g : Value → Value → Value)
    (hstep : ∀ r q, R r q →
      (vfun r = true →
        setFieldVal q idx (.single ((getFieldVal q idx).presentOf || tfun r)
          (sfun r)) = g r q) ∧
      (vfun r = false → g r q = q))
    {records parents : List Value} (h : List.Forall₂ R records parents) :
    writeBackStruct idx parents (records.map vfun) (records.map sfun)
        (records.map tfun) =
      List.zipWith g records parents := by
  induction h with
  | nil => rfl
  | cons hab htl ih =>
      rename_i r q rs ps
      simp only [List.map_cons, writeBackStruct, ih]
      rcases hv : vfun r with _ | _
      · simp only [Bool.false_eq_true, if_false]
        rw [List.zipWith_cons_cons, (hstep r q hab).2 hv]
      · simp only [if_true]
        rw [List.zipWith_cons_cons, (hstep r q hab).1 hv]

theorem zipWith_left_map {α β γ : Type} (f : α → γ) (as : List α)
    (bs : List β) (h : as.length = bs.length) :
    List.zipWith (fun a _ => f a) as bs = as.map f := by
  induction as generalizing bs with
  | nil => rfl
  | cons a as ih =>
      cases bs with
      | nil => simp at h
      | cons b bs => simpa using ih bs (by simpa using h)

theorem roundField_enum (vals : List (Int × String)) (idx : Nat)
    (cfg : ProtarrowConfig) (records : List Value) (col : AArray)
    (parents : List Value) (hcfg : CfgOk cfg)
    (hwf : SchemaWfT (.enumT vals))
    (hconf : ∀ r ∈ records,
      ConformsField .singular (.enumT vals) (getFieldVal r idx))
    (henc : protoFieldToArray
      (records.map fun r => (getFieldVal r idx).valueOf) (.enumT vals)
      (protoFieldValidityMask records idx (.enumT vals) .singular) cfg =
        .ok col)
    (hpar : List.Forall₂ (fun _r q => FreshPar .singular (.enumT vals) idx q)
      records parents) :
    extractField col .singular (.enumT vals) idx parents =
      .ok (List.zipWith (fun r q => setFieldVal q idx (getFieldVal r idx))
          records parents,
        records.map fun r =>
          writesField .singular (.enumT vals) (getFieldVal r idx)) := by
  rw [show protoFieldValidityMask records idx (.enumT vals) .singular = none
    from rfl] at henc
  rw [protoFieldToArray, getEnumConverter_cfg cfg hcfg vals] at henc
  simp only [exceptBind_ok] at henc
  rw [maskedElems_none (f := fun v =>
    match v with
    | Value.enumV n =>
        (match lookupNumber vals n with
         | some nm => some (Scalar.s nm)
         | none => none)
    | _ => none) ?hconv] at henc
  case hconv =>
    intro v hv
    obtain ⟨r, hr, rfl⟩ := List.mem_map.mp hv
    have hc := hconf r hr
    obtain ⟨pres, w, hfv⟩ := confField_singular hc
    rw [hfv] at hc
    obtain ⟨-, n, hw, hsome⟩ := confField_enum hc
    obtain ⟨nm, hnm⟩ := Option.isSome_iff_exists.mp hsome
    rw [hfv, hw]
    simp [FieldVal.valueOf, hnm, Except.map]
  simp only [exceptBind_ok, Except.ok.injEq] at henc
  subst henc
  have hnames : (vals.map Prod.snd).Nodup := by
    rw [SchemaWfT] at hwf
    exact hwf.2.1
  have hstep : ∀ p e, plainWrite (.enumT vals)
      (fun e => .ok (match e.2 with
        | some (Scalar.s nm) => (lookupName vals nm).map fun n =>
            PyVal.scalar (.i n)
        | _ => none)) idx p e =
      .ok (match e.2 with
        | some (Scalar.s nm) =>
            match lookupName vals nm with
            | some n => (setFieldVal p idx (.single true (.enumV n)), true)
            | none => (p, false)
        | _ => (p, false)) := by
    intro p e
    obtain ⟨ty, sv⟩ := e
    match sv with
    | none => rfl
    | some (.i n) => rfl
    | some (.f b) => rfl
    | some (.b v) => rfl
    | some (.bin v) => rfl
    | some (.date y m d) => rfl
    | some (.s nm) =>
        simp only [plainWrite, Option.isSome_some, if_true]
        cases h : lookupName vals nm <;>
          simp [h, isMessageKind, assignScalar]
  rw [extractField]
  rw [prepareArray_enumCfg cfg hcfg]
  simp only [exceptBind_ok]
  rw [show getConverter (.enumT vals) = .ok (fun e =>
    .ok (match e.2 with
      | some (Scalar.s nm) => (lookupName vals nm).map fun n =>
          PyVal.scalar (.i n)
      | _ => none)) from rfl]
  simp only [exceptBind_ok]
  rw [plainLoop_zip _ hstep parents
    (elements (.flat cfg.enumType ((records.map fun r =>
      (getFieldVal r idx).valueOf).map fun v =>
        match v with
        | Value.enumV n =>
            (match lookupNumber vals n with
             | some nm => some (Scalar.s nm)
             | none => none)
        | _ => none)))
    (by
      simp only [elements, List.length_map]
      exact (List.Forall₂.length_eq hpar).symm)]
  simp only [elements, List.map_map, List.zipWith_map_right]
  have hR := forall2_with_mem hpar hconf
  refine congrArg Except.ok (congrArg₂ Prod.mk ?_ ?_)
  · rw [List.zipWith_comm]
    refine zipWith_congr_forall2 _ _ hR ?_
    intro r q hrq
    obtain ⟨hc, pf, rfl, hidx, hget⟩ := hrq
    obtain ⟨pres, w, hfv⟩ := confField_singular hc
    rw [hfv] at hc
    obtain ⟨hpres, n, hw, hsome⟩ := confField_enum hc
    obtain ⟨nm, hnm⟩ := Option.isSome_iff_exists.mp hsome
    subst hpres hw
    simp only [Function.comp_apply, hfv, FieldVal.valueOf, hnm,
      lookupName_of_number vals hnames n nm hnm]
  · rw [List.zipWith_comm]
    rw [← zipWith_left_map
      (fun r => writesField .singular (.enumT vals) (getFieldVal r idx))
      records parents (List.Forall₂.length_eq hpar)]
    refine zipWith_congr_forall2 _ _ hR ?_
    intro r q hrq
    obtain ⟨hc, pf, rfl, hidx, hget⟩ := hrq
    obtain ⟨pres, w, hfv⟩ := confField_singular hc
    rw [hfv] at hc
    obtain ⟨hpres, n, hw, hsome⟩ := confField_enum hc
    obtain ⟨nm, hnm⟩ := Option.isSome_iff_exists.mp hsome
    subst hpres hw
    simp only [Function.comp_apply, hfv, FieldVal.valueOf, hnm,
      lookupName_of_number vals hnames n nm hnm]
    rw [show writesField .singular (.enumT vals)
      (.single true (.enumV n)) = true from by rw [writesField]]

theorem set_default_self {card : Card} {t : FieldType} {idx : Nat}
    {pf : List FieldVal} (hidx : idx < pf.length)
    (hget : pf.getD idx junkField = defaultFieldVal card t) (fv : FieldVal)
    (hfv : fv = defaultFieldVal card t) :
    setFieldVal (.msgV pf) idx fv = .msgV pf := by
  subst hfv
  rw [← hget]
  exact setFieldVal_self pf idx hidx

theorem roundField_wrap (p : PrimKind) (idx : Nat) (cfg : ProtarrowConfig)
    (records : List Value) (col : AArray) (parents : List Value)
    (hconf : ∀ r ∈ records,
      ConformsField .singular (.wrapT p) (getFieldVal r idx))
    (henc : protoFieldToArray
      (records.map fun r => (getFieldVal r idx).valueOf) (.wrapT p)
      (protoFieldValidityMask records idx (.wrapT p) .singular) cfg = .ok col)
    (hpar : List.Forall₂ (fun _r q => FreshPar .singular (.wrapT p) idx q)
      records parents) :
    extractField col .singular (.wrapT p) idx parents =
      .ok (List.zipWith (fun r q => setFieldVal q idx (getFieldVal r idx))
          records parents,
        records.map fun r =>
          writesField .singular (.wrapT p) (getFieldVal r idx)) := by
  have hdef : defaultFieldVal .singular (.wrapT p) =
      .single false (.wrapV (primDefault p)) := by
    rw [defaultFieldVal]
    rw [show defaultValueOf (.wrapT p) = .wrapV (primDefault p) from by
      rw [defaultValueOf]]
    rfl
  rw [show protoFieldValidityMask records idx (.wrapT p) .singular =
    some (records.map fun r => (getFieldVal r idx).presentOf) from rfl] at henc
  rw [protoFieldToArray_wrap] at henc
  rw [maskedElems_some (f := fun v =>
    match v with
    | Value.wrapV s => some s
    | _ => none) (fun r _ => rfl) (by simp)] at henc
  simp only [exceptBind_ok, Except.ok.injEq] at henc
  rw [zipWith_same_map] at henc
  subst henc
  have hstep : ∀ q e, plainWrite (.wrapT p) convertScalar idx q e =
      .ok (match e.2 with
        | some s => (setFieldVal q idx (.single true (.wrapV s)), true)
        | none => (q, false)) := by
    intro q e
    obtain ⟨ty, sv⟩ := e
    cases sv with
    | none => rfl
    | some s => rfl
  rw [extractField]
  simp only [prepareArray_primPa, exceptBind_ok]
  rw [show getConverter (.wrapT p) = .ok convertScalar from rfl]
  simp only [exceptBind_ok]
  rw [plainLoop_zip _ hstep parents
    (elements (.flat (primPa p) (records.map fun r =>
      if (getFieldVal r idx).presentOf = true then
        (match (getFieldVal r idx).valueOf with
          | Value.wrapV s => some s
          | _ => none)
      else none)))
    (by
      simp only [elements, List.length_map]
      exact (List.Forall₂.length_eq hpar).symm)]
  simp only [elements, List.map_map, List.zipWith_map_right]
  have hR := forall2_with_mem hpar hconf
  refine congrArg Except.ok (congrArg₂ Prod.mk ?_ ?_)
  · rw [List.zipWith_comm]
    refine zipWith_congr_forall2 _ _ hR ?_
    intro r q hrq
    obtain ⟨hc, pf, rfl, hidx, hget⟩ := hrq
    obtain ⟨pres, w, hfv⟩ := confField_singular hc
    rw [hfv] at hc
    have hwr := confField_wrap hc
    cases pres with
    | true =>
        obtain ⟨s, hw⟩ := hwr.1 rfl
        subst hw
        simp only [Function.comp_apply, hfv, FieldVal.presentOf,
          FieldVal.valueOf, if_true]
    | false =>
        have hw := hwr.2 rfl
        subst hw
        simp only [Function.comp_apply, hfv, FieldVal.presentOf,
          FieldVal.valueOf, Bool.false_eq_true, if_false]
        exact (set_default_self hidx hget _ hdef.symm).symm
  · rw [List.zipWith_comm]
    rw [← zipWith_left_map
      (fun r => writesField .singular (.wrapT p) (getFieldVal r idx))
      records parents (List.Forall₂.length_eq hpar)]
    refine zipWith_congr_forall2 _ _ hR ?_
    intro r q hrq
    obtain ⟨hc, pf, rfl, hidx, hget⟩ := hrq
    obtain ⟨pres, w, hfv⟩ := confField_singular hc
    rw [hfv] at hc
    have hwr := confField_wrap hc
    rw [show writesField .singular (.wrapT p) (getFieldVal r idx) =
        (getFieldVal r idx).presentOf from by rw [writesField]]
    cases pres with
    | true =>
        obtain ⟨s, hw⟩ := hwr.1 rfl
        subst hw
        simp only [Function.comp_apply, hfv, FieldVal.presentOf,
          FieldVal.valueOf, if_true]
    | false =>
        have hw := hwr.2 rfl
        subst hw
        simp only [Function.comp_apply, hfv, FieldVal.presentOf,
          FieldVal.valueOf, Bool.false_eq_true, if_false]

theorem roundField_ts (idx : Nat) (cfg : ProtarrowConfig)
    (records : List Value) (col : AArray) (parents : List Value)
    (hconf : ∀ r ∈ records, ConformsField .singular .tsT (getFieldVal r idx))
    (henc : protoFieldToArray
      (records.map fun r => (getFieldVal r idx).valueOf) .tsT
      (protoFieldValidityMask records idx .tsT .singular) cfg = .ok col)
    (hpar : List.Forall₂ (fun _r q => FreshPar .singular .tsT idx q)
      records parents) :
    extractField col .singular .tsT idx parents =
      .ok (List.zipWith (fun r q => setFieldVal q idx (getFieldVal r idx))
          records parents,
        records.map fun r =>
          writesField .singular .tsT (getFieldVal r idx)) := by
  have hdef : defaultFieldVal .singular .tsT = .single false (.tsV 0 0) := by
    rw [defaultFieldVal]
    rw [show defaultValueOf .tsT = .tsV 0 0 from by rw [defaultValueOf]]
    rfl
  rw [show protoFieldValidityMask records idx .tsT .singular =
    some (records.map fun r => (getFieldVal r idx).presentOf) from rfl] at henc
  rw [protoFieldToArray_ts] at henc
  rw [maskedElems_some (f := fun v =>
    match v with
    | Value.tsV sec nanos => some (Scalar.i (sec * 1000000000 + nanos))
    | _ => none) (fun r _ => rfl) (by simp)] at henc
  simp only [exceptBind_ok, Except.ok.injEq] at henc
  rw [zipWith_same_map] at henc
  subst henc
  rw [extractField]
  simp only [prepareArray_flat_ts, exceptBind_ok]
  rw [show elements (.flat paTimestampType (records.map fun r =>
      if (getFieldVal r idx).presentOf = true then
        (match (getFieldVal r idx).valueOf with
          | Value.tsV sec nanos => some (Scalar.i (sec * 1000000000 + nanos))
          | _ => none)
      else none)) =
      records.map ((fun sv => (paTimestampType, sv)) ∘ fun r =>
        if (getFieldVal r idx).presentOf = true then
          (match (getFieldVal r idx).valueOf with
            | Value.tsV sec nanos =>
                some (Scalar.i (sec * 1000000000 + nanos))
            | _ => none)
        else none) from by
    simp only [elements, List.map_map]]
  rw [specialLoop_round _
    (fun r q => setFieldVal q idx (getFieldVal r idx))
    (fun r => writesField .singular .tsT (getFieldVal r idx))
    ?_ (forall2_with_mem hpar hconf)]
  intro r q hrq
  obtain ⟨hc, pf, rfl, hidx, hget⟩ := hrq
  obtain ⟨pres, w, hfv⟩ := confField_singular hc
  rw [hfv] at hc
  have hts := confField_ts hc
  cases pres with
  | true =>
      obtain ⟨sec, ns, hw, hn0, hn1⟩ := hts.1 rfl
      subst hw
      have hq : getFieldVal (.msgV pf) idx =
          FieldVal.single false (.tsV 0 0) := by
        rw [show getFieldVal (.msgV pf) idx = pf.getD idx junkField from rfl,
          hget, hdef]
      simp only [Function.comp_apply, hfv, hq, FieldVal.presentOf,
        FieldVal.valueOf, if_true, Option.isSome_some, reduceIte]
      refine ⟨.tsV sec ns, ?_, ?_, ?_⟩
      · exact ts_codec sec ns hn0 hn1
      · rw [mergeSpecial_ts]
      · rw [show writesField .singular .tsT
          (FieldVal.single true (.tsV sec ns)) = true from by
          simp [writesField, FieldVal.presentOf]]
  | false =>
      have hw := hts.2 rfl
      subst hw
      simp only [Function.comp_apply, hfv, FieldVal.presentOf,
        FieldVal.valueOf, Bool.false_eq_true, if_false, Option.isSome_none,
        reduceIte]
      refine ⟨?_, ?_⟩
      · exact set_default_self hidx hget _ hdef.symm
      · rw [show writesField .singular .tsT
          (FieldVal.single false (.tsV 0 0)) = false from by
          simp [writesField, FieldVal.presentOf]]

theorem roundField_date (idx : Nat) (cfg : ProtarrowConfig)
    (records : List Value) (col : AArray) (parents : List Value)
    (hconf : ∀ r ∈ records, ConformsField .singular .dateT (getFieldVal r idx))
    (henc : protoFieldToArray
      (records.map fun r => (getFieldVal r idx).valueOf) .dateT
      (protoFieldValidityMask records idx .dateT .singular) cfg = .ok col)
    (hpar : List.Forall₂ (fun _r q => FreshPar .singular .dateT idx q)
      records parents) :
    extractField col .singular .dateT idx parents =
      .ok (List.zipWith (fun r q => setFieldVal q idx (getFieldVal r idx))
          records parents,
        records.map fun r =>
          writesField .singular .dateT (getFieldVal r idx)) := by
  have hdef : defaultFieldVal .singular .dateT =
      .single false (.dateV 0 0 0) := by
    rw [defaultFieldVal]
    rw [show defaultValueOf .dateT = .dateV 0 0 0 from by rw [defaultValueOf]]
    rfl
  rw [show protoFieldValidityMask records idx .dateT .singular =
    some (records.map fun r => (getFieldVal r idx).presentOf) from rfl] at henc
  rw [protoFieldToArray_date] at henc
  rw [maskedElems_some (f := fun v =>
    match v with
    | Value.dateV y m d => if y = 0 then none else some (Scalar.date y m d)
    | _ => none) (fun r _ => rfl) (by simp)] at henc
  simp only [exceptBind_ok, Except.ok.injEq] at henc
  rw [zipWith_same_map] at henc
  subst henc
  rw [extractField]
  simp only [prepareArray_flat_date, exceptBind_ok]
  rw [show elements (.flat .date32T (records.map fun r =>
      if (getFieldVal r idx).presentOf = true then
        (match (getFieldVal r idx).valueOf with
          | Value.dateV y m d =>
              if y = 0 then none else some (Scalar.date y m d)
          | _ => none)
      else none)) =
      records.map ((fun sv => ((.date32T : AType), sv)) ∘ fun r =>
        if (getFieldVal r idx).presentOf = true then
          (match (getFieldVal r idx).valueOf with
            | Value.dateV y m d =>
                if y = 0 then none else some (Scalar.date y m d)
            | _ => none)
        else none) from by
    simp only [elements, List.map_map]]
  rw [specialLoop_round _
    (fun r q => setFieldVal q idx (getFieldVal r idx))
    (fun r => writesField .singular .dateT (getFieldVal r idx))
    ?_ (forall2_with_mem hpar hconf)]
  intro r q hrq
  obtain ⟨hc, pf, rfl, hidx, hget⟩ := hrq
  obtain ⟨pres, w, hfv⟩ := confField_singular hc
  rw [hfv] at hc
  have hdt := confField_date hc
  cases pres with
  | true =>
      obtain ⟨y, m, d, hw, hy1, hy2, hm1, hm2, hd1, hd2⟩ := hdt.1 rfl
      subst hw
      have hq : getFieldVal (.msgV pf) idx =
          FieldVal.single false (.dateV 0 0 0) := by
        rw [show getFieldVal (.msgV pf) idx = pf.getD idx junkField from rfl,
          hget, hdef]
      simp only [Function.comp_apply, hfv, hq, FieldVal.presentOf,
        FieldVal.valueOf, if_true, reduceIte]
      rw [show (if y = 0 then (none : Option Scalar)
          else some (Scalar.date y m d)) = some (Scalar.date y m d) from by
        rw [if_neg (by omega : ¬ y = 0)]]
      simp only [Option.isSome_some, reduceIte]
      refine ⟨.dateV y m d, ?_, ?_, ?_⟩
      · rfl
      · rw [mergeSpecial_date]
      · rw [show writesField .singular .dateT
          (FieldVal.single true (.dateV y m d)) = true from by
          simp [writesField, FieldVal.presentOf]]
  | false =>
      have hw := hdt.2 rfl
      subst hw
      simp only [Function.comp_apply, hfv, FieldVal.presentOf,
        FieldVal.valueOf, Bool.false_eq_true, if_false, Option.isSome_none,
        reduceIte]
      refine ⟨?_, ?_⟩
      · exact set_default_self hidx hget _ hdef.symm
      · rw [show writesField .singular .dateT
          (FieldVal.single false (.dateV 0 0 0)) = false from by
          simp [writesField, FieldVal.presentOf]]

theorem roundField_tod (idx : Nat) (cfg : ProtarrowConfig)
    (records : List Value) (col : AArray) (parents : List Value)
    (hconf : ∀ r ∈ records, ConformsField .singular .todT (getFieldVal r idx))
    (henc : protoFieldToArray
      (records.map fun r => (getFieldVal r idx).valueOf) .todT
      (protoFieldValidityMask records idx .todT .singular) cfg = .ok col)
    (hpar : List.Forall₂ (fun _r q => FreshPar .singular .todT idx q)
      records parents) :
    extractField col .singular .todT idx parents =
      .ok (List.zipWith (fun r q => setFieldVal q idx (getFieldVal r idx))
          records parents,
        records.map fun r =>
          writesField .singular .todT (getFieldVal r idx)) := by
  have hdef : defaultFieldVal .singular .todT =
      .single false (.todV 0 0 0 0) := by
    rw [defaultFieldVal]
    rw [show defaultValueOf .todT = .todV 0 0 0 0 from by rw [defaultValueOf]]
    rfl
  rw [show protoFieldValidityMask records idx .todT .singular =
    some (records.map fun r => (getFieldVal r idx).presentOf) from rfl] at henc
  rw [protoFieldToArray_tod] at henc
  rw [maskedElems_some (f := fun v =>
    match v with
    | Value.todV h mi s n => some (Scalar.i (timeOfDayToNanos h mi s n))
    | _ => none) (fun r _ => rfl) (by simp)] at henc
  simp only [exceptBind_ok, Except.ok.injEq] at henc
  rw [zipWith_same_map] at henc
  subst henc
  rw [extractField]
  rw [prepareArray_time]
  simp only [exceptBind_ok]
  rw [show elements (.flat .int64T ((records.map fun r =>
      if (getFieldVal r idx).presentOf = true then
        (match (getFieldVal r idx).valueOf with
          | Value.todV h mi s n => some (Scalar.i (timeOfDayToNanos h mi s n))
          | _ => none)
      else none).map fun sv => sv.map fun s =>
        match s with
        | Scalar.i n => Scalar.i (n * 1)
        | x => x)) =
      records.map ((fun sv => ((.int64T : AType), sv)) ∘
        (fun sv => Option.map (fun s =>
          match s with
          | Scalar.i n => Scalar.i (n * 1)
          | x => x) sv) ∘ fun r =>
        if (getFieldVal r idx).presentOf = true then
          (match (getFieldVal r idx).valueOf with
            | Value.todV h mi s n =>
                some (Scalar.i (timeOfDayToNanos h mi s n))
            | _ => none)
        else none) from by
    simp only [elements, List.map_map]]
  rw [specialLoop_round _
    (fun r q => setFieldVal q idx (getFieldVal r idx))
    (fun r => writesField .singular .todT (getFieldVal r idx))
    ?_ (forall2_with_mem hpar hconf)]
  intro r q hrq
  obtain ⟨hc, pf, rfl, hidx, hget⟩ := hrq
  obtain ⟨pres, w, hfv⟩ := confField_singular hc
  rw [hfv] at hc
  have htd := confField_tod hc
  cases pres with
  | true =>
      obtain ⟨hh, mi, s, n, hw, b1, b2, b3, b4, b5, b6, b7, b8⟩ := htd.1 rfl
      subst hw
      have hq : getFieldVal (.msgV pf) idx =
          FieldVal.single false (.todV 0 0 0 0) := by
        rw [show getFieldVal (.msgV pf) idx = pf.getD idx junkField from rfl,
          hget, hdef]
      simp only [Function.comp_apply, hfv, hq, FieldVal.presentOf,
        FieldVal.valueOf, if_true, Option.map_some', Option.isSome_some,
        reduceIte]
      refine ⟨.todV hh mi s n, ?_, ?_, ?_⟩
      · exact tod_codec hh mi s n b1 b2 b3 b4 b5 b6 b7 b8
      · rw [mergeSpecial_tod]
      · rw [show writesField .singular .todT
          (FieldVal.single true (.todV hh mi s n)) = true from by
          simp [writesField, FieldVal.presentOf]]
  | false =>
      have hw := htd.2 rfl
      subst hw
      simp only [Function.comp_apply, hfv, FieldVal.presentOf,
        FieldVal.valueOf, Bool.false_eq_true, if_false, Option.map_none',
        Option.isSome_none, reduceIte]
      refine ⟨?_, ?_⟩
      · exact set_default_self hidx hget _ hdef.symm
      · rw [show writesField .singular .todT
          (FieldVal.single false (.todV 0 0 0 0)) = false from by
          simp [writesField, FieldVal.presentOf]]

theorem roundField_rep_prim (p : PrimKind) (idx : Nat)
    (cfg : ProtarrowConfig) (records : List Value) (col : AArray)
    (parents : List Value)
    (hconf : ∀ r ∈ records,
      ConformsField .repeatedC (.prim p) (getFieldVal r idx))
    (henc : repeatedProtoToArray
      (records.map fun r => (getFieldVal r idx).listOf) (.prim p) cfg =
        .ok col)
    (hpar : List.Forall₂ (fun _r q => FreshPar .repeatedC (.prim p) idx q)
      records parents) :
    extractField col .repeatedC (.prim p) idx parents =
      .ok (List.zipWith (fun r q => setFieldVal q idx (getFieldVal r idx))
          records parents,
        records.map fun r =>
          writesField .repeatedC (.prim p) (getFieldVal r idx)) := by
  rw [repeatedProtoToArray, protoFieldToArray] at henc
  rw [maskedElems_none (f := primPayload) (fun r _ => rfl)] at henc
  simp only [exceptBind_ok, Except.ok.injEq] at henc
  subst henc
  rw [extractField]
  rw [prepareArray_listA]
  simp only [exceptBind_ok]
  rw [extractRepeatedField]
  rw [extractRepeatedPrimitive]
  rw [show getConverter (.prim p) = .ok convertScalar from rfl]
  simp only [exceptBind_ok]
  rw [offsetToSize_getOffsets]
  simp only [exceptBind_ok, prepareArray_primPa]
  simp only [elements, List.map_map, List.map_flatten]
  have hfresh : ∀ r q,
      (ConformsField .repeatedC (.prim p) (getFieldVal r idx) ∧
        FreshPar .repeatedC (.prim p) idx q) →
      (getFieldVal q idx).listOf = [] := by
    intro r q hrq
    obtain ⟨hc, pf, rfl, hidx, hget⟩ := hrq
    rw [show getFieldVal (.msgV pf) idx = pf.getD idx junkField from rfl,
      hget]
    rfl
  have hel : ∀ r q,
      (ConformsField .repeatedC (.prim p) (getFieldVal r idx) ∧
        FreshPar .repeatedC (.prim p) idx q) →
      ∀ v ∈ (getFieldVal r idx).listOf, ∃ x,
        convertScalar ((((fun sv => (primPa p, sv)) ∘ primPayload)) v) =
          .ok (some x) ∧
        ∀ cur, appendPrimOne (.prim p) cur (some x) = .ok (cur ++ [v]) := by
    intro r q hrq v hv
    obtain ⟨hc, -⟩ := hrq
    obtain ⟨vs, hfv, hels⟩ := confField_rep hc
    rw [hfv] at hv
    have hv' : v ∈ vs := hv
    obtain ⟨s, rfl, -⟩ := conforms_prim (hels v hv')
    exact ⟨.scalar s, rfl, fun cur => rfl⟩
  rw [show (List.map ((List.map fun sv => (primPa p, sv)) ∘
      List.map primPayload ∘ fun r => (getFieldVal r idx).listOf) records) =
      List.map (fun r => List.map ((fun sv => (primPa p, sv)) ∘ primPayload)
        (getFieldVal r idx).listOf) records from by
    refine List.map_congr_left ?_
    intro r _
    simp [List.map_map]]
  refine Eq.trans (appendLoop_round
    ((fun sv => (primPa p, sv)) ∘ primPayload)
    (fun r => (getFieldVal r idx).listOf)
    hfresh hel
    (forall2_with_mem hpar hconf)) ?_
  have hR := forall2_with_mem hpar hconf
  refine congrArg Except.ok (congrArg₂ Prod.mk ?_ ?_)
  · refine zipWith_congr_forall2 _ _ hR ?_
    intro r q hrq
    obtain ⟨hc, pf, rfl, hidx, hget⟩ := hrq
    obtain ⟨vs, hfv, -⟩ := confField_rep hc
    simp only [hfv]
    rfl
  · refine List.map_congr_left ?_
    intro r _
    rw [show writesField .repeatedC (.prim p) (getFieldVal r idx) =
      !(getFieldVal r idx).listOf.isEmpty from by rw [writesField]]
  all_goals
    first
    | exact fun _ h => Card.noConfusion h
    | exact fun _ h => FieldType.noConfusion h

theorem map_comp_fuse {α β γ δ : Type} (f : β → γ) (g : α → β)
    (grp : δ → List α) (records : List δ) :
    List.map ((List.map f) ∘ (List.map g) ∘ grp) records =
      List.map (fun r => List.map (f ∘ g) (grp r)) records := by
  refine List.map_congr_left ?_
  intro r _
  simp [List.map_map]

theorem map_comp_fuse3 {α β γ δ ε : Type} (f : γ → δ) (g : β → γ)
    (h : α → β) (grp : ε → List α) (records : List ε) :
    List.map ((List.map f) ∘ (List.map g) ∘ (List.map h) ∘ grp) records =
      List.map (fun r => List.map (f ∘ g ∘ h) (grp r)) records := by
  refine List.map_congr_left ?_
  intro r _
  simp [List.map_map]

theorem roundField_rep_enum (vals : List (Int × String)) (idx : Nat)
    (cfg : ProtarrowConfig) (records : List Value) (col : AArray)
    (parents : List Value) (hcfg : CfgOk cfg)
    (hwf : SchemaWfT (.enumT vals))
    (hconf : ∀ r ∈ records,
      ConformsField .repeatedC (.enumT vals) (getFieldVal r idx))
    (henc : repeatedProtoToArray
      (records.map fun r => (getFieldVal r idx).listOf) (.enumT vals) cfg =
        .ok col)
    (hpar : List.Forall₂ (fun _r q => FreshPar .repeatedC (.enumT vals) idx q)
      records parents) :
    extractField col .repeatedC (.enumT vals) idx parents =
      .ok (List.zipWith (fun r q => setFieldVal q idx (getFieldVal r idx))
          records parents,
        records.map fun r =>
          writesField .repeatedC (.enumT vals) (getFieldVal r idx)) := by
  have hnames : (vals.map Prod.snd).Nodup := by
    rw [SchemaWfT] at hwf
    exact hwf.2.1
  rw [repeatedProtoToArray, protoFieldToArray,
    getEnumConverter_cfg cfg hcfg vals] at henc
  simp only [exceptBind_ok] at henc
  rw [maskedElems_none (f := fun v =>
    match v with
    | Value.enumV n =>
        (match lookupNumber vals n with
         | some nm => some (Scalar.s nm)
         | none => none)
    | _ => none) ?hconv] at henc
  case hconv =>
    intro v hv
    obtain ⟨g, hg, hvg⟩ := List.mem_flatten.mp hv
    obtain ⟨r, hr, rfl⟩ := List.mem_map.mp hg
    have hc := hconf r hr
    obtain ⟨vs, hfv, hels⟩ := confField_rep hc
    rw [hfv] at hvg
    have hv' : v ∈ vs := hvg
    obtain ⟨n, rfl, hsome⟩ := conforms_enum (hels v hv')
    obtain ⟨nm, hnm⟩ := Option.isSome_iff_exists.mp hsome
    simp [hnm, Except.map]
  simp only [exceptBind_ok, Except.ok.injEq] at henc
  subst henc
  rw [extractField]
  rw [prepareArray_listA]
  simp only [exceptBind_ok]
  rw [extractRepeatedField]
  rw [extractRepeatedPrimitive]
  rw [show getConverter (.enumT vals) = .ok (fun e =>
    .ok (match e.2 with
      | some (Scalar.s nm) => (lookupName vals nm).map fun n =>
          PyVal.scalar (.i n)
      | _ => none)) from rfl]
  simp only [exceptBind_ok]
  rw [offsetToSize_getOffsets]
  simp only [exceptBind_ok]
  rw [prepareArray_enumCfg cfg hcfg]
  simp only [exceptBind_ok]
  simp only [elements, List.map_map, List.map_flatten]
  have hfresh : ∀ r q,
      (ConformsField .repeatedC (.enumT vals) (getFieldVal r idx) ∧
        FreshPar .repeatedC (.enumT vals) idx q) →
      (getFieldVal q idx).listOf = [] := by
    intro r q hrq
    obtain ⟨hc, pf, rfl, hidx, hget⟩ := hrq
    rw [show getFieldVal (.msgV pf) idx = pf.getD idx junkField from rfl,
      hget]
    rfl
  have hel : ∀ r q,
      (ConformsField .repeatedC (.enumT vals) (getFieldVal r idx) ∧
        FreshPar .repeatedC (.enumT vals) idx q) →
      ∀ v ∈ (getFieldVal r idx).listOf, ∃ x,
        (fun (e : AType × Option Scalar) =>
          (.ok (match e.2 with
            | some (Scalar.s nm) => (lookupName vals nm).map fun n =>
                PyVal.scalar (.i n)
            | _ => none) : Except String (Option PyVal)))
          (((fun sv => (cfg.enumType, sv)) ∘ fun v =>
            match v with
            | Value.enumV n =>
                (match lookupNumber vals n with
                 | some nm => some (Scalar.s nm)
                 | none => none)
            | _ => none) v) = .ok (some x) ∧
        ∀ cur, appendPrimOne (.enumT vals) cur (some x) =
          .ok (cur ++ [v]) := by
    intro r q hrq v hv
    obtain ⟨hc, -⟩ := hrq
    obtain ⟨vs, hfv, hels⟩ := confField_rep hc
    rw [hfv] at hv
    have hv' : v ∈ vs := hv
    obtain ⟨n, rfl, hsome⟩ := conforms_enum (hels v hv')
    obtain ⟨nm, hnm⟩ := Option.isSome_iff_exists.mp hsome
    refine ⟨.scalar (.i n), ?_, fun cur => rfl⟩
    simp only [Function.comp_apply, hnm]
    rw [lookupName_of_number vals hnames n nm hnm]
    rfl
  rw [map_comp_fuse]
  refine Eq.trans (appendLoop_round
    ((fun sv => (cfg.enumType, sv)) ∘ fun v =>
      match v with
      | Value.enumV n =>
          (match lookupNumber vals n with
           | some nm => some (Scalar.s nm)
           | none => none)
      | _ => none)
    (fun r => (getFieldVal r idx).listOf)
    hfresh hel
    (forall2_with_mem hpar hconf)) ?_
  have hR := forall2_with_mem hpar hconf
  refine congrArg Except.ok (congrArg₂ Prod.mk ?_ ?_)
  · refine zipWith_congr_forall2 _ _ hR ?_
    intro r q hrq
    obtain ⟨hc, pf, rfl, hidx, hget⟩ := hrq
    obtain ⟨vs, hfv, -⟩ := confField_rep hc
    simp only [hfv]
    rfl
  · refine List.map_congr_left ?_
    intro r _
    rw [show writesField .repeatedC (.enumT vals) (getFieldVal r idx) =
      !(getFieldVal r idx).listOf.isEmpty from by rw [writesField]]
  all_goals
    first
    | exact fun _ h => Card.noConfusion h
    | exact fun _ h => FieldType.noConfusion h

theorem roundField_rep_ts (idx : Nat) (cfg : ProtarrowConfig)
    (records : List Value) (col : AArray) (parents : List Value)
    (hconf : ∀ r ∈ records,
      ConformsField .repeatedC .tsT (getFieldVal r idx))
    (henc : repeatedProtoToArray
      (records.map fun r => (getFieldVal r idx).listOf) .tsT cfg = .ok col)
    (hpar : List.Forall₂ (fun _r q => FreshPar .repeatedC .tsT idx q)
      records parents) :
    extractField col .repeatedC .tsT idx parents =
      .ok (List.zipWith (fun r q => setFieldVal q idx (getFieldVal r idx))
          records parents,
        records.map fun r =>
          writesField .repeatedC .tsT (getFieldVal r idx)) := by
  rw [repeatedProtoToArray, protoFieldToArray_ts] at henc
  rw [maskedElems_none (f := fun v =>
    match v with
    | Value.tsV sec nanos => some (Scalar.i (sec * 1000000000 + nanos))
    | _ => none) (fun r _ => rfl)] at henc
  simp only [exceptBind_ok, Except.ok.injEq] at henc
  subst henc
  rw [extractField]
  rw [prepareArray_listA]
  simp only [exceptBind_ok]
  rw [extractRepeatedField]
  rw [extractRepeatedPrimitive]
  rw [show getConverter .tsT = .ok (fun e =>
    (timestampScalarToProto e.1 e.2).map fun v => some (.msgVal v))
    from rfl]
  simp only [exceptBind_ok]
  rw [offsetToSize_getOffsets]
  simp only [exceptBind_ok, prepareArray_flat_ts]
  simp only [elements, List.map_map, List.map_flatten]
  have hfresh : ∀ r q,
      (ConformsField .repeatedC .tsT (getFieldVal r idx) ∧
        FreshPar .repeatedC .tsT idx q) →
      (getFieldVal q idx).listOf = [] := by
    intro r q hrq
    obtain ⟨hc, pf, rfl, hidx, hget⟩ := hrq
    rw [show getFieldVal (.msgV pf) idx = pf.getD idx junkField from rfl,
      hget]
    rfl
  have hel : ∀ r q,
      (ConformsField .repeatedC .tsT (getFieldVal r idx) ∧
        FreshPar .repeatedC .tsT idx q) →
      ∀ v ∈ (getFieldVal r idx).listOf, ∃ x,
        (fun (e : AType × Option Scalar) =>
          (timestampScalarToProto e.1 e.2).map fun v => some (.msgVal v))
          (((fun sv => (paTimestampType, sv)) ∘ fun v =>
            match v with
            | Value.tsV sec nanos =>
                some (Scalar.i (sec * 1000000000 + nanos))
            | _ => none) v) = .ok (some x) ∧
        ∀ cur, appendPrimOne .tsT cur (some x) = .ok (cur ++ [v]) := by
    intro r q hrq v hv
    obtain ⟨hc, -⟩ := hrq
    obtain ⟨vs, hfv, hels⟩ := confField_rep hc
    rw [hfv] at hv
    have hv' : v ∈ vs := hv
    obtain ⟨sec, ns, rfl, hn0, hn1⟩ := conforms_ts (hels v hv')
    refine ⟨.msgVal (.tsV sec ns), ?_, fun cur => rfl⟩
    simp only [Function.comp_apply]
    rw [ts_codec sec ns hn0 hn1]
    rfl
  rw [map_comp_fuse]
  refine Eq.trans (appendLoop_round
    ((fun sv => (paTimestampType, sv)) ∘ fun v =>
      match v with
      | Value.tsV sec nanos => some (Scalar.i (sec * 1000000000 + nanos))
      | _ => none)
    (fun r => (getFieldVal r idx).listOf)
    hfresh hel
    (forall2_with_mem hpar hconf)) ?_
  have hR := forall2_with_mem hpar hconf
  refine congrArg Except.ok (congrArg₂ Prod.mk ?_ ?_)
  · refine zipWith_congr_forall2 _ _ hR ?_
    intro r q hrq
    obtain ⟨hc, pf, rfl, hidx, hget⟩ := hrq
    obtain ⟨vs, hfv, -⟩ := confField_rep hc
    simp only [hfv]
    rfl
  · refine List.map_congr_left ?_
    intro r _
    rw [show writesField .repeatedC .tsT (getFieldVal r idx) =
      !(getFieldVal r idx).listOf.isEmpty from by rw [writesField]]
  all_goals
    first
    | exact fun _ h => Card.noConfusion h
    | exact fun _ h => FieldType.noConfusion h

theorem roundField_rep_date (idx : Nat) (cfg : ProtarrowConfig)
    (records : List Value) (col : AArray) (parents : List Value)
    (hconf : ∀ r ∈ records,
      ConformsField .repeatedC .dateT (getFieldVal r idx))
    (henc : repeatedProtoToArray
      (records.map fun r => (getFieldVal r idx).listOf) .dateT cfg = .ok col)
    (hpar : List.Forall₂ (fun _r q => FreshPar .repeatedC .dateT idx q)
      records parents) :
    extractField col .repeatedC .dateT idx parents =
      .ok (List.zipWith (fun r q => setFieldVal q idx (getFieldVal r idx))
          records parents,
        records.map fun r =>
          writesField .repeatedC .dateT (getFieldVal r idx)) := by
  rw [repeatedProtoToArray, protoFieldToArray_date] at henc
  rw [maskedElems_none (f := fun v =>
    match v with
    | Value.dateV y m d => if y = 0 then none else some (Scalar.date y m d)
    | _ => none) (fun r _ => rfl)] at henc
  simp only [exceptBind_ok, Except.ok.injEq] at henc
  subst henc
  rw [extractField]
  rw [prepareArray_listA]
  simp only [exceptBind_ok]
  rw [extractRepeatedField]
  rw [extractRepeatedPrimitive]
  rw [show getConverter .dateT = .ok (fun e =>
    (dateScalarToProto e.2).map fun v => some (.msgVal v)) from rfl]
  simp only [exceptBind_ok]
  rw [offsetToSize_getOffsets]
  simp only [exceptBind_ok, prepareArray_flat_date]
  simp only [elements, List.map_map, List.map_flatten]
  have hfresh : ∀ r q,
      (ConformsField .repeatedC .dateT (getFieldVal r idx) ∧
        FreshPar .repeatedC .dateT idx q) →
      (getFieldVal q idx).listOf = [] := by
    intro r q hrq
    obtain ⟨hc, pf, rfl, hidx, hget⟩ := hrq
    rw [show getFieldVal (.msgV pf) idx = pf.getD idx junkField from rfl,
      hget]
    rfl
  have hel : ∀ r q,
      (ConformsField .repeatedC .dateT (getFieldVal r idx) ∧
        FreshPar .repeatedC .dateT idx q) →
      ∀ v ∈ (getFieldVal r idx).listOf, ∃ x,
        (fun (e : AType × Option Scalar) =>
          (dateScalarToProto e.2).map fun v => some (.msgVal v))
          (((fun sv => ((.date32T : AType), sv)) ∘ fun v =>
            match v with
            | Value.dateV y m d =>
                if y = 0 then none else some (Scalar.date y m d)
            | _ => none) v) = .ok (some x) ∧
        ∀ cur, appendPrimOne .dateT cur (some x) = .ok (cur ++ [v]) := by
    intro r q hrq v hv
    obtain ⟨hc, -⟩ := hrq
    obtain ⟨vs, hfv, hels⟩ := confField_rep hc
    rw [hfv] at hv
    have hv' : v ∈ vs := hv
    obtain ⟨y, m, d, rfl, hy1, hy2, hm1, hm2, hd1, hd2⟩ :=
      conforms_date (hels v hv')
    refine ⟨.msgVal (.dateV y m d), ?_, fun cur => rfl⟩
    simp only [Function.comp_apply]
    rw [if_neg (by omega : ¬ y = 0)]
    rfl
  rw [map_comp_fuse]
  refine Eq.trans (appendLoop_round
    ((fun sv => ((.date32T : AType), sv)) ∘ fun v =>
      match v with
      | Value.dateV y m d => if y = 0 then none else some (Scalar.date y m d)
      | _ => none)
    (fun r => (getFieldVal r idx).listOf)
    hfresh hel
    (forall2_with_mem hpar hconf)) ?_
  have hR := forall2_with_mem hpar hconf
  refine congrArg Except.ok (congrArg₂ Prod.mk ?_ ?_)
  · refine zipWith_congr_forall2 _ _ hR ?_
    intro r q hrq
    obtain ⟨hc, pf, rfl, hidx, hget⟩ := hrq
    obtain ⟨vs, hfv, -⟩ := confField_rep hc
    simp only [hfv]
    rfl
  · refine List.map_congr_left ?_
    intro r _
    rw [show writesField .repeatedC .dateT (getFieldVal r idx) =
      !(getFieldVal r idx).listOf.isEmpty from by rw [writesField]]
  all_goals
    first
    | exact fun _ h => Card.noConfusion h
    | exact fun _ h => FieldType.noConfusion h

theorem roundField_rep_tod (idx : Nat) (cfg : ProtarrowConfig)
    (records : List Value) (col : AArray) (parents : List Value)
    (hconf : ∀ r ∈ records,
      ConformsField .repeatedC .todT (getFieldVal r idx))
    (henc : repeatedProtoToArray
      (records.map fun r => (getFieldVal r idx).listOf) .todT cfg = .ok col)
    (hpar : List.Forall₂ (fun _r q => FreshPar .repeatedC .todT idx q)
      records parents) :
    extractField col .repeatedC .todT idx parents =
      .ok (List.zipWith (fun r q => setFieldVal q idx (getFieldVal r idx))
          records parents,
        records.map fun r =>
          writesField .repeatedC .todT (getFieldVal r idx)) := by
  rw [repeatedProtoToArray, protoFieldToArray_tod] at henc
  rw [maskedElems_none (f := fun v =>
    match v with
    | Value.todV h mi s n => some (Scalar.i (timeOfDayToNanos h mi s n))
    | _ => none) (fun r _ => rfl)] at henc
  simp only [exceptBind_ok, Except.ok.injEq] at henc
  subst henc
  rw [extractField]
  rw [prepareArray_listA]
  simp only [exceptBind_ok]
  rw [extractRepeatedField]
  rw [extractRepeatedPrimitive]
  rw [show getConverter .todT = .ok (fun e =>
    (timeOfDayScalarToProto e.2).map fun v => some (.msgVal v)) from rfl]
  simp only [exceptBind_ok]
  rw [offsetToSize_getOffsets]
  simp only [exceptBind_ok]
  rw [prepareArray_time]
  simp only [exceptBind_ok]
  simp only [elements, List.map_map, List.map_flatten]
  have hfresh : ∀ r q,
      (ConformsField .repeatedC .todT (getFieldVal r idx) ∧
        FreshPar .repeatedC .todT idx q) →
      (getFieldVal q idx).listOf = [] := by
    intro r q hrq
    obtain ⟨hc, pf, rfl, hidx, hget⟩ := hrq
    rw [show getFieldVal (.msgV pf) idx = pf.getD idx junkField from rfl,
      hget]
    rfl
  have hel : ∀ r q,
      (ConformsField .repeatedC .todT (getFieldVal r idx) ∧
        FreshPar .repeatedC .todT idx q) →
      ∀ v ∈ (getFieldVal r idx).listOf, ∃ x,
        (fun (e : AType × Option Scalar) =>
          (timeOfDayScalarToProto e.2).map fun v => some (.msgVal v))
          (((fun sv => ((.int64T : AType), sv)) ∘
            (fun sv => Option.map (fun s =>
              match s with
              | Scalar.i n => Scalar.i (n * 1)
              | x => x) sv) ∘ fun v =>
            match v with
            | Value.todV h mi s n =>
                some (Scalar.i (timeOfDayToNanos h mi s n))
            | _ => none) v) = .ok (some x) ∧
        ∀ cur, appendPrimOne .todT cur (some x) = .ok (cur ++ [v]) := by
    intro r q hrq v hv
    obtain ⟨hc, -⟩ := hrq
    obtain ⟨vs, hfv, hels⟩ := confField_rep hc
    rw [hfv] at hv
    have hv' : v ∈ vs := hv
    obtain ⟨hh, mi, s, n, rfl, b1, b2, b3, b4, b5, b6, b7, b8⟩ :=
      conforms_tod (hels v hv')
    refine ⟨.msgVal (.todV hh mi s n), ?_, fun cur => rfl⟩
    simp only [Function.comp_apply, Option.map_some']
    rw [tod_codec hh mi s n b1 b2 b3 b4 b5 b6 b7 b8]
    rfl
  rw [map_comp_fuse3]
  refine Eq.trans (appendLoop_round
    ((fun sv => ((.int64T : AType), sv)) ∘
      (fun sv => Option.map (fun s =>
        match s with
        | Scalar.i n => Scalar.i (n * 1)
        | x => x) sv) ∘ fun v =>
      match v with
      | Value.todV h mi s n => some (Scalar.i (timeOfDayToNanos h mi s n))
      | _ => none)
    (fun r => (getFieldVal r idx).listOf)
    hfresh hel
    (forall2_with_mem hpar hconf)) ?_
  have hR := forall2_with_mem hpar hconf
  refine congrArg Except.ok (congrArg₂ Prod.mk ?_ ?_)
  · refine zipWith_congr_forall2 _ _ hR ?_
    intro r q hrq
    obtain ⟨hc, pf, rfl, hidx, hget⟩ := hrq
    obtain ⟨vs, hfv, -⟩ := confField_rep hc
    simp only [hfv]
    rfl
  · refine List.map_congr_left ?_
    intro r _
    rw [show writesField .repeatedC .todT (getFieldVal r idx) =
      !(getFieldVal r idx).listOf.isEmpty from by rw [writesField]]
  all_goals
    first
    | exact fun _ h => Card.noConfusion h
    | exact fun _ h => FieldType.noConfusion h

theorem forall2_map_eq {α β γ : Type} {f : α → γ} {g : β → γ}
    {as : List α} {bs : List β}
    (h : List.Forall₂ (fun a b => g b = f a) as bs) :
    bs.map g = as.map f := by
  induction h with
  | nil => rfl
  | cons hab htl ih => simp [hab, ih]

theorem colsAlign_self (fs : FieldList) (records' : List Value)
    (cfg : ProtarrowConfig) (flds : List (String × Bool × AType))
    (arrays : List AArray) (hnodup : (namesFL fs).Nodup)
    (hF : messageFieldsToArrays fs records' cfg 0 = .ok (flds, arrays)) :
    ColsAlign flds arrays fs arrays := by
  have hfl := messageFieldsToArrays_fields fs records' cfg 0 flds arrays hF
  have hlen2 : flds.length = arrays.length :=
    messageFieldsToArrays_len fs records' cfg 0 flds arrays hF
  have hnames : List.Forall₂
      (fun (fd : String × Card × FieldType) (cf : String × Bool × AType) =>
        cf.1 = fd.1) (fieldsOfFL fs) flds :=
    List.Forall₂.imp (fun _ _ hab => hab.1) hfl
  have hmap : flds.map (fun f => f.1) = namesFL fs := by
    rw [namesFL_fieldsOf]
    exact forall2_map_eq hnames
  have := colsAlign_build fs [] flds [] arrays hnames
    (by
      rw [List.nil_append, hmap]
      exact hnodup)
    rfl
    hlen2
  simpa using this

/-- The induction hypothesis used by the message-typed field branches: the
whole-level round trip for the sub-message descriptor. -/
def LevelIH (cfg : ProtarrowConfig) (fs : FieldList) : Prop :=
  ∀ (records' : List Value) (flds' : List (String × Bool × AType))
    (arrays' : List AArray) (stFields : List (String × Bool × AType))
    (children : List AArray) (parents' : List Value),
    (∀ r ∈ records', ConformsFrom fs 0 r) →
    messageFieldsToArrays fs records' cfg 0 = .ok (flds', arrays') →
    ColsAlign stFields children fs arrays' →
    List.Forall₂ (fun _r q => ∃ pf, q = .msgV pf ∧ FreshFrom fs 0 pf)
      records' parents' →
    extractFieldsLoop stFields children fs 0 parents' =
      .ok (List.zipWith (writeSuffixV fs 0) records' parents',
        records'.map (writesFrom fs 0))

theorem roundField_msg (fs : FieldList) (idx : Nat) (cfg : ProtarrowConfig)
    (records : List Value) (col : AArray) (parents : List Value)
    (hwf : SchemaWfT (.msgT fs))
    (hconf : ∀ r ∈ records,
      ConformsField .singular (.msgT fs) (getFieldVal r idx))
    (henc : protoFieldToArray
      (records.map fun r => (getFieldVal r idx).valueOf) (.msgT fs)
      (protoFieldValidityMask records idx (.msgT fs) .singular) cfg = .ok col)
    (hpar : List.Forall₂ (fun _r q => FreshPar .singular (.msgT fs) idx q)
      records parents)
    (IH : LevelIH cfg fs) :
    extractField col .singular (.msgT fs) idx parents =
      .ok (List.zipWith (fun r q => setFieldVal q idx (getFieldVal r idx))
          records parents,
        records.map fun r =>
          writesField .singular (.msgT fs) (getFieldVal r idx)) := by
  have hwfFL : SchemaWfFL fs := by
    rw [SchemaWfT] at hwf
    exact hwf.2.2
  have hnodup : (namesFL fs).Nodup := by
    rw [SchemaWfT] at hwf
    exact hwf.2.1
  have hdefV : defaultValueOf (.msgT fs) = .msgV (defaultFields fs) := by
    rw [defaultValueOf]
  have hdef : defaultFieldVal .singular (.msgT fs) =
      .single false (.msgV (defaultFields fs)) := by
    rw [defaultFieldVal, hdefV]
    rfl
  rw [show protoFieldValidityMask records idx (.msgT fs) .singular =
    some (records.map fun r => (getFieldVal r idx).presentOf) from rfl] at henc
  rw [protoFieldToArray, messageToArray] at henc
  rw [exceptBind_eq_ok] at henc
  obtain ⟨pr, hF, hcol⟩ := henc
  obtain ⟨flds, arrays⟩ := pr
  have hcol' : (Except.ok (AArray.structA flds arrays
      (some (records.map fun r => (getFieldVal r idx).presentOf))) :
      Except String AArray) = .ok col := hcol
  simp only [Except.ok.injEq] at hcol'
  subst hcol'
  rw [extractField]
  rw [prepareArray_structA]
  simp only [exceptBind_ok]
  rw [extractStructField]
  rw [show arrayIsValid (.structA flds arrays
      (some (records.map fun r => (getFieldVal r idx).presentOf))) =
    records.map (fun r => (getFieldVal r idx).presentOf) from rfl]
  have hsubs : List.zipWith (fun q (vb : Bool) =>
      if vb then (getFieldVal q idx).valueOf else defaultValueOf (.msgT fs))
      parents (records.map fun r => (getFieldVal r idx).presentOf) =
      List.replicate parents.length (defaultValueOf (.msgT fs)) := by
    refine zipWith_const _ ?_ ?_
    · intro q hq vb _
      obtain ⟨r, hr, pf, rfl, hidx, hget⟩ := forall2_mem_right hpar q hq
      cases vb with
      | false => simp
      | true =>
          simp only [if_true]
          rw [show getFieldVal (.msgV pf) idx = pf.getD idx junkField
            from rfl, hget, hdef]
          rfl
    · rw [List.length_map]
      exact (List.Forall₂.length_eq hpar).symm
  rw [hsubs]
  rw [extractArrayMessages]
  have hlen : parents.length = records.length :=
    (List.Forall₂.length_eq hpar).symm
  rw [hlen]
  rw [show (List.replicate records.length (defaultValueOf (.msgT fs))) =
    List.replicate (records.map fun r =>
      (getFieldVal r idx).valueOf).length (defaultValueOf (.msgT fs)) from by
    rw [List.length_map]]
  rw [IH (records.map fun r => (getFieldVal r idx).valueOf) flds arrays
    flds arrays _
    ?hconf2 hF (colsAlign_self fs _ cfg flds arrays hnodup hF)
    ?hfresh2]
  case hconf2 =>
    intro r' hr'
    obtain ⟨r, hr, rfl⟩ := List.mem_map.mp hr'
    have hc := hconf r hr
    obtain ⟨pres, v, hfv⟩ := confField_singular hc
    rw [hfv] at hc
    have hmsg := confField_msg hc
    cases pres with
    | true =>
        obtain ⟨vs, hv, hfl, -⟩ := hmsg.1 rfl
        rw [hfv]
        rw [show FieldVal.valueOf (.single true v) = v from rfl, hv]
        exact conformsFrom_of_FL fs 0 vs (by omega) (by simpa using hfl)
    | false =>
        have hv := hmsg.2 rfl
        rw [hfv]
        rw [show FieldVal.valueOf (.single false v) = v from rfl, hv]
        exact conformsFrom_of_FL fs 0 (defaultFields fs) (by omega)
          (by simpa using conformsFL_default fs hwfFL)
  case hfresh2 =>
    refine forall2_replicate_right ?_
    intro r' _
    refine ⟨defaultFields fs, hdefV, ?_⟩
    have := freshFrom_default fs []
    simpa using this
  simp only [exceptBind_ok]
  rw [zipWith_replicate_right]
  simp only [List.map_map]
  have hR := forall2_with_mem hpar hconf
  refine congrArg Except.ok (congrArg₂ Prod.mk ?_ ?_)
  · refine Eq.trans
      (writeBackStruct_round
        (fun r => (getFieldVal r idx).presentOf)
        (fun r => writeSuffixV fs 0 ((getFieldVal r idx).valueOf)
          (defaultValueOf (.msgT fs)))
        (fun r => writesFrom fs 0 ((getFieldVal r idx).valueOf))
        (fun r q => setFieldVal q idx (getFieldVal r idx))
        ?hstep hR) rfl
    case hstep =>
      intro r q hrq
      obtain ⟨hc, pf, rfl, hidx, hget⟩ := hrq
      obtain ⟨pres, v, hfv⟩ := confField_singular hc
      rw [hfv] at hc
      have hmsg := confField_msg hc
      have hqget : getFieldVal (.msgV pf) idx =
          .single false (.msgV (defaultFields fs)) := by
        rw [show getFieldVal (.msgV pf) idx = pf.getD idx junkField from rfl,
          hget, hdef]
      cases pres with
      | true =>
          obtain ⟨vs, hv, hfl, hwb⟩ := hmsg.1 rfl
          subst hv
          have hws : writesFrom fs 0 (Value.msgV vs) = true := by
            rw [show writesFrom fs 0 (Value.msgV vs) =
              writesBack (.msgT fs) (.msgV vs) from by rw [writesBack]]
            exact hwb
          constructor
          · intro _
            simp only [hfv, FieldVal.valueOf, hqget, FieldVal.presentOf,
              hdefV, hws, Bool.false_or]
            rw [writeSuffixV_splice fs 0 vs (defaultFields fs)
              (by
                rw [defaultFields_length, ← ConformsFL_length fs vs hfl])
              (by
                rw [← ConformsFL_length fs vs hfl]
                omega)
              (fun j hj => absurd hj (by omega))]
          · intro hcontra
            simp [hfv, FieldVal.presentOf] at hcontra
      | false =>
          have hv := hmsg.2 rfl
          subst hv
          constructor
          · intro hcontra
            simp [hfv, FieldVal.presentOf] at hcontra
          · intro _
            simp only [hfv]
            exact set_default_self hidx hget _ hdef.symm
  · rw [zipWith_same_map]
    refine List.map_congr_left ?_
    intro r _
    rw [show writesField .singular (.msgT fs) (getFieldVal r idx) =
      ((getFieldVal r idx).presentOf &&
        writesBack (.msgT fs) (getFieldVal r idx).valueOf) from by
      rw [writesField]]
    rw [show writesBack (.msgT fs) (getFieldVal r idx).valueOf =
      writesFrom fs 0 (getFieldVal r idx).valueOf from by rw [writesBack]]
    rfl

theorem roundField_rep_msg (fs : FieldList) (idx : Nat)
    (cfg : ProtarrowConfig) (records : List Value) (col : AArray)
    (parents : List Value) (hwf : SchemaWfT (.msgT fs))
    (hconf : ∀ r ∈ records,
      ConformsField .repeatedC (.msgT fs) (getFieldVal r idx))
    (henc : repeatedProtoToArray
      (records.map fun r => (getFieldVal r idx).listOf) (.msgT fs) cfg =
        .ok col)
    (hpar : List.Forall₂ (fun _r q => FreshPar .repeatedC (.msgT fs) idx q)
      records parents)
    (IH : LevelIH cfg fs) :
    extractField col .repeatedC (.msgT fs) idx parents =
      .ok (List.zipWith (fun r q => setFieldVal q idx (getFieldVal r idx))
          records parents,
        records.map fun r =>
          writesField .repeatedC (.msgT fs) (getFieldVal r idx)) := by
  have hwfFL : SchemaWfFL fs := by
    rw [SchemaWfT] at hwf
    exact hwf.2.2
  have hnodup : (namesFL fs).Nodup := by
    rw [SchemaWfT] at hwf
    exact hwf.2.1
  have hdefV : defaultValueOf (.msgT fs) = .msgV (defaultFields fs) := by
    rw [defaultValueOf]
  rw [repeatedProtoToArray] at henc
  rw [exceptBind_eq_ok] at henc
  obtain ⟨child, hchild, hcol⟩ := henc
  have hcol' : (Except.ok (AArray.listA (isMessageKind (.msgT fs))
      (getOffsets ((records.map fun r => (getFieldVal r idx).listOf).map
        some)) child) : Except String AArray) = .ok col := hcol
  simp only [Except.ok.injEq] at hcol'
  subst hcol'
  have hchild2 := hchild
  rw [protoFieldToArray, messageToArray] at hchild2
  rw [exceptBind_eq_ok] at hchild2
  obtain ⟨pr, hF, hst⟩ := hchild2
  obtain ⟨flds, arrays⟩ := pr
  have hst' : (Except.ok (AArray.structA flds arrays none) :
      Except String AArray) = .ok child := hst
  simp only [Except.ok.injEq] at hst'
  subst hst'
  have halen := (protoFieldToArray_shape _ (.msgT fs) none cfg _
    (schemaWf_msgNonempty _ hwf) hchild).1
  rw [extractField]
  rw [prepareArray_listA]
  simp only [exceptBind_ok]
  rw [extractRepeatedField]
  rw [extractRepeatedMessage]
  rw [offsetToSize_getOffsets]
  simp only [exceptBind_ok]
  have hfresh : ∀ r q,
      (ConformsField .repeatedC (.msgT fs) (getFieldVal r idx) ∧
        FreshPar .repeatedC (.msgT fs) idx q) →
      (getFieldVal q idx).listOf = [] := by
    intro r q hrq
    obtain ⟨hc, pf, rfl, hidx, hget⟩ := hrq
    rw [show getFieldVal (.msgV pf) idx = pf.getD idx junkField from rfl,
      hget]
    rfl
  have hR := forall2_with_mem hpar hconf
  have hbudget : (records.map fun r =>
      ((fun r => (getFieldVal r idx).listOf) r).length).sum ≤
      alen (.structA flds arrays none) := by
    rw [halen, List.length_flatten, List.map_map]
    exact le_of_eq rfl
  rw [show ((records.map fun r => (getFieldVal r idx).listOf).map
      fun g => ((g.length : Int))) =
    records.map (fun r =>
      (((fun r => (getFieldVal r idx).listOf) r).length : Int)) from by
    rw [List.map_map]
    rfl]
  rw [extendDefaults_exact (defaultValueOf (.msgT fs)) idx
    (fun r => (getFieldVal r idx).listOf) hfresh hR _ hbudget]
  simp only []
  -- the per-parent lists after the default extension
  have hlists : (List.zipWith (fun r q => setFieldVal q idx
      (.rep (List.replicate ((getFieldVal r idx).listOf).length
        (defaultValueOf (.msgT fs))))) records parents).map
      (fun p => (getFieldVal p idx).listOf) =
      records.map (fun r =>
        List.replicate ((getFieldVal r idx).listOf).length
          (defaultValueOf (.msgT fs))) := by
    refine map_zipWith_forall2 _ _ _ hR ?_
    intro r q hrq
    obtain ⟨hc, pf, rfl, hidx, hget⟩ := hrq
    show (getFieldVal (setFieldVal (.msgV pf) idx
        (FieldVal.rep (List.replicate ((getFieldVal r idx).listOf).length
          (defaultValueOf (.msgT fs))))) idx).listOf = _
    rw [getFieldVal_set_self pf idx _ hidx]
    rfl
  rw [hlists]
  rw [show (records.map (fun r =>
      List.replicate ((getFieldVal r idx).listOf).length
        (defaultValueOf (.msgT fs)))).flatten =
    List.replicate ((records.map fun r =>
      (getFieldVal r idx).listOf).flatten).length
      (defaultValueOf (.msgT fs)) from by
    rw [show (records.map (fun r =>
        List.replicate ((getFieldVal r idx).listOf).length
          (defaultValueOf (.msgT fs)))) =
      ((records.map fun r => ((getFieldVal r idx).listOf).length).map
        (fun n => List.replicate n (defaultValueOf (.msgT fs)))) from by
      rw [List.map_map]
      rfl]
    rw [flatten_map_replicate, List.length_flatten, List.map_map]
    rfl]
  rw [extractArrayMessages]
  rw [IH ((records.map fun r => (getFieldVal r idx).listOf).flatten)
    flds arrays flds arrays _
    ?hconf2 hF (colsAlign_self fs _ cfg flds arrays hnodup hF)
    ?hfresh2]
  case hconf2 =>
    intro v hv
    obtain ⟨g, hg, hvg⟩ := List.mem_flatten.mp hv
    obtain ⟨r, hr, rfl⟩ := List.mem_map.mp hg
    obtain ⟨vs, hfv, hels⟩ := confField_rep (hconf r hr)
    rw [hfv] at hvg
    have hv' : v ∈ vs := hvg
    obtain ⟨ws, rfl, hfl⟩ := conforms_msg (hels v hv')
    exact conformsFrom_of_FL fs 0 ws (by omega) (by simpa using hfl)
  case hfresh2 =>
    refine forall2_replicate_right ?_
    intro v _
    refine ⟨defaultFields fs, hdefV, ?_⟩
    have := freshFrom_default fs []
    simpa using this
  simp only [exceptBind_ok]
  rw [zipWith_replicate_right]
  have hid : ((records.map fun r => (getFieldVal r idx).listOf).flatten).map
      (fun v => writeSuffixV fs 0 v (defaultValueOf (.msgT fs))) =
      (records.map fun r => (getFieldVal r idx).listOf).flatten := by
    refine Eq.trans (List.map_congr_left ?_) (List.map_id _)
    intro v hv
    obtain ⟨g, hg, hvg⟩ := List.mem_flatten.mp hv
    obtain ⟨r, hr, rfl⟩ := List.mem_map.mp hg
    obtain ⟨vs, hfv, hels⟩ := confField_rep (hconf r hr)
    rw [hfv] at hvg
    have hv' : v ∈ vs := hvg
    obtain ⟨ws, rfl, hfl⟩ := conforms_msg (hels v hv')
    rw [hdefV]
    exact writeSuffixV_splice fs 0 ws (defaultFields fs)
      (by rw [defaultFields_length, ← ConformsFL_length fs ws hfl])
      (by
        rw [← ConformsFL_length fs ws hfl]
        omega)
      (fun j hj => absurd hj (by omega))
  rw [hid]
  have hlens : (List.zipWith (fun r q => setFieldVal q idx
      (.rep (List.replicate ((getFieldVal r idx).listOf).length
        (defaultValueOf (.msgT fs))))) records parents).map
      (fun p => (getFieldVal p idx).listOf.length) =
      records.map (fun r => ((getFieldVal r idx).listOf).length) := by
    refine map_zipWith_forall2 _ _ _ hR ?_
    intro r q hrq
    obtain ⟨hc, pf, rfl, hidx, hget⟩ := hrq
    show (getFieldVal (setFieldVal (.msgV pf) idx
        (FieldVal.rep (List.replicate ((getFieldVal r idx).listOf).length
          (defaultValueOf (.msgT fs))))) idx).listOf.length = _
    rw [getFieldVal_set_self pf idx _ hidx]
    simp [FieldVal.listOf]
  rw [hlens]
  rw [show (records.map (fun r => ((getFieldVal r idx).listOf).length)) =
    ((records.map fun r => (getFieldVal r idx).listOf).map List.length)
    from by
      rw [List.map_map]
      rfl]
  rw [redistribute_flatten]
  rw [writeBackLists_round idx _ _ (by
    rw [List.length_zipWith, List.length_map,
      List.Forall₂.length_eq hpar, Nat.min_self])]
  rw [zipWith_zip_map]
  refine congrArg Except.ok (congrArg₂ Prod.mk ?_ ?_)
  · refine zipWith_congr_forall2 _ _ hR ?_
    intro r q hrq
    obtain ⟨hc, pf, rfl, hidx, hget⟩ := hrq
    obtain ⟨vs, hfv, -⟩ := confField_rep hc
    rw [setFieldVal_setFieldVal]
    simp only [hfv]
    rfl
  · rw [List.map_map, List.map_map]
    refine List.map_congr_left ?_
    intro r _
    simp only [Function.comp_apply, decide_pos_length]
    rw [show writesField .repeatedC (.msgT fs) (getFieldVal r idx) =
      !(getFieldVal r idx).listOf.isEmpty from by rw [writesField]]
  all_goals exact fun _ h => Card.noConfusion h

theorem forall2_map_left {α β γ : Type} {R : β → γ → Prop} (f : α → β)
    {as : List α} {cs : List γ}
    (h : List.Forall₂ (fun a c => R (f a) c) as cs) :
    List.Forall₂ R (as.map f) cs := by
  induction h with
  | nil => exact List.Forall₂.nil
  | cons hab _ ih => exact List.Forall₂.cons hab ih

theorem mapKeysColumn (k : PrimKind) (cfg : ProtarrowConfig)
    (groups : List (List (Scalar × Value))) :
    protoFieldToArray
        ((groups.map fun es => es.map fun e => Value.primV e.1).flatten)
        (.prim k) none cfg =
      .ok (.flat (primPa k)
        (((groups.map fun es => es.map fun e => Value.primV e.1).flatten).map
          primPayload)) := by
  rw [protoFieldToArray]
  rw [maskedElems_none (f := primPayload) (fun r _ => rfl)]
  rfl

theorem roundField_map_prim (k p : PrimKind) (idx : Nat)
    (cfg : ProtarrowConfig) (records : List Value) (col : AArray)
    (parents : List Value)
    (hconf : ∀ r ∈ records,
      ConformsField (.mapC k) (.prim p) (getFieldVal r idx))
    (henc : protoMapToArray
      (records.map fun r => (getFieldVal r idx).entriesOf) k (.prim p) cfg =
        .ok col)
    (hpar : List.Forall₂ (fun _r q => FreshPar (.mapC k) (.prim p) idx q)
      records parents) :
    extractField col (.mapC k) (.prim p) idx parents =
      .ok (List.zipWith (fun r q => setFieldVal q idx (getFieldVal r idx))
          records parents,
        records.map fun r =>
          writesField (.mapC k) (.prim p) (getFieldVal r idx)) := by
  rw [protoMapToArray, mapKeysColumn] at henc
  simp only [exceptBind_ok] at henc
  rw [protoFieldToArray] at henc
  rw [maskedElems_none (f := primPayload) (fun r _ => rfl)] at henc
  simp only [exceptBind_ok, Except.ok.injEq] at henc
  subst henc
  rw [extractField]
  rw [prepareArray_mapA]
  simp only [exceptBind_ok]
  rw [extractRepeatedField]
  rw [extractMapField]
  rw [show getConverter (.prim p) = .ok convertScalar from rfl]
  simp only [exceptBind_ok]
  rw [offsetToSize_getOffsets]
  simp only [exceptBind_ok, prepareArray_primPa]
  simp only [elements, List.map_map, List.map_flatten]
  rw [map_comp_fuse3, map_comp_fuse3]
  have hR := forall2_with_mem hpar hconf
  refine Eq.trans (mapItemLoop_round (fun _ => primPa k)
    (fun e => ((primPa p : AType), primPayload e.2))
    (fun e => .scalar ((primPayload e.2).getD (.i 0)))
    (fun r => (getFieldVal r idx).entriesOf)
    ?hR hR) ?_
  case hR =>
    intro r q hrq
    obtain ⟨hc, pf, rfl, hidx, hget⟩ := hrq
    obtain ⟨es, hfv, hels, hnd⟩ := confField_map hc
    refine ⟨⟨pf, rfl, hidx, hget⟩, by simp only [hfv]; exact hnd, ?_, ?_⟩
    · intro e he
      simp only [hfv] at he
      have he' : e ∈ es := he
      obtain ⟨-, hcv⟩ := hels e he'
      obtain ⟨s, hs, -⟩ := conforms_prim hcv
      obtain ⟨ek, ev⟩ := e
      simp only at hs
      subst hs
      exact ⟨rfl, rfl⟩
    · intro e he cur hcur
      simp only [hfv] at he
      have he' : e ∈ es := he
      obtain ⟨-, hcv⟩ := hels e he'
      obtain ⟨s, hs, -⟩ := conforms_prim hcv
      obtain ⟨ek, ev⟩ := e
      simp only at hs
      subst hs
      show directAssign (.prim p) cur ek (some (.scalar s)) = _
      rw [directAssign]
      simp only [assignScalar, exceptBind_ok]
      rw [assocSet_notin cur ek (.primV s) hcur]
  refine congrArg Except.ok (congrArg₂ Prod.mk ?_ ?_)
  · refine zipWith_congr_forall2 _ _ hR ?_
    intro r q hrq
    obtain ⟨hc, pf, rfl, hidx, hget⟩ := hrq
    obtain ⟨es, hfv, -, -⟩ := confField_map hc
    simp only [hfv]
    rfl
  · refine List.map_congr_left ?_
    intro r _
    rw [show writesField (.mapC k) (.prim p) (getFieldVal r idx) =
      !(getFieldVal r idx).entriesOf.isEmpty from by rw [writesField]]
  all_goals
    first
    | exact fun _ h => Card.noConfusion h
    | exact fun _ h => FieldType.noConfusion h

theorem map_comp_fuse4 {α β γ δ ε ζ : Type} (f : δ → ε) (g : γ → δ)
    (h : β → γ) (i : α → β) (grp : ζ → List α) (records : List ζ) :
    List.map ((List.map f) ∘ (List.map g) ∘ (List.map h) ∘ (List.map i) ∘ grp)
        records =
      List.map (fun r => List.map (f ∘ g ∘ h ∘ i) (grp r)) records := by
  refine List.map_congr_left ?_
  intro r _
  simp [List.map_map]

theorem roundField_map_enum (k : PrimKind) (vals : List (Int × String))
    (idx : Nat) (cfg : ProtarrowConfig) (records : List Value) (col : AArray)
    (parents : List Value) (hcfg : CfgOk cfg)
    (hwf : SchemaWfT (.enumT vals))
    (hconf : ∀ r ∈ records,
      ConformsField (.mapC k) (.enumT vals) (getFieldVal r idx))
    (henc : protoMapToArray
      (records.map fun r => (getFieldVal r idx).entriesOf) k (.enumT vals)
        cfg = .ok col)
    (hpar : List.Forall₂ (fun _r q => FreshPar (.mapC k) (.enumT vals) idx q)
      records parents) :
    extractField col (.mapC k) (.enumT vals) idx parents =
      .ok (List.zipWith (fun r q => setFieldVal q idx (getFieldVal r idx))
          records parents,
        records.map fun r =>
          writesField (.mapC k) (.enumT vals) (getFieldVal r idx)) := by
  have hnames : (vals.map Prod.snd).Nodup := by
    rw [SchemaWfT] at hwf
    exact hwf.2.1
  rw [protoMapToArray, mapKeysColumn] at henc
  simp only [exceptBind_ok] at henc
  rw [protoFieldToArray, getEnumConverter_cfg cfg hcfg vals] at henc
  simp only [exceptBind_ok] at henc
  rw [maskedElems_none (f := fun v =>
    match v with
    | Value.enumV n =>
        (match lookupNumber vals n with
         | some nm => some (Scalar.s nm)
         | none => none)
    | _ => none) ?hconv] at henc
  case hconv =>
    intro v hv
    obtain ⟨g, hg, hvg⟩ := List.mem_flatten.mp hv
    obtain ⟨es0, hes0, rfl⟩ := List.mem_map.mp hg
    obtain ⟨r, hr, rfl⟩ := List.mem_map.mp hes0
    obtain ⟨e, he, rfl⟩ := List.mem_map.mp hvg
    obtain ⟨es, hfv, hels, -⟩ := confField_map (hconf r hr)
    simp only [hfv] at he
    have he' : e ∈ es := he
    obtain ⟨-, hcv⟩ := hels e he'
    obtain ⟨n, hn, hsome⟩ := conforms_enum hcv
    obtain ⟨nm, hnm⟩ := Option.isSome_iff_exists.mp hsome
    rw [hn]
    simp [hnm, Except.map]
  simp only [exceptBind_ok, Except.ok.injEq] at henc
  subst henc
  rw [extractField]
  rw [prepareArray_mapA]
  simp only [exceptBind_ok]
  rw [extractRepeatedField]
  rw [extractMapField]
  rw [show getConverter (.enumT vals) = .ok (fun e =>
    .ok (match e.2 with
      | some (Scalar.s nm) => (lookupName vals nm).map fun n =>
          PyVal.scalar (.i n)
      | _ => none)) from rfl]
  simp only [exceptBind_ok]
  rw [offsetToSize_getOffsets]
  simp only [exceptBind_ok]
  rw [prepareArray_enumCfg cfg hcfg]
  simp only [exceptBind_ok]
  simp only [elements, List.map_map, List.map_flatten]
  rw [map_comp_fuse3, map_comp_fuse3]
  have hR := forall2_with_mem hpar hconf
  refine Eq.trans (mapItemLoop_round (fun _ => primPa k)
    (fun e => ((cfg.enumType : AType),
      match e.2 with
      | Value.enumV n =>
          (match lookupNumber vals n with
           | some nm => some (Scalar.s nm)
           | none => none)
      | _ => none))
    (fun e => PyVal.scalar (.i (match e.2 with
      | Value.enumV n => n
      | _ => 0)))
    (fun r => (getFieldVal r idx).entriesOf)
    ?hR hR) ?_
  case hR =>
    intro r q hrq
    obtain ⟨hc, pf, rfl, hidx, hget⟩ := hrq
    obtain ⟨es, hfv, hels, hnd⟩ := confField_map hc
    refine ⟨⟨pf, rfl, hidx, hget⟩, by simp only [hfv]; exact hnd, ?_, ?_⟩
    · intro e he
      simp only [hfv] at he
      have he' : e ∈ es := he
      obtain ⟨-, hcv⟩ := hels e he'
      obtain ⟨n, hn, hsome⟩ := conforms_enum hcv
      obtain ⟨nm, hnm⟩ := Option.isSome_iff_exists.mp hsome
      obtain ⟨ek, ev⟩ := e
      simp only at hn
      subst hn
      constructor
      · simp [hnm]
      · simp only [hnm]
        rw [lookupName_of_number vals hnames n nm hnm]
        rfl
    · intro e he cur hcur
      simp only [hfv] at he
      have he' : e ∈ es := he
      obtain ⟨-, hcv⟩ := hels e he'
      obtain ⟨n, hn, -⟩ := conforms_enum hcv
      obtain ⟨ek, ev⟩ := e
      simp only at hn
      subst hn
      show directAssign (.enumT vals) cur ek (some (.scalar (.i n))) = _
      rw [directAssign]
      simp only [assignScalar, exceptBind_ok]
      rw [assocSet_notin cur ek (.enumV n) hcur]
  refine congrArg Except.ok (congrArg₂ Prod.mk ?_ ?_)
  · refine zipWith_congr_forall2 _ _ hR ?_
    intro r q hrq
    obtain ⟨hc, pf, rfl, hidx, hget⟩ := hrq
    obtain ⟨es, hfv, -, -⟩ := confField_map hc
    simp only [hfv]
    rfl
  · refine List.map_congr_left ?_
    intro r _
    rw [show writesField (.mapC k) (.enumT vals) (getFieldVal r idx) =
      !(getFieldVal r idx).entriesOf.isEmpty from by rw [writesField]]
  all_goals
    first
    | exact fun _ h => Card.noConfusion h
    | exact fun _ h => FieldType.noConfusion h

theorem roundField_map_ts (k : PrimKind) (idx : Nat) (cfg : ProtarrowConfig)
    (records : List Value) (col : AArray) (parents : List Value)
    (hconf : ∀ r ∈ records,
      ConformsField (.mapC k) .tsT (getFieldVal r idx))
    (henc : protoMapToArray
      (records.map fun r => (getFieldVal r idx).entriesOf) k .tsT cfg =
        .ok col)
    (hpar : List.Forall₂ (fun _r q => FreshPar (.mapC k) .tsT idx q)
      records parents) :
    extractField col (.mapC k) .tsT idx parents =
      .ok (List.zipWith (fun r q => setFieldVal q idx (getFieldVal r idx))
          records parents,
        records.map fun r =>
          writesField (.mapC k) .tsT (getFieldVal r idx)) := by
  rw [protoMapToArray, mapKeysColumn] at henc
  simp only [exceptBind_ok] at henc
  rw [protoFieldToArray_ts] at henc
  rw [maskedElems_none (f := fun v =>
    match v with
    | Value.tsV sec nanos => some (Scalar.i (sec * 1000000000 + nanos))
    | _ => none) (fun r _ => rfl)] at henc
  simp only [exceptBind_ok, Except.ok.injEq] at henc
  subst henc
  rw [extractField]
  rw [prepareArray_mapA]
  simp only [exceptBind_ok]
  rw [extractRepeatedField]
  rw [extractMapField]
  rw [show getConverter .tsT = .ok (fun e =>
    (timestampScalarToProto e.1 e.2).map fun v => some (.msgVal v))
    from rfl]
  simp only [exceptBind_ok]
  rw [offsetToSize_getOffsets]
  simp only [exceptBind_ok, prepareArray_flat_ts]
  simp only [elements, List.map_map, List.map_flatten]
  rw [map_comp_fuse3, map_comp_fuse3]
  have hR := forall2_with_mem hpar hconf
  refine Eq.trans (mapItemLoop_round (fun _ => primPa k)
    (fun e => ((paTimestampType : AType),
      match e.2 with
      | Value.tsV sec nanos => some (Scalar.i (sec * 1000000000 + nanos))
      | _ => none))
    (fun e => PyVal.msgVal e.2)
    (fun r => (getFieldVal r idx).entriesOf)
    ?hR hR) ?_
  case hR =>
    intro r q hrq
    obtain ⟨hc, pf, rfl, hidx, hget⟩ := hrq
    obtain ⟨es, hfv, hels, hnd⟩ := confField_map hc
    refine ⟨⟨pf, rfl, hidx, hget⟩, by simp only [hfv]; exact hnd, ?_, ?_⟩
    · intro e he
      simp only [hfv] at he
      have he' : e ∈ es := he
      obtain ⟨-, hcv⟩ := hels e he'
      obtain ⟨sec, ns, hn, hn0, hn1⟩ := conforms_ts hcv
      obtain ⟨ek, ev⟩ := e
      simp only at hn
      subst hn
      refine ⟨rfl, ?_⟩
      show (timestampScalarToProto paTimestampType
        (some (Scalar.i (sec * 1000000000 + ns)))).map
          (fun v => some (PyVal.msgVal v)) = _
      rw [ts_codec sec ns hn0 hn1]
      rfl
    · intro e he cur hcur
      simp only [hfv] at he
      have he' : e ∈ es := he
      obtain ⟨-, hcv⟩ := hels e he'
      obtain ⟨sec, ns, hn, -, -⟩ := conforms_ts hcv
      obtain ⟨ek, ev⟩ := e
      simp only at hn
      subst hn
      show mergeAssign .tsT cur ek (some (.msgVal (.tsV sec ns))) = _
      rw [mergeAssign]
      rw [show (defaultValueOf .tsT) = Value.tsV 0 0 from rfl]
      rw [assocReserve_notin cur ek (.tsV 0 0) hcur]
      simp only []
      rw [mergeSpecial_ts sec ns]
      rw [assocSet_append_cons cur ek (.tsV 0 0) (.tsV sec ns) [] hcur]
  refine congrArg Except.ok (congrArg₂ Prod.mk ?_ ?_)
  · refine zipWith_congr_forall2 _ _ hR ?_
    intro r q hrq
    obtain ⟨hc, pf, rfl, hidx, hget⟩ := hrq
    obtain ⟨es, hfv, -, -⟩ := confField_map hc
    simp only [hfv]
    rfl
  · refine List.map_congr_left ?_
    intro r _
    rw [show writesField (.mapC k) .tsT (getFieldVal r idx) =
      !(getFieldVal r idx).entriesOf.isEmpty from by rw [writesField]]
  all_goals
    first
    | exact fun _ h => Card.noConfusion h
    | exact fun _ h => FieldType.noConfusion h

theorem roundField_map_date (k : PrimKind) (idx : Nat) (cfg : ProtarrowConfig)
    (records : List Value) (col : AArray) (parents : List Value)
    (hconf : ∀ r ∈ records,
      ConformsField (.mapC k) .dateT (getFieldVal r idx))
    (henc : protoMapToArray
      (records.map fun r => (getFieldVal r idx).entriesOf) k .dateT cfg =
        .ok col)
    (hpar : List.Forall₂ (fun _r q => FreshPar (.mapC k) .dateT idx q)
      records parents) :
    extractField col (.mapC k) .dateT idx parents =
      .ok (List.zipWith (fun r q => setFieldVal q idx (getFieldVal r idx))
          records parents,
        records.map fun r =>
          writesField (.mapC k) .dateT (getFieldVal r idx)) := by
  rw [protoMapToArray, mapKeysColumn] at henc
  simp only [exceptBind_ok] at henc
  rw [protoFieldToArray_date] at henc
  rw [maskedElems_none (f := fun v =>
    match v with
    | Value.dateV y m d => if y = 0 then none else some (Scalar.date y m d)
    | _ => none) (fun r _ => rfl)] at henc
  simp only [exceptBind_ok, Except.ok.injEq] at henc
  subst henc
  rw [extractField]
  rw [prepareArray_mapA]
  simp only [exceptBind_ok]
  rw [extractRepeatedField]
  rw [extractMapField]
  rw [show getConverter .dateT = .ok (fun e =>
    (dateScalarToProto e.2).map fun v => some (.msgVal v)) from rfl]
  simp only [exceptBind_ok]
  rw [offsetToSize_getOffsets]
  simp only [exceptBind_ok, prepareArray_flat_date]
  simp only [elements, List.map_map, List.map_flatten]
  rw [map_comp_fuse3, map_comp_fuse3]
  have hR := forall2_with_mem hpar hconf
  refine Eq.trans (mapItemLoop_round (fun _ => primPa k)
    (fun e => ((AType.date32T : AType),
      match e.2 with
      | Value.dateV y m d => if y = 0 then none else some (Scalar.date y m d)
      | _ => none))
    (fun e => PyVal.msgVal e.2)
    (fun r => (getFieldVal r idx).entriesOf)
    ?hR hR) ?_
  case hR =>
    intro r q hrq
    obtain ⟨hc, pf, rfl, hidx, hget⟩ := hrq
    obtain ⟨es, hfv, hels, hnd⟩ := confField_map hc
    refine ⟨⟨pf, rfl, hidx, hget⟩, by simp only [hfv]; exact hnd, ?_, ?_⟩
    · intro e he
      simp only [hfv] at he
      have he' : e ∈ es := he
      obtain ⟨-, hcv⟩ := hels e he'
      obtain ⟨y, m, d, hn, hy1, hy2, hm1, hm2, hd1, hd2⟩ := conforms_date hcv
      obtain ⟨ek, ev⟩ := e
      simp only at hn
      subst hn
      constructor
      · show (if y = 0 then (none : Option Scalar)
          else some (Scalar.date y m d)).isSome = true
        rw [if_neg (by omega : ¬ y = 0)]
        rfl
      · show (dateScalarToProto
          (if y = 0 then (none : Option Scalar)
            else some (Scalar.date y m d))).map
            (fun v => some (PyVal.msgVal v)) = _
        rw [if_neg (by omega : ¬ y = 0)]
        rfl
    · intro e he cur hcur
      simp only [hfv] at he
      have he' : e ∈ es := he
      obtain ⟨-, hcv⟩ := hels e he'
      obtain ⟨y, m, d, hn, -, -, -, -, -, -⟩ := conforms_date hcv
      obtain ⟨ek, ev⟩ := e
      simp only at hn
      subst hn
      show mergeAssign .dateT cur ek (some (.msgVal (.dateV y m d))) = _
      rw [mergeAssign]
      rw [show (defaultValueOf .dateT) = Value.dateV 0 0 0 from rfl]
      rw [assocReserve_notin cur ek (.dateV 0 0 0) hcur]
      simp only []
      rw [mergeSpecial_date y m d]
      rw [assocSet_append_cons cur ek (.dateV 0 0 0) (.dateV y m d) [] hcur]
  refine congrArg Except.ok (congrArg₂ Prod.mk ?_ ?_)
  · refine zipWith_congr_forall2 _ _ hR ?_
    intro r q hrq
    obtain ⟨hc, pf, rfl, hidx, hget⟩ := hrq
    obtain ⟨es, hfv, -, -⟩ := confField_map hc
    simp only [hfv]
    rfl
  · refine List.map_congr_left ?_
    intro r _
    rw [show writesField (.mapC k) .dateT (getFieldVal r idx) =
      !(getFieldVal r idx).entriesOf.isEmpty from by rw [writesField]]
  all_goals
    first
    | exact fun _ h => Card.noConfusion h
    | exact fun _ h => FieldType.noConfusion h

theorem roundField_map_tod (k : PrimKind) (idx : Nat) (cfg : ProtarrowConfig)
    (records : List Value) (col : AArray) (parents : List Value)
    (hconf : ∀ r ∈ records,
      ConformsField (.mapC k) .todT (getFieldVal r idx))
    (henc : protoMapToArray
      (records.map fun r => (getFieldVal r idx).entriesOf) k .todT cfg =
        .ok col)
    (hpar : List.Forall₂ (fun _r q => FreshPar (.mapC k) .todT idx q)
      records parents) :
    extractField col (.mapC k) .todT idx parents =
      .ok (List.zipWith (fun r q => setFieldVal q idx (getFieldVal r idx))
          records parents,
        records.map fun r =>
          writesField (.mapC k) .todT (getFieldVal r idx)) := by
  rw [protoMapToArray, mapKeysColumn] at henc
  simp only [exceptBind_ok] at henc
  rw [protoFieldToArray_tod] at henc
  rw [maskedElems_none (f := fun v =>
    match v with
    | Value.todV h mi s n => some (Scalar.i (timeOfDayToNanos h mi s n))
    | _ => none) (fun r _ => rfl)] at henc
  simp only [exceptBind_ok, Except.ok.injEq] at henc
  subst henc
  rw [extractField]
  rw [prepareArray_mapA]
  simp only [exceptBind_ok]
  rw [extractRepeatedField]
  rw [extractMapField]
  rw [show getConverter .todT = .ok (fun e =>
    (timeOfDayScalarToProto e.2).map fun v => some (.msgVal v)) from rfl]
  simp only [exceptBind_ok]
  rw [offsetToSize_getOffsets]
  simp only [exceptBind_ok]
  rw [prepareArray_time]
  simp only [exceptBind_ok]
  simp only [elements, List.map_map, List.map_flatten]
  rw [map_comp_fuse3, map_comp_fuse4]
  have hR := forall2_with_mem hpar hconf
  refine Eq.trans (mapItemLoop_round (fun _ => primPa k)
    (fun e => ((AType.int64T : AType),
      Option.map (fun s =>
        match s with
        | Scalar.i n => Scalar.i (n * 1)
        | x => x)
      (match e.2 with
        | Value.todV h mi s n => some (Scalar.i (timeOfDayToNanos h mi s n))
        | _ => none)))
    (fun e => PyVal.msgVal e.2)
    (fun r => (getFieldVal r idx).entriesOf)
    ?hR hR) ?_
  case hR =>
    intro r q hrq
    obtain ⟨hc, pf, rfl, hidx, hget⟩ := hrq
    obtain ⟨es, hfv, hels, hnd⟩ := confField_map hc
    refine ⟨⟨pf, rfl, hidx, hget⟩, by simp only [hfv]; exact hnd, ?_, ?_⟩
    · intro e he
      simp only [hfv] at he
      have he' : e ∈ es := he
      obtain ⟨-, hcv⟩ := hels e he'
      obtain ⟨hh, mi, s, n, hn, b1, b2, b3, b4, b5, b6, b7, b8⟩ :=
        conforms_tod hcv
      obtain ⟨ek, ev⟩ := e
      simp only at hn
      subst hn
      refine ⟨rfl, ?_⟩
      show (timeOfDayScalarToProto
        (some (Scalar.i (timeOfDayToNanos hh mi s n * 1)))).map
          (fun v => some (PyVal.msgVal v)) = _
      rw [tod_codec hh mi s n b1 b2 b3 b4 b5 b6 b7 b8]
      rfl
    · intro e he cur hcur
      simp only [hfv] at he
      have he' : e ∈ es := he
      obtain ⟨-, hcv⟩ := hels e he'
      obtain ⟨hh, mi, s, n, hn, -, -, -, -, -, -, -, -⟩ := conforms_tod hcv
      obtain ⟨ek, ev⟩ := e
      simp only at hn
      subst hn
      show mergeAssign .todT cur ek (some (.msgVal (.todV hh mi s n))) = _
      rw [mergeAssign]
      rw [show (defaultValueOf .todT) = Value.todV 0 0 0 0 from rfl]
      rw [assocReserve_notin cur ek (.todV 0 0 0 0) hcur]
      simp only []
      rw [mergeSpecial_tod hh mi s n]
      rw [assocSet_append_cons cur ek (.todV 0 0 0 0) (.todV hh mi s n) []
        hcur]
  refine congrArg Except.ok (congrArg₂ Prod.mk ?_ ?_)
  · refine zipWith_congr_forall2 _ _ hR ?_
    intro r q hrq
    obtain ⟨hc, pf, rfl, hidx, hget⟩ := hrq
    obtain ⟨es, hfv, -, -⟩ := confField_map hc
    simp only [hfv]
    rfl
  · refine List.map_congr_left ?_
    intro r _
    rw [show writesField (.mapC k) .todT (getFieldVal r idx) =
      !(getFieldVal r idx).entriesOf.isEmpty from by rw [writesField]]
  all_goals
    first
    | exact fun _ h => Card.noConfusion h
    | exact fun _ h => FieldType.noConfusion h

theorem zipWith_map_zip {α β γ δ ε : Type} (f : δ → γ → ε) (g : α → β → γ)
    (h : α → δ) (as : List α) (bs : List β) :
    List.zipWith f (as.map h) (List.zipWith g as bs) =
      List.zipWith (fun a b => f (h a) (g a b)) as bs := by
  induction as generalizing bs with
  | nil => rfl
  | cons a as ih =>
      cases bs with
      | nil => rfl
      | cons b bs => simpa using ih bs

theorem roundField_map_msg (k : PrimKind) (vfs : FieldList) (idx : Nat)
    (cfg : ProtarrowConfig) (records : List Value) (col : AArray)
    (parents : List Value) (hwf : SchemaWfT (.msgT vfs))
    (hconf : ∀ r ∈ records,
      ConformsField (.mapC k) (.msgT vfs) (getFieldVal r idx))
    (henc : protoMapToArray
      (records.map fun r => (getFieldVal r idx).entriesOf) k (.msgT vfs)
        cfg = .ok col)
    (hpar : List.Forall₂ (fun _r q => FreshPar (.mapC k) (.msgT vfs) idx q)
      records parents)
    (IH : LevelIH cfg vfs) :
    extractField col (.mapC k) (.msgT vfs) idx parents =
      .ok (List.zipWith (fun r q => setFieldVal q idx (getFieldVal r idx))
          records parents,
        records.map fun r =>
          writesField (.mapC k) (.msgT vfs) (getFieldVal r idx)) := by
  have hwfFL : SchemaWfFL vfs := by
    rw [SchemaWfT] at hwf
    exact hwf.2.2
  have hnodup : (namesFL vfs).Nodup := by
    rw [SchemaWfT] at hwf
    exact hwf.2.1
  have hdefV : defaultValueOf (.msgT vfs) = .msgV (defaultFields vfs) := by
    rw [defaultValueOf]
  rw [protoMapToArray, mapKeysColumn] at henc
  simp only [exceptBind_ok] at henc
  rw [protoFieldToArray, messageToArray] at henc
  rw [show ((records.map fun r => (getFieldVal r idx).entriesOf).map
      fun es => es.map fun e => e.2) =
    records.map (fun r =>
      ((getFieldVal r idx).entriesOf).map fun e => e.2) from by
    rw [List.map_map]
    rfl] at henc
  rw [exceptBind_eq_ok] at henc
  obtain ⟨values, hval, hcol⟩ := henc
  rw [exceptBind_eq_ok] at hval
  obtain ⟨pr, hF, hst⟩ := hval
  obtain ⟨flds, arrays⟩ := pr
  have hst' : (Except.ok (AArray.structA flds arrays none) :
      Except String AArray) = .ok values := hst
  simp only [Except.ok.injEq] at hst'
  subst hst'
  have hcol' : (Except.ok (AArray.mapA
      (getOffsets (List.map some
        (records.map fun r => (getFieldVal r idx).entriesOf)))
      (.flat (primPa k)
        ((((records.map fun r => (getFieldVal r idx).entriesOf).map
          fun es => es.map fun e => Value.primV e.1).flatten).map
            primPayload))
      (AArray.structA flds arrays none)) : Except String AArray) = .ok col :=
    hcol
  simp only [Except.ok.injEq] at hcol'
  subst hcol'
  rw [extractField]
  rw [prepareArray_mapA]
  simp only [exceptBind_ok]
  rw [extractRepeatedField]
  rw [extractMapField]
  rw [offsetToSize_getOffsets]
  simp only [exceptBind_ok]
  simp only [elements, List.map_map, List.map_flatten]
  rw [map_comp_fuse3]
  rw [show (records.map fun r =>
      ((getFieldVal r idx).entriesOf).map
        ((fun sv => ((primPa k : AType), sv)) ∘ primPayload ∘
          fun e => Value.primV e.1)) =
    records.map (fun r =>
      (((getFieldVal r idx).entriesOf).map Prod.fst).map
        fun key => ((primPa k : AType), some key)) from by
    refine List.map_congr_left ?_
    intro r _
    rw [List.map_map]
    exact List.map_congr_left fun e _ => rfl]
  rw [show (records.map ((fun g => ((g.length : Int))) ∘
      fun r => (getFieldVal r idx).entriesOf)) =
    records.map (fun r =>
      (((((getFieldVal r idx).entriesOf).map Prod.fst)).length : Int))
    from by
    refine List.map_congr_left ?_
    intro r _
    simp]
  have hR := forall2_with_mem hpar hconf
  rw [reserveLoop_round (fun _ => (primPa k : AType))
    (fun r => ((getFieldVal r idx).entriesOf).map Prod.fst)
    ?hRflr hR 0]
  case hRflr =>
    intro r p hrp
    obtain ⟨hc, pf, rfl, hidx, hget⟩ := hrp
    obtain ⟨es, hfv, -, hnd⟩ := confField_map hc
    refine ⟨⟨pf, rfl, hidx, hget⟩, by simp only [hfv]; exact hnd⟩
  simp only [exceptBind_ok]
  have hFor2 : List.Forall₂ (fun (g : List Scalar) p => ∃ pf, p = .msgV pf ∧
      idx < pf.length ∧
      pf.getD idx junkField =
        .mapF (g.map fun key => (key, defaultValueOf (.msgT vfs))))
      (records.map fun r => ((getFieldVal r idx).entriesOf).map Prod.fst)
      (List.zipWith (fun r p => setFieldVal p idx
        (.mapF ((((getFieldVal r idx).entriesOf).map Prod.fst).map
          fun key => (key, defaultValueOf (.msgT vfs))))) records parents) := by
    refine forall2_map_left _ ?_
    refine forall2_zipWith hR ?_
    intro r q hrq
    obtain ⟨hc, pf, rfl, hidx, hget⟩ := hrq
    refine ⟨pf.set idx (.mapF ((((getFieldVal r idx).entriesOf).map
      Prod.fst).map fun key => (key, defaultValueOf (.msgT vfs)))),
      rfl, by simpa using hidx, ?_⟩
    exact listGetD_set_self pf idx _ junkField hidx
  have h2 := handles_vals idx (defaultValueOf (.msgT vfs))
    (records.map fun r => ((getFieldVal r idx).entriesOf).map Prod.fst)
    [] _ hFor2
  simp only [List.nil_append, List.length_nil] at h2
  rw [List.map_flatten] at h2
  rw [h2]
  have hS : (((records.map fun r =>
      ((getFieldVal r idx).entriesOf).map Prod.fst).map List.length).sum) =
      ((records.map fun r =>
        ((getFieldVal r idx).entriesOf).map fun e => e.2).flatten).length := by
    rw [List.length_flatten, List.map_map, List.map_map]
    refine congrArg List.sum (List.map_congr_left ?_)
    intro r _
    simp
  rw [hS]
  rw [extractArrayMessages]
  rw [IH ((records.map fun r =>
      ((getFieldVal r idx).entriesOf).map fun e => e.2).flatten)
    flds arrays flds arrays _
    ?hconf2 hF (colsAlign_self vfs _ cfg flds arrays hnodup hF)
    ?hfresh2]
  case hconf2 =>
    intro v hv
    obtain ⟨g, hg, hvg⟩ := List.mem_flatten.mp hv
    obtain ⟨r, hr, rfl⟩ := List.mem_map.mp hg
    obtain ⟨e, he, rfl⟩ := List.mem_map.mp hvg
    obtain ⟨es, hfv, hels, -⟩ := confField_map (hconf r hr)
    simp only [hfv] at he
    have he' : e ∈ es := he
    obtain ⟨-, hcv⟩ := hels e he'
    obtain ⟨ws, hw, hfl⟩ := conforms_msg hcv
    rw [hw]
    exact conformsFrom_of_FL vfs 0 ws (by omega) (by simpa using hfl)
  case hfresh2 =>
    refine forall2_replicate_right ?_
    intro v _
    refine ⟨defaultFields vfs, hdefV, ?_⟩
    have := freshFrom_default vfs []
    simpa using this
  simp only [exceptBind_ok]
  rw [zipWith_replicate_right]
  have hid : (((records.map fun r =>
      ((getFieldVal r idx).entriesOf).map fun e => e.2).flatten).map
      (fun v => writeSuffixV vfs 0 v (defaultValueOf (.msgT vfs)))) =
      ((records.map fun r =>
        ((getFieldVal r idx).entriesOf).map fun e => e.2).flatten) := by
    refine Eq.trans (List.map_congr_left ?_) (List.map_id _)
    intro v hv
    obtain ⟨g, hg, hvg⟩ := List.mem_flatten.mp hv
    obtain ⟨r, hr, rfl⟩ := List.mem_map.mp hg
    obtain ⟨e, he, rfl⟩ := List.mem_map.mp hvg
    obtain ⟨es, hfv, hels, -⟩ := confField_map (hconf r hr)
    simp only [hfv] at he
    have he' : e ∈ es := he
    obtain ⟨-, hcv⟩ := hels e he'
    obtain ⟨ws, hw, hfl⟩ := conforms_msg hcv
    rw [hw, hdefV]
    exact writeSuffixV_splice vfs 0 ws (defaultFields vfs)
      (by rw [defaultFields_length, ← ConformsFL_length vfs ws hfl])
      (by
        rw [← ConformsFL_length vfs ws hfl]
        omega)
      (fun j hj => absurd hj (by omega))
  rw [hid]
  have hFor3 : List.Forall₂ (fun (gv : List Scalar × List Value) p => ∃ pf,
      p = .msgV pf ∧ idx < pf.length ∧
      pf.getD idx junkField =
        .mapF (gv.1.map fun key => (key, defaultValueOf (.msgT vfs))) ∧
      gv.1.Nodup ∧ gv.1.length = gv.2.length)
      ((records.map fun r =>
        ((getFieldVal r idx).entriesOf).map Prod.fst).zip
       (records.map fun r =>
        ((getFieldVal r idx).entriesOf).map fun e => e.2))
      (List.zipWith (fun r p => setFieldVal p idx
        (.mapF ((((getFieldVal r idx).entriesOf).map Prod.fst).map
          fun key => (key, defaultValueOf (.msgT vfs))))) records parents) := by
    rw [zip_map_same]
    refine forall2_map_left _ ?_
    refine forall2_zipWith hR ?_
    intro r q hrq
    obtain ⟨hc, pf, rfl, hidx, hget⟩ := hrq
    obtain ⟨es, hfv, -, hnd⟩ := confField_map hc
    refine ⟨pf.set idx (.mapF ((((getFieldVal r idx).entriesOf).map
      Prod.fst).map fun key => (key, defaultValueOf (.msgT vfs)))),
      rfl, by simpa using hidx,
      listGetD_set_self pf idx _ junkField hidx,
      by simp only [hfv]; exact hnd, by simp⟩
  have h3 := writeBackMap_round idx (defaultValueOf (.msgT vfs))
    (records.map fun r => ((getFieldVal r idx).entriesOf).map Prod.fst)
    (records.map fun r => ((getFieldVal r idx).entriesOf).map fun e => e.2)
    [] _ hFor3 (by simp)
  simp only [List.nil_append, List.length_nil] at h3
  rw [h3]
  rw [zip_map_same]
  rw [zipWith_map_zip]
  refine congrArg Except.ok (congrArg₂ Prod.mk ?_ ?_)
  · refine zipWith_congr_forall2 _ _ hR ?_
    intro r q hrq
    obtain ⟨hc, pf, rfl, hidx, hget⟩ := hrq
    obtain ⟨es, hfv, -, -⟩ := confField_map hc
    rw [setFieldVal_setFieldVal]
    simp only [hfv]
    rw [show FieldVal.entriesOf (.mapF es) = es from rfl, zip_fst_snd]
  · rw [mapHandles_isEmpty, List.map_map]
    refine List.map_congr_left ?_
    intro r _
    obtain ⟨es, hfv, -, -⟩ := confField_map (hconf r (by assumption))
    rw [show writesField (.mapC k) (.msgT vfs) (getFieldVal r idx) =
      !(getFieldVal r idx).entriesOf.isEmpty from by rw [writesField]]
    simp only [Function.comp_apply, hfv]
    rw [show FieldVal.entriesOf (.mapF es) = es from rfl]
    cases es <;> rfl

/-- The per-field column encoder selected by the field's cardinality (the
`match` inside `_message_to_array`'s field loop). -/
def encodeFieldCol (card : Card) (t : FieldType) (records : List Value)
    (idx : Nat) (cfg : ProtarrowConfig) : Except String AArray :=
  match card with
  | .mapC k =>
      protoMapToArray (records.map fun r => (getFieldVal r idx).entriesOf) k
        t cfg
  | .repeatedC =>
      repeatedProtoToArray (records.map fun r => (getFieldVal r idx).listOf)
        t cfg
  | .singular =>
      protoFieldToArray (records.map fun r => (getFieldVal r idx).valueOf) t
        (protoFieldValidityMask records idx t card) cfg

theorem messageFieldsToArrays_cons (name : String) (card : Card)
    (t : FieldType) (rest : FieldList) (records : List Value)
    (cfg : ProtarrowConfig) (idx : Nat) :
    messageFieldsToArrays (.cons name card t rest) records cfg idx = (do
      let array ← encodeFieldCol card t records idx cfg
      let (fields, arrays) ← messageFieldsToArrays rest records cfg (idx + 1)
      .ok ((name, protoFieldNullable t card true, atypeOf array) :: fields,
        array :: arrays)) := by
  rw [messageFieldsToArrays.eq_def]
  cases card <;> rfl

mutual
theorem roundTripField (cfg : ProtarrowConfig) (hcfg : CfgOk cfg)
    (card : Card) (t : FieldType) (idx : Nat) (records : List Value)
    (col : AArray) (parents : List Value)
    (hwf : SchemaWfT t) (hcw : FieldCardWf card t)
    (hconf : ∀ r ∈ records, ConformsField card t (getFieldVal r idx))
    (henc : encodeFieldCol card t records idx cfg = .ok col)
    (hpar : List.Forall₂ (fun _r q => FreshPar card t idx q) records parents) :
    extractField col card t idx parents =
      .ok (List.zipWith (fun r q => setFieldVal q idx (getFieldVal r idx))
          records parents,
        records.map fun r => writesField card t (getFieldVal r idx)) := by
  cases card with
  | singular =>
      cases t with
      | prim p =>
          exact roundField_prim p idx cfg records col parents hconf henc hpar
      | enumT vals =>
          exact roundField_enum vals idx cfg records col parents hcfg hwf
            hconf henc hpar
      | tsT =>
          exact roundField_ts idx cfg records col parents hconf henc hpar
      | dateT =>
          exact roundField_date idx cfg records col parents hconf henc hpar
      | todT =>
          exact roundField_tod idx cfg records col parents hconf henc hpar
      | wrapT p =>
          exact roundField_wrap p idx cfg records col parents hconf henc hpar
      | msgT fs =>
          refine roundField_msg fs idx cfg records col parents hwf hconf henc
            hpar ?_
          intro records' flds' arrays' stFields children parents' hc he ha hf
          have hwfFL : SchemaWfFL fs := by
            rw [SchemaWfT] at hwf
            exact hwf.2.2
          exact roundTripFrom cfg hcfg fs 0 records' flds' arrays' stFields
            children parents' hwfFL hc he ha hf
  | repeatedC =>
      cases t with
      | prim p =>
          exact roundField_rep_prim p idx cfg records col parents hconf henc
            hpar
      | enumT vals =>
          exact roundField_rep_enum vals idx cfg records col parents hcfg hwf
            hconf henc hpar
      | tsT =>
          exact roundField_rep_ts idx cfg records col parents hconf henc hpar
      | dateT =>
          exact roundField_rep_date idx cfg records col parents hconf henc
            hpar
      | todT =>
          exact roundField_rep_tod idx cfg records col parents hconf henc
            hpar
      | wrapT p => exact (hcw : False).elim
      | msgT fs =>
          refine roundField_rep_msg fs idx cfg records col parents hwf hconf
            henc hpar ?_
          intro records' flds' arrays' stFields children parents' hc he ha hf
          have hwfFL : SchemaWfFL fs := by
            rw [SchemaWfT] at hwf
            exact hwf.2.2
          exact roundTripFrom cfg hcfg fs 0 records' flds' arrays' stFields
            children parents' hwfFL hc he ha hf
  | mapC k =>
      cases t with
      | prim p =>
          exact roundField_map_prim k p idx cfg records col parents hconf
            henc hpar
      | enumT vals =>
          exact roundField_map_enum k vals idx cfg records col parents hcfg
            hwf hconf henc hpar
      | tsT =>
          exact roundField_map_ts k idx cfg records col parents hconf henc
            hpar
      | dateT =>
          exact roundField_map_date k idx cfg records col parents hconf henc
            hpar
      | todT =>
          exact roundField_map_tod k idx cfg records col parents hconf henc
            hpar
      | wrapT p => exact (hcw : False).elim
      | msgT fs =>
          refine roundField_map_msg k fs idx cfg records col parents hwf
            hconf henc hpar ?_
          intro records' flds' arrays' stFields children parents' hc he ha hf
          have hwfFL : SchemaWfFL fs := by
            rw [SchemaWfT] at hwf
            exact hwf.2.2
          exact roundTripFrom cfg hcfg fs 0 records' flds' arrays' stFields
            children parents' hwfFL hc he ha hf
termination_by 2 * sizeOf t + 1
decreasing_by
  all_goals simp_wf
  all_goals (subst_vars; simp_wf; try omega)

theorem roundTripFrom (cfg : ProtarrowConfig) (hcfg : CfgOk cfg)
    (fs : FieldList) (idx : Nat) (records : List Value)
    (flds : List (String × Bool × AType)) (arrays : List AArray)
    (stFields : List (String × Bool × AType)) (children : List AArray)
    (parents : List Value)
    (hwf : SchemaWfFL fs)
    (hconf : ∀ r ∈ records, ConformsFrom fs idx r)
    (henc : messageFieldsToArrays fs records cfg idx = .ok (flds, arrays))
    (halign : ColsAlign stFields children fs arrays)
    (hfresh : List.Forall₂ (fun _r q => ∃ pf, q = .msgV pf ∧
      FreshFrom fs idx pf) records parents) :
    extractFieldsLoop stFields children fs idx parents =
      .ok (List.zipWith (writeSuffixV fs idx) records parents,
        records.map (writesFrom fs idx)) := by
  cases fs with
  | nil =>
      rw [extractFieldsLoop]
      refine congrArg Except.ok (congrArg₂ Prod.mk ?_ ?_)
      · exact (zipWith_snd_of_length records parents
          (List.Forall₂.length_eq hfresh)).symm
      · rw [← List.Forall₂.length_eq hfresh]
        have hmap : records.map (writesFrom FieldList.nil idx) =
            records.map fun _ => false :=
          List.map_congr_left fun r _ => by rw [writesFrom]
        rw [hmap]
        exact (List.map_const' records false).symm
  | cons name card t rest =>
      rw [SchemaWfFL] at hwf
      obtain ⟨hwfT, hcw, hwfR⟩ := hwf
      rw [messageFieldsToArrays_cons] at henc
      rw [exceptBind_eq_ok] at henc
      obtain ⟨array, harr, henc2⟩ := henc
      rw [exceptBind_eq_ok] at henc2
      obtain ⟨pr, hrest, hcons⟩ := henc2
      obtain ⟨fields2, arrays2⟩ := pr
      have hcons' : (Except.ok
          ((name, protoFieldNullable t card true, atypeOf array) :: fields2,
            array :: arrays2) :
          Except String (List (String × Bool × AType) × List AArray)) =
          .ok (flds, arrays) := hcons
      simp only [Except.ok.injEq, Prod.mk.injEq] at hcons'
      obtain ⟨hflds, harrs⟩ := hcons'
      subst hflds harrs
      have halign' : ((∃ j, getFieldIndex stFields name = some j ∧
          children.getD j (.structA [] [] none) = array) ∧
          ColsAlign stFields children rest arrays2) := halign
      obtain ⟨⟨j, hj, hchild⟩, halignr⟩ := halign'
      have hstep : extractFieldsLoop stFields children
          (.cons name card t rest) idx parents = (do
          let (parents', tch) ←
            extractField (children.getD j (.structA [] [] none)) card t idx
              parents
          let (parents'', tchs) ←
            extractFieldsLoop stFields children rest (idx + 1) parents'
          .ok (parents'', List.zipWith (fun (a b : Bool) => a || b) tch
            tchs)) := by
        rw [extractFieldsLoop, hj]
      rw [hstep, hchild]
      have hconfF : ∀ r ∈ records,
          ConformsField card t (getFieldVal r idx) :=
        fun r hr => (hconf r hr).1
      have hparF : List.Forall₂ (fun _r q => FreshPar card t idx q) records
          parents := by
        refine List.Forall₂.imp ?_ hfresh
        intro r q hq
        obtain ⟨pf, rfl, h1, h2, h3⟩ := hq
        exact ⟨pf, rfl, h1, h2⟩
      rw [roundTripField cfg hcfg card t idx records array parents hwfT hcw
        hconfF harr hparF]
      simp only [exceptBind_ok]
      have hfresh2 : List.Forall₂ (fun _r q => ∃ pf, q = .msgV pf ∧
          FreshFrom rest (idx + 1) pf) records
          (List.zipWith (fun r q => setFieldVal q idx (getFieldVal r idx))
            records parents) := by
        refine forall2_zipWith hfresh ?_
        intro r q hq
        obtain ⟨pf, rfl, h1, h2, h3⟩ := hq
        exact ⟨pf.set idx (getFieldVal r idx), rfl,
          freshFrom_set_lt rest (idx + 1) pf (getFieldVal r idx) idx
            (by omega) h3⟩
      rw [roundTripFrom cfg hcfg rest (idx + 1) records fields2 arrays2
        stFields children _ hwfR (fun r hr => (hconf r hr).2) hrest halignr
        hfresh2]
      simp only [exceptBind_ok]
      refine congrArg Except.ok (congrArg₂ Prod.mk ?_ ?_)
      · rw [zipWith_left_comp]
        rfl
      · rw [zipWith_same_map]
        refine List.map_congr_left ?_
        intro r _
        rw [show writesFrom (.cons name card t rest) idx r =
          (writesField card t (getFieldVal r idx) ||
            writesFrom rest (idx + 1) r) from by rw [writesFrom]]
termination_by 2 * sizeOf fs
decreasing_by
  all_goals simp_wf
  all_goals (subst_vars; simp_wf; try omega)
end

/-! ## Claim C1: the encode/decode round trip -/

/-- C1 counterexample: the round trip does not hold for *every* configuration.
With the default configuration (enums as binary), a set singular enum value
encodes to a binary element; the decoder's name lookup is `str`-keyed, so the
bytes element matches nothing, the assigner skips the row, and the decoded
message keeps the default enum number 0 — the value 1 is lost, a lossy case
not among the three listed by the claim. -/
theorem round_trip_enum_default_config_loses :
    messagesToRecordBatch [Value.msgV [FieldVal.single true (.enumV 1)]]
        (.cons "e" .singular (.enumT [(0, "A"), (1, "B")]) .nil) {} =
      .ok ⟨[("e", false, .binaryT)], [.flat .binaryT [some (.bin "B")]], 1⟩ ∧
    recordBatchToMessages
        ⟨[("e", false, .binaryT)], [.flat .binaryT [some (.bin "B")]], 1⟩
        (.cons "e" .singular (.enumT [(0, "A"), (1, "B")]) .nil) =
      .ok [Value.msgV [FieldVal.single true (.enumV 0)]] ∧
    Value.msgV [FieldVal.single true (.enumV 0)] ≠
      Value.msgV [FieldVal.single true (.enumV 1)] := by
  refine ⟨?_, ?_, by simp⟩
  · rw [messagesToRecordBatch, messageToArray, messageFieldsToArrays.eq_def]
    simp only []
    rw [protoFieldToArray.eq_def]
    simp only []
    rw [messageFieldsToArrays.eq_def]
    rfl
  · rw [recordBatchToMessages, extractRecordBatchMessages,
      extractFieldsLoop.eq_def]
    simp only [List.replicate]
    rw [show getFieldIndex [("e", false, AType.binaryT)] "e" = some 0
      from rfl]
    simp only []
    rw [extractField.eq_def]
    rw [show prepareArray ([AArray.flat .binaryT [some (.bin "B")]].getD 0
        (.structA [] [] none)) =
      .ok (.flat .binaryT [some (Scalar.bin "B")]) from rfl]
    simp only [exceptBind_ok]
    rw [show (do
        let conv ← getConverter (FieldType.enumT [(0, "A"), (1, "B")])
        plainLoop (FieldType.enumT [(0, "A"), (1, "B")]) conv 0
          [defaultValueOf (FieldType.msgT (FieldList.cons "e" Card.singular
            (FieldType.enumT [(0, "A"), (1, "B")]) FieldList.nil))]
          (elements (AArray.flat AType.binaryT [some (Scalar.bin "B")])) :
          Except String (List Value × List Bool)) =
      .ok ([Value.msgV [FieldVal.single true (Value.enumV 0)]], [false])
      from rfl]
    simp only [exceptBind_ok]
    rw [extractFieldsLoop.eq_def]
    rfl

/-- C1 (amended): the round trip holds for the configurations whose enum
representation the decoder can read back (string or dictionary-of-string
enums): for a well-formed schema, any configuration with a string-backed enum
type, and any messages conforming to the schema, decoding the encoded record
batch restores the original messages exactly — no unit truncation occurs
because the encoder always stores nanoseconds (columns are typed `ns`), and a
conforming `Date` has `year ≥ 1`. -/
theorem messages_record_batch_round_trip (fs : FieldList)
    (cfg : ProtarrowConfig) (records : List Value) (rb : RecordBatch)
    (hwf : SchemaWfT (.msgT fs)) (hcfg : CfgOk cfg)
    (hconf : ∀ r ∈ records, Conforms (.msgT fs) r)
    (henc : messagesToRecordBatch records fs cfg = .ok rb) :
    recordBatchToMessages rb fs = .ok records := by
  have hwfFL : SchemaWfFL fs := by
    rw [SchemaWfT] at hwf
    exact hwf.2.2
  have hnodup : (namesFL fs).Nodup := by
    rw [SchemaWfT] at hwf
    exact hwf.2.1
  rw [messagesToRecordBatch] at henc
  rw [exceptBind_eq_ok] at henc
  obtain ⟨a, ha, hrb⟩ := henc
  have hrb' : (Except.ok (recordBatchFromStructArray a) :
      Except String RecordBatch) = .ok rb := hrb
  simp only [Except.ok.injEq] at hrb'
  subst hrb'
  rw [messageToArray] at ha
  rw [exceptBind_eq_ok] at ha
  obtain ⟨pr, hF, hok⟩ := ha
  obtain ⟨flds, arrays⟩ := pr
  have hok' : (Except.ok (AArray.structA flds arrays none) :
      Except String AArray) = .ok a := hok
  simp only [Except.ok.injEq] at hok'
  subst hok'
  have hpfta : protoFieldToArray records (.msgT fs) none cfg =
      .ok (.structA flds arrays none) := by
    rw [protoFieldToArray, messageToArray, hF]
    rfl
  have halen := (protoFieldToArray_shape records (.msgT fs) none cfg _
    (schemaWf_msgNonempty _ hwf) hpfta).1
  rw [recordBatchToMessages, extractRecordBatchMessages]
  rw [show recordBatchFromStructArray (.structA flds arrays none) =
    (⟨flds, arrays, alen (.structA flds arrays none)⟩ : RecordBatch)
    from rfl]
  simp only []
  rw [halen]
  rw [roundTripFrom cfg hcfg fs 0 records flds arrays flds arrays
    (List.replicate records.length (defaultValueOf (.msgT fs)))
    hwfFL ?hcf hF (colsAlign_self fs records cfg flds arrays hnodup hF)
    ?hfr]
  case hcf =>
    intro r hr
    obtain ⟨vs, rfl, hfl⟩ := conforms_msg (hconf r hr)
    exact conformsFrom_of_FL fs 0 vs (by omega) (by simpa using hfl)
  case hfr =>
    rw [show defaultValueOf (.msgT fs) = .msgV (defaultFields fs) from by
      rw [defaultValueOf]]
    refine forall2_replicate_right ?_
    intro r _
    refine ⟨defaultFields fs, rfl, ?_⟩
    have := freshFrom_default fs []
    simpa using this
  simp only [exceptBind_ok]
  rw [zipWith_replicate_right]
  refine congrArg Except.ok ?_
  refine Eq.trans (List.map_congr_left ?_) (List.map_id records)
  intro r hr
  obtain ⟨vs, rfl, hfl⟩ := conforms_msg (hconf r hr)
  rw [show defaultValueOf (.msgT fs) = .msgV (defaultFields fs) from by
    rw [defaultValueOf]]
  exact writeSuffixV_splice fs 0 vs (defaultFields fs)
    (by rw [defaultFields_length, ← ConformsFL_length fs vs hfl])
    (by
      rw [← ConformsFL_length fs vs hfl]
      omega)
    (fun j hj => absurd hj (by omega))

/-- Witness for `messages_record_batch_round_trip`: one message with a single
`int32` field set to 5, encoded with a string-enum configuration, decodes back
to itself. -/
theorem messages_record_batch_round_trip_witness :
    recordBatchToMessages
        ⟨[("x", false, .int32T)], [.flat .int32T [some (.i 5)]], 1⟩
        (.cons "x" .singular (.prim .int32P) .nil) =
      .ok [Value.msgV [FieldVal.single true (.primV (.i 5))]] := by
  refine messages_record_batch_round_trip
    (.cons "x" .singular (.prim .int32P) .nil)
    ⟨.stringT, .ns, "UTC", .ns⟩
    [Value.msgV [FieldVal.single true (.primV (.i 5))]]
    ⟨[("x", false, .int32T)], [.flat .int32T [some (.i 5)]], 1⟩
    ?_ (Or.inl rfl) ?_ ?_
  · rw [SchemaWfT]
    refine ⟨fun h => FieldList.noConfusion h, ?_, ?_⟩
    · rw [namesFL, namesFL]
      simp
    · rw [SchemaWfFL]
      refine ⟨?_, ?_, ?_⟩
      · rw [SchemaWfT]
        all_goals
          first
          | trivial
          | exact fun _ h => FieldType.noConfusion h
      · rw [FieldCardWf]
        trivial
      · rw [SchemaWfFL]
        trivial
  · intro r hr
    rw [List.mem_singleton] at hr
    subst hr
    rw [Conforms.eq_def]
    show ConformsFL (.cons "x" .singular (.prim .int32P) .nil)
      [FieldVal.single true (.primV (.i 5))]
    rw [ConformsFL.eq_def]
    show ConformsField .singular (.prim .int32P)
        (FieldVal.single true (.primV (.i 5))) ∧
      ConformsFL .nil []
    refine ⟨?_, ?_⟩
    · rw [ConformsField.eq_def]
      show true = true ∧ Conforms (.prim .int32P) (.primV (.i 5))
      refine ⟨rfl, ?_⟩
      rw [Conforms.eq_def]
      show scalarMatches .int32P (.i 5) = true
      rfl
    · rw [ConformsFL.eq_def]
  · rw [messagesToRecordBatch, messageToArray, messageFieldsToArrays.eq_def]
    simp only []
    rw [protoFieldToArray.eq_def]
    simp only []
    rw [messageFieldsToArrays.eq_def]
    rfl

/-! ## Claim C8: map-with-sub-message decode associates values to keys -/

/-- C8: decoding a map column whose value kind is a plain sub-message
(`{x: int32}` here) associates each value row with the key at the same row:
the extractor reserves one map slot per key and the write-back pairs the
extracted sub-messages with the keys in row order, so the decoded entries are
exactly `ks.zip` of the value messages; in particular keys `["k"]` with value
column `x = [5]` attach `x = 5` to the entry keyed `"k"`. -/
theorem map_submessage_key_association (kkind : PrimKind) (ks : List Scalar)
    (xs : List Int)
    (hnd : ks.Nodup) (hmatch : ∀ s ∈ ks, scalarMatches kkind s = true)
    (hlen : ks.length = xs.length) :
    extractField
        (.mapA [some 0, some ((ks.length : Int))]
          (.flat (primPa kkind) (ks.map some))
          (.structA [("x", false, .int32T)]
            [.flat .int32T (xs.map fun n => some (.i n))] none))
        (.mapC kkind) (.msgT (.cons "x" .singular (.prim .int32P) .nil)) 0
        [Value.msgV [FieldVal.mapF []]] =
      .ok ([Value.msgV [FieldVal.mapF
          (ks.zip (xs.map fun n =>
            Value.msgV [FieldVal.single true (.primV (.i n))]))]],
        [!ks.isEmpty]) := by
  have hmlen : (xs.map fun n =>
      Value.msgV [FieldVal.single true (.primV (.i n))]).length =
      xs.length := List.length_map _ _
  have hzlen : (ks.zip (xs.map fun n =>
      Value.msgV [FieldVal.single true (.primV (.i n))])).length =
      ks.length := by
    rw [List.length_zip, hmlen, hlen, Nat.min_self]
  have hfst : (ks.zip (xs.map fun n =>
      Value.msgV [FieldVal.single true (.primV (.i n))])).map Prod.fst =
      ks := List.map_fst_zip _ _ (by rw [hmlen, hlen])
  have hsnd : (ks.zip (xs.map fun n =>
      Value.msgV [FieldVal.single true (.primV (.i n))])).map Prod.snd =
      xs.map (fun n => Value.msgV [FieldVal.single true (.primV (.i n))]) :=
    List.map_snd_zip _ _ (by rw [hmlen, hlen])
  have hwf8 : SchemaWfT (.msgT (.cons "x" .singular (.prim .int32P) .nil)) := by
    rw [SchemaWfT]
    refine ⟨fun h => FieldList.noConfusion h, ?_, ?_⟩
    · rw [namesFL, namesFL]
      simp
    · rw [SchemaWfFL]
      refine ⟨?_, ?_, ?_⟩
      · rw [SchemaWfT]
        all_goals
          first
          | trivial
          | exact fun _ h => FieldType.noConfusion h
      · rw [FieldCardWf]
        trivial
      · rw [SchemaWfFL]
        trivial
  have hconf8 : ∀ r ∈ [Value.msgV [FieldVal.mapF
      (ks.zip (xs.map fun n =>
        Value.msgV [FieldVal.single true (.primV (.i n))]))]],
      ConformsField (.mapC kkind)
        (.msgT (.cons "x" .singular (.prim .int32P) .nil))
        (getFieldVal r 0) := by
    intro r hr
    rw [List.mem_singleton] at hr
    subst hr
    rw [ConformsField.eq_def]
    show (∀ e ∈ ks.zip (xs.map fun n =>
        Value.msgV [FieldVal.single true (.primV (.i n))]),
        scalarMatches kkind e.1 = true ∧
        Conforms (.msgT (.cons "x" .singular (.prim .int32P) .nil)) e.2) ∧
      ((ks.zip (xs.map fun n =>
        Value.msgV [FieldVal.single true (.primV (.i n))])).map
        Prod.fst).Nodup
    refine ⟨?_, by rw [hfst]; exact hnd⟩
    intro e he
    obtain ⟨ek, ev⟩ := e
    obtain ⟨hk, hv⟩ := List.of_mem_zip he
    obtain ⟨n, -, rfl⟩ := List.mem_map.mp hv
    refine ⟨hmatch ek hk, ?_⟩
    rw [Conforms.eq_def]
    show ConformsFL (.cons "x" .singular (.prim .int32P) .nil)
      [FieldVal.single true (.primV (.i n))]
    rw [ConformsFL.eq_def]
    show ConformsField .singular (.prim .int32P)
        (FieldVal.single true (.primV (.i n))) ∧
      ConformsFL .nil []
    refine ⟨?_, ?_⟩
    · rw [ConformsField.eq_def]
      show true = true ∧ Conforms (.prim .int32P) (.primV (.i n))
      refine ⟨rfl, ?_⟩
      rw [Conforms.eq_def]
      show scalarMatches .int32P (.i n) = true
      rfl
    · rw [ConformsFL.eq_def]
  have hIH : LevelIH ⟨.stringT, .ns, "UTC", .ns⟩
      (.cons "x" .singular (.prim .int32P) .nil) := by
    intro records' flds' arrays' stFields children parents' hc he ha hf
    refine roundTripFrom ⟨.stringT, .ns, "UTC", .ns⟩ (Or.inl rfl)
      (.cons "x" .singular (.prim .int32P) .nil) 0 records' flds' arrays'
      stFields children parents' ?_ hc he ha hf
    rw [SchemaWfFL]
    refine ⟨?_, ?_, ?_⟩
    · rw [SchemaWfT]
      all_goals
        first
        | trivial
        | exact fun _ h => FieldType.noConfusion h
    · rw [FieldCardWf]
      trivial
    · rw [SchemaWfFL]
      trivial
  have hval : protoFieldToArray
      (xs.map fun n => Value.msgV [FieldVal.single true (.primV (.i n))])
      (.msgT (.cons "x" .singular (.prim .int32P) .nil)) none
      ⟨.stringT, .ns, "UTC", .ns⟩ =
      .ok (.structA [("x", false, .int32T)]
        [.flat .int32T (xs.map fun n => some (.i n))] none) := by
    rw [protoFieldToArray, messageToArray, messageFieldsToArrays.eq_def]
    simp only []
    rw [protoFieldToArray.eq_def]
    simp only []
    rw [show protoFieldValidityMask
        (xs.map fun n => Value.msgV [FieldVal.single true (.primV (.i n))])
        0 (.prim .int32P) .singular = none from rfl]
    rw [maskedElems_none (f := primPayload) (fun r _ => rfl)]
    simp only [exceptBind_ok]
    rw [messageFieldsToArrays.eq_def]
    simp only [exceptBind_ok]
    rw [List.map_map, List.map_map]
    rw [List.map_congr_left (fun (n : Int) _ =>
      (rfl : ((primPayload ∘ fun r => (getFieldVal r 0).valueOf) ∘
        fun n => Value.msgV [FieldVal.single true (.primV (.i n))]) n =
        some (.i n)))]
    rfl
  have henc8 : protoMapToArray
      ([Value.msgV [FieldVal.mapF (ks.zip (xs.map fun n =>
          Value.msgV [FieldVal.single true (.primV (.i n))]))]].map
        fun r => (getFieldVal r 0).entriesOf) kkind
      (.msgT (.cons "x" .singular (.prim .int32P) .nil))
      ⟨.stringT, .ns, "UTC", .ns⟩ =
      .ok (.mapA [some 0, some ((ks.length : Int))]
        (.flat (primPa kkind) (ks.map some))
        (.structA [("x", false, .int32T)]
          [.flat .int32T (xs.map fun n => some (.i n))] none)) := by
    rw [show ([Value.msgV [FieldVal.mapF (ks.zip (xs.map fun n =>
        Value.msgV [FieldVal.single true (.primV (.i n))]))]].map
        fun r => (getFieldVal r 0).entriesOf) =
      [ks.zip (xs.map fun n =>
        Value.msgV [FieldVal.single true (.primV (.i n))])] from rfl]
    rw [protoMapToArray, mapKeysColumn]
    simp only [exceptBind_ok]
    rw [show ((([ks.zip (xs.map fun n =>
        Value.msgV [FieldVal.single true (.primV (.i n))])].map
          fun es => es.map fun e => Value.primV e.1).flatten).map
          primPayload) = ks.map some from by
      simp only [List.map_cons, List.map_nil, List.flatten_cons,
        List.flatten_nil, List.append_nil, List.map_map]
      rw [show (primPayload ∘ fun (e : Scalar × Value) =>
          Value.primV e.1) = (some ∘ Prod.fst) from rfl]
      rw [← List.map_map, hfst]]
    rw [show (([ks.zip (xs.map fun n =>
        Value.msgV [FieldVal.single true (.primV (.i n))])].map
          fun es => es.map fun e => e.2).flatten) =
      xs.map (fun n => Value.msgV [FieldVal.single true (.primV (.i n))])
      from by
      simp only [List.map_cons, List.map_nil, List.flatten_cons,
        List.flatten_nil, List.append_nil]
      rw [show (fun (e : Scalar × Value) => e.2) = Prod.snd from rfl]
      exact hsnd]
    rw [hval]
    simp only [exceptBind_ok]
    rw [show getOffsets (List.map some [ks.zip (xs.map fun n =>
        Value.msgV [FieldVal.single true (.primV (.i n))])]) =
      [some 0, some ((ks.length : Int))] from by
      rw [show getOffsets (List.map some [ks.zip (xs.map fun n =>
          Value.msgV [FieldVal.single true (.primV (.i n))])]) =
        [some 0, some ((0 : Int) + ((ks.zip (xs.map fun n =>
          Value.msgV [FieldVal.single true
            (.primV (.i n))])).length : Int))] from rfl]
      rw [zero_add, hzlen]]
  have hpar8 : List.Forall₂ (fun _r q => FreshPar (.mapC kkind)
      (.msgT (.cons "x" .singular (.prim .int32P) .nil)) 0 q)
      [Value.msgV [FieldVal.mapF (ks.zip (xs.map fun n =>
        Value.msgV [FieldVal.single true (.primV (.i n))]))]]
      [Value.msgV [FieldVal.mapF []]] := by
    refine List.Forall₂.cons ⟨[FieldVal.mapF []], rfl, by simp, rfl⟩
      List.Forall₂.nil
  have hkey := roundField_map_msg kkind
    (.cons "x" .singular (.prim .int32P) .nil) 0
    ⟨.stringT, .ns, "UTC", .ns⟩
    [Value.msgV [FieldVal.mapF (ks.zip (xs.map fun n =>
      Value.msgV [FieldVal.single true (.primV (.i n))]))]]
    (.mapA [some 0, some ((ks.length : Int))]
      (.flat (primPa kkind) (ks.map some))
      (.structA [("x", false, .int32T)]
        [.flat .int32T (xs.map fun n => some (.i n))] none))
    [Value.msgV [FieldVal.mapF []]]
    hwf8 hconf8 henc8 hpar8 hIH
  rw [hkey]
  refine congrArg Except.ok (congrArg₂ Prod.mk rfl ?_)
  simp only [List.map_cons, List.map_nil]
  rw [show (getFieldVal (Value.msgV [FieldVal.mapF (ks.zip (xs.map fun n =>
      Value.msgV [FieldVal.single true (.primV (.i n))]))]) 0) =
    FieldVal.mapF (ks.zip (xs.map fun n =>
      Value.msgV [FieldVal.single true (.primV (.i n))])) from rfl]
  rw [show writesField (.mapC kkind)
      (.msgT (.cons "x" .singular (.prim .int32P) .nil))
      (FieldVal.mapF (ks.zip (xs.map fun n =>
        Value.msgV [FieldVal.single true (.primV (.i n))]))) =
    !(FieldVal.mapF (ks.zip (xs.map fun n =>
      Value.msgV [FieldVal.single true
        (.primV (.i n))]))).entriesOf.isEmpty from by rw [writesField]]
  rw [show FieldVal.entriesOf (FieldVal.mapF (ks.zip (xs.map fun n =>
      Value.msgV [FieldVal.single true (.primV (.i n))]))) =
    ks.zip (xs.map fun n =>
      Value.msgV [FieldVal.single true (.primV (.i n))]) from rfl]
  have hie : (ks.zip (xs.map fun n =>
      Value.msgV [FieldVal.single true (.primV (.i n))])).isEmpty =
      ks.isEmpty := by
    cases ks with
    | nil => rfl
    | cons k ks' =>
        cases xs with
        | nil => simp at hlen
        | cons x xs' => rfl
  rw [hie]

/-- Witness for `map_submessage_key_association`: the claim's instance —
keys `["k"]`, value column `x = [5]` — decodes to the single entry
`"k" ↦ {x = 5}`. -/
theorem map_submessage_key_association_witness :
    extractField
        (.mapA [some 0, some 1]
          (.flat (primPa .stringP) [some (.s "k")])
          (.structA [("x", false, .int32T)]
            [.flat .int32T [some (.i 5)]] none))
        (.mapC .stringP)
        (.msgT (.cons "x" .singular (.prim .int32P) .nil)) 0
        [Value.msgV [FieldVal.mapF []]] =
      .ok ([Value.msgV [FieldVal.mapF
          [(.s "k", Value.msgV [FieldVal.single true (.primV (.i 5))])]]],
        [true]) :=
  map_submessage_key_association .stringP [.s "k"] [5]
    (List.nodup_singleton _)
    (by
      intro s hs
      rw [List.mem_singleton] at hs
      subst hs
      rfl)
    rfl

end Protarrow
